import Mathlib

/-!
Yamlyze: the declaration walker of `applications/yamlyze/yamlyze.cpp`.

A shallow embedding of the AST visitor (`YamlyzeVisitor`) and of the YAML tables it
fills.  The clang AST is an input: every declaration is a record of the answers the
visitor asks of it (`getLocation`, `hasBody`, `getStorageClass`, ...).  The yaml-cpp
tables are values of type `Node`; a C++ statement such as
`functions[name]["args"].push_back(x)` becomes an update of the table along the path
`name`, `"args"`.  A yaml-cpp exception (`BadSubscript`, `BadPushback`) is `none`.
The function `main` follows: the options file, the module name and the exit code, with
the file system and the front end as an `Environment` of answers.
-/

namespace Yamlyze

/-! ## yaml-cpp nodes -/

/-- A yaml-cpp node.  `null` is a default-constructed `YAML::Node` (what `= {}` assigns),
`str` and `int` are scalars (yaml-cpp keeps the text of an integer; the embedding keeps
the integer itself), `seq` a sequence, `map` a mapping in insertion order. -/
inductive Node where
  | null : Node
  | str (s : String) : Node
  | int (i : Int) : Node
  | seq (xs : List Node) : Node
  | map (kvs : List (String × Node)) : Node

/-- The value stored under the first key equal to `key` (yaml-cpp searches the pairs of
a mapping front to back). -/
def lookupKey (key : String) : List (String × Node) → Option Node
  | [] => none
  | (k, v) :: rest => if k = key then some v else lookupKey key rest

/-- Replace the value under `key`, or append the pair when the key is absent
(`node_data::get` followed by an assignment to the node it returns). -/
def upsert (key : String) (v : Node) : List (String × Node) → List (String × Node)
  | [] => [(key, v)]
  | (k, w) :: rest => if k = key then (k, v) :: rest else (k, w) :: upsert key v rest

/-- The pairs a node has once the non-const `operator[]` with a string key has run on it:
a null node becomes an empty mapping, a sequence is converted to a mapping keyed by the
indices, a scalar throws `BadSubscript`. -/
def Node.toMap : Node → Option (List (String × Node))
  | .null => some []
  | .map kvs => some kvs
  | .seq xs => some (xs.enum.map fun p => (toString p.1, p.2))
  | .str _ => none
  | .int _ => none

/-- The statement `n[key] <op>`: the child under `key` (a fresh null node when absent) is
replaced by what `op` makes of it. -/
def Node.update (n : Node) (key : String) (op : Node → Option Node) : Option Node :=
  match n.toMap with
  | none => none
  | some kvs =>
    match op ((lookupKey key kvs).getD .null) with
    | none => none
    | some v => some (.map (upsert key v kvs))

/-- The method `Node::push_back`: a null node becomes a one-element sequence, a sequence grows at
its end, every other node throws `BadPushback`. -/
def Node.push_back (n : Node) (x : Node) : Option Node :=
  match n with
  | .null => some (.seq [x])
  | .seq xs => some (.seq (xs ++ [x]))
  | _ => none

/-- Read-only lookup in a mapping. -/
def Node.find? (n : Node) (key : String) : Option Node :=
  match n with
  | .map kvs => lookupKey key kvs
  | _ => none

/-- The keys of a mapping, in insertion order. -/
def Node.keys : Node → List String
  | .map kvs => kvs.map Prod.fst
  | _ => []

/-- The elements of a node read as a sequence (`size()` of a null node is 0). -/
def Node.elems : Node → List Node
  | .seq xs => xs
  | _ => []

/-- The statement `tbl[name][field] = v`. -/
def assign2 (tbl : Node) (name field : String) (v : Node) : Option Node :=
  tbl.update name fun r => r.update field fun _ => some v

/-- The statement `tbl[name][field].push_back(v)`. -/
def push_back2 (tbl : Node) (name field : String) (v : Node) : Option Node :=
  tbl.update name fun r => r.update field fun a => a.push_back v

/-- The statement `tbl[name][field][key] = v`. -/
def assign3 (tbl : Node) (name field key : String) (v : Node) : Option Node :=
  tbl.update name fun r => r.update field fun d => d.update key fun _ => some v

/-- The node at `tbl[name][field]`, read without modifying the table. -/
def field? (tbl : Node) (name field : String) : Option Node :=
  (tbl.find? name).bind fun r => r.find? field

/-! ## The clang AST, as far as the visitor looks at it -/

/-- A source location together with what the `SourceManager` answers about it. -/
structure SourceLocation where
  isValid : Bool
  isInSystemHeader : Bool
  /-- The name of the file entry of the location (`FE->getName()`), when there is one. -/
  getFileEntryRef : Option String

/-- Storage classes of `clang::StorageClass`. -/
inductive StorageClass where
  | SC_None | SC_Extern | SC_Static | SC_PrivateExtern | SC_Auto | SC_Register
  deriving DecidableEq, Repr

/-- A field of a record declaration. -/
structure FieldDecl where
  getNameAsString : String
  /-- The text of `getType().getAsString()`. -/
  getTypeAsString : String

/-- A record declaration (struct, union or class). -/
structure RecordDecl where
  isStruct : Bool
  fields : List FieldDecl

/-- An `llvm::APSInt`: `BitWidth` bits holding the unsigned number `U`. -/
structure APSInt where
  BitWidth : Nat
  U : Nat
  IsUnsigned : Bool

/-- An enumerator. -/
structure EnumConstantDecl where
  getNameAsString : String
  getInitVal : APSInt

/-- An enum declaration. -/
structure EnumDecl where
  enumerators : List EnumConstantDecl

/-- A qualified type. -/
structure QualType where
  getAsString : String
  isIncompleteType : Bool
  isDependentType : Bool
  /-- The value of `ASTContext::getTypeSize`, in bits (a `uint64_t`). -/
  getTypeSize : Nat
  /-- The declaration behind `getAs<RecordType>()`, when the type is a record type. -/
  getAsRecordType : Option RecordDecl
  /-- The declaration behind `getAs<EnumType>()`, when the type is an enum type. -/
  getAsEnumType : Option EnumDecl

/-- A function parameter. -/
structure ParmVarDecl where
  getNameAsString : String
  getType : QualType

/-- A function declaration. -/
structure FunctionDecl where
  getLocation : SourceLocation
  hasBody : Bool
  getNameAsString : String
  getStorageClass : StorageClass
  getReturnType : QualType
  params : List ParmVarDecl
  /-- The formatted text of the raw comment attached to the declaration, if any. -/
  getRawComment : Option String

/-- A call expression; `getDirectCallee` is the name of the callee when it resolves. -/
structure CallExpr where
  getDirectCallee : Option String

/-- A variable declaration. -/
structure VarDecl where
  hasGlobalStorage : Bool
  getLocation : SourceLocation
  getNameAsString : String
  getStorageClass : StorageClass
  /-- Whether `getDeclContext()->isTranslationUnit()`. -/
  isTranslationUnit : Bool
  getType : QualType

/-- A typedef declaration. -/
structure TypedefDecl where
  getLocation : SourceLocation
  getNameAsString : String
  getUnderlyingType : QualType
  getRawComment : Option String

/-! ## Global variables of the program -/

/-- The option variables, fixed during a traversal.  `weakly_canonical` is the file
system's canonicalisation of a path. -/
structure Globals where
  module_filepath : String
  analyze_all_files : Bool
  analyze_function_calls : Bool
  analyze_docs : Bool
  analyze_includes : Bool
  process_as_header_file : Bool
  weakly_canonical : String → String

/-- The tables and the current-function context, changed by the traversal. -/
structure State where
  functions : Node
  /-- The table `variables` of the source (the plain name is reserved in Lean). -/
  variables_ : Node
  types : Node
  headers : Node
  current_function_name : String

/-- The state at program start (lines 29-33). -/
def State.init : State :=
  { functions := .null, variables_ := .null, types := .null, headers := .null,
    current_function_name := "" }

/-- The method `std::filesystem::path::compare` on two canonical paths: 0 exactly when they are the
same path, otherwise negative or positive by the lexicographic order. -/
def path_compare (a b : String) : Int :=
  if a = b then 0 else if a.data < b.data then -1 else 1

/-- Conversion of a 64-bit unsigned value to `int64_t`. -/
def toInt64 (n : Nat) : Int :=
  let m : Nat := n % 2 ^ 64
  if m < 2 ^ 63 then (m : Int) else (m : Int) - 2 ^ 64

/-- The method `APInt::getSExtValue`, whose result is an `int64_t`.  A value of at most
64 bits is held in a single word and is sign-extended from its width
(`SignExtend64(U.VAL, BitWidth)`): its bits read as a two-complement number.  Of a wider
value the low word `U.pVal[0]` is returned, converted to `int64_t`; llvm asserts at
that point that the value has at most 64 significant bits, an assertion that a release
build of the library compiles out, and under which the low word is the value itself. -/
def APSInt.getSExtValue (v : APSInt) : Int :=
  let u := v.U % 2 ^ v.BitWidth
  if v.BitWidth ≤ 64 then
    if 2 * u < 2 ^ v.BitWidth then (u : Int) else (u : Int) - 2 ^ v.BitWidth
  else toInt64 (u % 2 ^ 64)

/-- The conversion `static_cast<int>` of an `int64_t`. -/
def toInt32 (x : Int) : Int :=
  let m := x % 2 ^ 32
  if m < 2 ^ 31 then m else m - 2 ^ 32

/-! ## `VisitFunctionDecl` -/

/-- Lines 58-71: whether one of the early returns on the location fires. -/
def skipFunctionDecl (g : Globals) (FD : FunctionDecl) : Bool :=
  if !FD.getLocation.isValid || FD.getLocation.isInSystemHeader then true
  else if !g.analyze_all_files then
    match FD.getLocation.getFileEntryRef with
    | none => true
    | some FE => path_compare g.module_filepath (g.weakly_canonical FE) != 0
  else false

/-- Lines 81-86. -/
def functionStorageClass : StorageClass → String
  | .SC_Static => "static"
  | .SC_Extern => "extern"
  | _ => "normal"

/-- Lines 108-114: the size recorded for a parameter type. -/
def paramSize (ParamType : QualType) : Int :=
  if !ParamType.isIncompleteType && !ParamType.isDependentType then
    toInt32 (toInt64 (ParamType.getTypeSize % 2 ^ 64 / 8))
  else -1

/-- Lines 103-114: the node built for one parameter. -/
def new_arg (Param : ParmVarDecl) : Node :=
  .map [("name", .str Param.getNameAsString),
        ("type", .str Param.getType.getAsString),
        ("size", .int (paramSize Param.getType))]

/-- Lines 100-117: the parameter loop. -/
def pushParams (function_name : String) : List ParmVarDecl → Node → Option Node
  | [], functions => some functions
  | Param :: rest, functions =>
    (push_back2 functions function_name "args" (new_arg Param)).bind
      (pushParams function_name rest)

/-- Lines 120-126. -/
def functionDocs (g : Globals) (FD : FunctionDecl) (function_name : String)
    (functions : Node) : Option Node :=
  if g.analyze_docs then
    match FD.getRawComment with
    | some CommentText => assign3 functions function_name "docs" "raw" (.str CommentText)
    | none => some functions
  else some functions

/-- Lines 77-126: the part of `VisitFunctionDecl` after the early returns. -/
def recordFunctionDecl (g : Globals) (FD : FunctionDecl) (s : State) : Option State :=
  let function_name := FD.getNameAsString
  let storage_class := functionStorageClass FD.getStorageClass
  let return_type := FD.getReturnType.getAsString
  ((((((assign2 s.functions function_name "class" (.str storage_class)).bind
    fun f => assign2 f function_name "args" .null).bind
    fun f => assign2 f function_name "calls" .null).bind
    fun f => assign2 f function_name "docs" .null).bind
    fun f => assign2 f function_name "returns" (.str return_type)).bind
    fun f => pushParams function_name FD.params f).bind
    fun f => (functionDocs g FD function_name f).map
    fun f => { s with functions := f, current_function_name := function_name }

/-- The method `YamlyzeVisitor::VisitFunctionDecl` (lines 56-129). -/
def VisitFunctionDecl (g : Globals) (FD : FunctionDecl) (s : State) : Option State :=
  if skipFunctionDecl g FD then some s
  else if !g.process_as_header_file && !FD.hasBody then some s
  else recordFunctionDecl g FD s

/-! ## `VisitCallExpr` -/

/-- The method `YamlyzeVisitor::VisitCallExpr` (lines 131-141). -/
def VisitCallExpr (g : Globals) (CE : CallExpr) (s : State) : Option State :=
  if !g.analyze_function_calls || s.current_function_name.isEmpty then some s
  else
    match CE.getDirectCallee with
    | some Callee =>
      (push_back2 s.functions s.current_function_name "calls" (.str Callee)).map
        fun f => { s with functions := f }
    | none => some s

/-! ## `VisitVarDecl` -/

/-- Lines 148-161: whether one of the early returns on the location fires. -/
def skipVarDecl (g : Globals) (VD : VarDecl) : Bool :=
  if !VD.getLocation.isValid || VD.getLocation.isInSystemHeader then true
  else if !g.analyze_all_files then
    match VD.getLocation.getFileEntryRef with
    | none => true
    | some FE => path_compare g.module_filepath (g.weakly_canonical FE) != 0
  else false

/-- Lines 165-170. -/
def variableStorageClass : StorageClass → String
  | .SC_Static => "static"
  | .SC_Extern => "extern"
  | _ => "global"

/-- Lines 163-177: the part of `VisitVarDecl` after the early returns. -/
def recordVarDecl (VD : VarDecl) (s : State) : Option State :=
  let var_name := VD.getNameAsString
  let storage_class := variableStorageClass VD.getStorageClass
  ((if VD.isTranslationUnit then assign2 s.variables_ var_name "class" (.str storage_class)
    else some s.variables_).bind
    fun v => assign2 v var_name "type" (.str VD.getType.getAsString)).map
    fun v => { s with variables_ := v }

/-- The method `YamlyzeVisitor::VisitVarDecl` (lines 143-180). -/
def VisitVarDecl (g : Globals) (VD : VarDecl) (s : State) : Option State :=
  if !VD.hasGlobalStorage then some s
  else if skipVarDecl g VD then some s
  else recordVarDecl VD s

/-! ## `VisitTypedefDecl` -/

/-- Lines 183-196: whether one of the early returns on the location fires. -/
def skipTypedefDecl (g : Globals) (TD : TypedefDecl) : Bool :=
  if !TD.getLocation.isValid || TD.getLocation.isInSystemHeader then true
  else if !g.analyze_all_files then
    match TD.getLocation.getFileEntryRef with
    | none => true
    | some FE => path_compare g.module_filepath (g.weakly_canonical FE) != 0
  else false

/-- Lines 210-213: the node built for one struct field. -/
def member (Field : FieldDecl) : Node :=
  .map [("name", .str Field.getNameAsString), ("type", .str Field.getTypeAsString)]

/-- Lines 209-214: the loop over the fields. -/
def pushMembers (name : String) : List FieldDecl → Node → Option Node
  | [], types => some types
  | Field :: rest, types =>
    (push_back2 types name "members" (member Field)).bind (pushMembers name rest)

/-- Lines 219-221: the loop over the enumerators. -/
def setValues (name : String) : List EnumConstantDecl → Node → Option Node
  | [], types => some types
  | ECD :: rest, types =>
    (assign3 types name "values" ECD.getNameAsString (.int ECD.getInitVal.getSExtValue)).bind
      (setValues name rest)

/-- Lines 205-222. -/
def typedefKind (name : String) (UnderlyingType : QualType) (types : Node) : Option Node :=
  match UnderlyingType.getAsRecordType with
  | some RD =>
    if RD.isStruct then
      (assign2 types name "type" (.str "struct")).bind (pushMembers name RD.fields)
    else some types
  | none =>
    match UnderlyingType.getAsEnumType with
    | some ED => (assign2 types name "type" (.str "enum")).bind (setValues name ED.enumerators)
    | none => some types

/-- Lines 225-231. -/
def typedefDocs (g : Globals) (TD : TypedefDecl) (name : String) (types : Node) :
    Option Node :=
  if g.analyze_docs then
    match TD.getRawComment with
    | some CommentText => assign3 types name "docs" "raw" (.str CommentText)
    | none => some types
  else some types

/-- Lines 198-231: the part of `VisitTypedefDecl` after the early returns. -/
def recordTypedefDecl (g : Globals) (TD : TypedefDecl) (s : State) : Option State :=
  let name := TD.getNameAsString
  let UnderlyingType := TD.getUnderlyingType
  ((((assign2 s.types name "type" (.str UnderlyingType.getAsString)).bind
    fun t => assign2 t name "invariants" .null).bind
    fun t => typedefKind name UnderlyingType t).bind
    fun t => typedefDocs g TD name t).map
    fun t => { s with types := t }

/-- The method `YamlyzeVisitor::VisitTypedefDecl` (lines 182-234). -/
def VisitTypedefDecl (g : Globals) (TD : TypedefDecl) (s : State) : Option State :=
  if skipTypedefDecl g TD then some s
  else recordTypedefDecl g TD s

/-! ## The traversal -/

/-- A node of the parsed tree with its children: `RecursiveASTVisitor` calls the `Visit`
method of a node and then traverses the children, whatever the method did. -/
inductive AST where
  | functionDecl (FD : FunctionDecl) (children : List AST) : AST
  | callExpr (CE : CallExpr) (children : List AST) : AST
  | varDecl (VD : VarDecl) (children : List AST) : AST
  | typedefDecl (TD : TypedefDecl) : AST
  | other (children : List AST) : AST

/-- One call of a `Visit` method. -/
inductive Visit where
  | functionDecl (FD : FunctionDecl) : Visit
  | callExpr (CE : CallExpr) : Visit
  | varDecl (VD : VarDecl) : Visit
  | typedefDecl (TD : TypedefDecl) : Visit

/-- Dispatch of one visit. -/
def visit (g : Globals) (s : State) : Visit → Option State
  | .functionDecl FD => VisitFunctionDecl g FD s
  | .callExpr CE => VisitCallExpr g CE s
  | .varDecl VD => VisitVarDecl g VD s
  | .typedefDecl TD => VisitTypedefDecl g TD s

/-- A sequence of visits, in order. -/
def traverse (g : Globals) : List Visit → State → Option State
  | [], s => some s
  | v :: rest, s => (visit g s v).bind (traverse g rest)

mutual
/-- The visits of a tree in the order of the traversal (a node, then its children). -/
def AST.visits : AST → List Visit
  | .functionDecl FD children => .functionDecl FD :: visitsList children
  | .callExpr CE children => .callExpr CE :: visitsList children
  | .varDecl VD children => .varDecl VD :: visitsList children
  | .typedefDecl TD => [.typedefDecl TD]
  | .other children => visitsList children
/-- The visits of a list of trees, left to right. -/
def visitsList : List AST → List Visit
  | [] => []
  | t :: ts => t.visits ++ visitsList ts
end

/-- The call `Visitor.TraverseDecl(...)` (line 335) on the tree `root`. -/
def TraverseDecl (g : Globals) (root : AST) (s : State) : Option State :=
  traverse g root.visits s

/-! ## Notions used in the statements -/

/-- The node that pushing the elements `xs`, one by one, onto a null node produces. -/
def seqOf : List Node → Node
  | [] => .null
  | x :: xs => .seq (x :: xs)

/-- Whether a node accepts `push_back`. -/
def Node.isSeqOrNull : Node → Bool
  | .null => true
  | .seq _ => true
  | _ => false

/-- Whether a node is null or a mapping. -/
def Node.isMapOrNull : Node → Bool
  | .null => true
  | .map _ => true
  | _ => false

/-- The pairs of a table: none for the null node the table starts as. -/
def Node.entries : Node → List (String × Node)
  | .map kvs => kvs
  | _ => []

/-- The locality predicate in the words of the specification (section 4.1): the location
is valid, not in a system header, and, unless all-files mode is on, has a file entry
whose canonical path is the canonical path of the target module. -/
def LocalityFilter (g : Globals) (Loc : SourceLocation) : Prop :=
  Loc.isValid = true ∧ Loc.isInSystemHeader = false ∧
    (g.analyze_all_files = true ∨
      Loc.getFileEntryRef.map g.weakly_canonical = some g.module_filepath)

instance (g : Globals) (Loc : SourceLocation) : Decidable (LocalityFilter g Loc) := by
  unfold LocalityFilter
  infer_instance

/-- A function declaration that gets past all early returns of `VisitFunctionDecl`. -/
def AcceptedFunction (g : Globals) (FD : FunctionDecl) : Prop :=
  skipFunctionDecl g FD = false ∧ (g.process_as_header_file = true ∨ FD.hasBody = true)

instance (g : Globals) (FD : FunctionDecl) : Decidable (AcceptedFunction g FD) := by
  unfold AcceptedFunction
  infer_instance

/-- The `docs` node of a declaration with raw comment `c`. -/
def docsNode (g : Globals) (c : Option String) : Node :=
  if g.analyze_docs then
    match c with
    | some CommentText => .map [("raw", .str CommentText)]
    | none => .null
  else .null

/-- The record an accepted function declaration leaves under its name. -/
def functionRecord (g : Globals) (FD : FunctionDecl) : Node :=
  .map [("class", .str (functionStorageClass FD.getStorageClass)),
        ("args", seqOf (FD.params.map new_arg)),
        ("calls", .null),
        ("docs", docsNode g FD.getRawComment),
        ("returns", .str FD.getReturnType.getAsString)]

/-- The record of a variable after an accepted declaration, from the pairs `X` it had
before. -/
def variableRecordAfter (VD : VarDecl) (X : List (String × Node)) : List (String × Node) :=
  upsert "type" (.str VD.getType.getAsString)
    (if VD.isTranslationUnit then
      upsert "class" (.str (variableStorageClass VD.getStorageClass)) X
    else X)

/-- The pairs of a type record after the loop over the fields of a struct. -/
def membersAfter (fs : List FieldDecl) (X : List (String × Node)) : List (String × Node) :=
  match fs with
  | [] => X
  | _ :: _ =>
    upsert "members" (.seq (((lookupKey "members" X).getD .null).elems ++ fs.map member)) X

/-- The `values` mapping after the loop over the enumerators, from the pairs `V` before. -/
def valuesFold (es : List EnumConstantDecl) (V : List (String × Node)) :
    List (String × Node) :=
  es.foldl (fun V ECD => upsert ECD.getNameAsString (.int ECD.getInitVal.getSExtValue) V) V

/-- The pairs of a type record after the loop over the enumerators of an enum. -/
def valuesAfter (es : List EnumConstantDecl) (X : List (String × Node)) :
    List (String × Node) :=
  match es with
  | [] => X
  | _ :: _ =>
    upsert "values" (.map (valuesFold es ((lookupKey "values" X).getD .null).entries)) X

/-- The pairs of a type record after lines 205-222. -/
def kindAfter (UnderlyingType : QualType) (X : List (String × Node)) :
    List (String × Node) :=
  match UnderlyingType.getAsRecordType with
  | some RD =>
    if RD.isStruct then membersAfter RD.fields (upsert "type" (.str "struct") X) else X
  | none =>
    match UnderlyingType.getAsEnumType with
    | some ED => valuesAfter ED.enumerators (upsert "type" (.str "enum") X)
    | none => X

/-- The pairs of a type record after lines 225-231. -/
def docsAfter (g : Globals) (c : Option String) (X : List (String × Node)) :
    List (String × Node) :=
  if g.analyze_docs then
    match c with
    | some CommentText =>
      upsert "docs"
        (.map (upsert "raw" (.str CommentText) ((lookupKey "docs" X).getD .null).entries)) X
    | none => X
  else X

/-- The record of a type name after an accepted typedef declaration, from the pairs `X`
it had before. -/
def typeRecordAfter (g : Globals) (TD : TypedefDecl) (X : List (String × Node)) :
    List (String × Node) :=
  docsAfter g TD.getRawComment
    (kindAfter TD.getUnderlyingType
      (upsert "invariants" .null
        (upsert "type" (.str TD.getUnderlyingType.getAsString) X)))

/-- The shape of a record of the functions table. -/
def FunctionRecordOK (X : List (String × Node)) : Prop :=
  X.map Prod.fst = ["class", "args", "calls", "docs", "returns"] ∧
    ∀ c, lookupKey "calls" X = some c → c.isSeqOrNull = true

/-- The shape of a record of the types table. -/
def TypeRecordOK (X : List (String × Node)) : Prop :=
  (∀ v, lookupKey "members" X = some v → v.isSeqOrNull = true) ∧
  (∀ v, lookupKey "values" X = some v → v.isMapOrNull = true) ∧
  (∀ v, lookupKey "docs" X = some v → v.isMapOrNull = true)

/-- A table is the null node or a mapping, its keys are distinct and each of its records
is a mapping of shape `P`. -/
def TableInv (P : List (String × Node) → Prop) (n : Node) : Prop :=
  (n = .null ∨ ∃ T, n = .map T) ∧ (n.entries.map Prod.fst).Nodup ∧
    ∀ k r, lookupKey k n.entries = some r → ∃ X, r = .map X ∧ P X

/-- The invariant of the walker's state. -/
structure Inv (s : State) : Prop where
  functions : TableInv FunctionRecordOK s.functions
  variables_ : TableInv (fun _ => True) s.variables_
  types : TableInv TypeRecordOK s.types
  context : s.current_function_name ≠ "" →
    s.current_function_name ∈ s.functions.entries.map Prod.fst

/-- The states the walker can be in: those a sequence of visits reaches from the state
at program start. -/
def Reachable (g : Globals) (s : State) : Prop :=
  ∃ vs, traverse g vs State.init = some s

/-- The size in bytes that line 110 computes for a type. -/
def byteSize (T : QualType) : Nat :=
  T.getTypeSize % 2 ^ 64 / 8

/-! ## Example inputs -/

/-- The options of a run on the file `m.c` with call analysis, where the canonical path
of a file name is the name below the root directory. -/
def exampleGlobals : Globals :=
  { module_filepath := "/m.c", analyze_all_files := false, analyze_function_calls := true,
    analyze_docs := false, analyze_includes := false, process_as_header_file := false,
    weakly_canonical := fun p => "/" ++ p }

/-- The same run with documentation analysis. -/
def exampleGlobalsDocs : Globals :=
  { exampleGlobals with analyze_docs := true }

/-- A location in the target file. -/
def inModule : SourceLocation :=
  { isValid := true, isInSystemHeader := false, getFileEntryRef := some "m.c" }

/-- A location in an included header that is not a system header. -/
def inHeader : SourceLocation :=
  { isValid := true, isInSystemHeader := false, getFileEntryRef := some "util.h" }

/-- The type `int` of a target with 32-bit `int`. -/
def intType : QualType :=
  { getAsString := "int", isIncompleteType := false, isDependentType := false,
    getTypeSize := 32, getAsRecordType := none, getAsEnumType := none }

/-- The type `void`. -/
def voidType : QualType :=
  { getAsString := "void", isIncompleteType := true, isDependentType := false,
    getTypeSize := 0, getAsRecordType := none, getAsEnumType := none }

/-- The function `int add(int a, int b) { ... }` of the target file. -/
def addDecl : FunctionDecl :=
  { getLocation := inModule, hasBody := true, getNameAsString := "add",
    getStorageClass := .SC_None, getReturnType := intType,
    params := [{ getNameAsString := "a", getType := intType },
               { getNameAsString := "b", getType := intType }],
    getRawComment := none }

/-- The declaration `extern int add(int x, int y);` with a comment, without a body. -/
def addEarlier : FunctionDecl :=
  { getLocation := inModule, hasBody := false, getNameAsString := "add",
    getStorageClass := .SC_Extern, getReturnType := intType,
    params := [{ getNameAsString := "x", getType := intType },
               { getNameAsString := "y", getType := intType }],
    getRawComment := some "adds two numbers" }

/-- A run on `m.c` as a header file, with documentation analysis. -/
def exampleGlobalsHeader : Globals :=
  { exampleGlobals with analyze_docs := true, process_as_header_file := true }

/-- The variable `static int counter;` at file scope of the target file. -/
def counterDecl : VarDecl :=
  { hasGlobalStorage := true, getLocation := inModule, getNameAsString := "counter",
    getStorageClass := .SC_Static, isTranslationUnit := true, getType := intType }

/-- A call `helper()`. -/
def helperCall : CallExpr :=
  { getDirectCallee := some "helper" }

/-- The type `struct Big` of `struct Big { char bytes[4294967295]; };`: complete, not
dependent, 4294967295 bytes. -/
def bigStruct : QualType :=
  { getAsString := "struct Big", isIncompleteType := false, isDependentType := false,
    getTypeSize := 34359738360,
    getAsRecordType := some
      { isStruct := true,
        fields := [{ getNameAsString := "bytes", getTypeAsString := "char[4294967295]" }] },
    getAsEnumType := none }

/-- The function `void take(struct Big b) {}` of the target file. -/
def takeDecl : FunctionDecl :=
  { getLocation := inModule, hasBody := true, getNameAsString := "take",
    getStorageClass := .SC_None, getReturnType := voidType,
    params := [{ getNameAsString := "b", getType := bigStruct }],
    getRawComment := none }

/-- The state after the visit of `addDecl` at program start. -/
def addState : State :=
  { functions := .map [("add", functionRecord exampleGlobals addDecl)], variables_ := .null,
    types := .null, headers := .null, current_function_name := "add" }

/-- The variable `int local_total;` with static storage inside a function body of the
target file (`static int local_total;` in a function). -/
def localStatic : VarDecl :=
  { hasGlobalStorage := true, getLocation := inModule, getNameAsString := "local_total",
    getStorageClass := .SC_Static, isTranslationUnit := false, getType := intType }

mutual
/-- The resolved callee names of the call expressions of a tree, those below a function
declaration nested in it left out. -/
def AST.callees : AST → List String
  | .functionDecl _ _ => []
  | .callExpr CE children => CE.getDirectCallee.toList ++ calleesList children
  | .varDecl _ children => calleesList children
  | .typedefDecl _ => []
  | .other children => calleesList children
/-- The same for a list of trees. -/
def calleesList : List AST → List String
  | [] => []
  | t :: ts => t.callees ++ calleesList ts
end

mutual
/-- The resolved callee names of the call expressions that lie lexically inside the
traversal window of a declaration of the function `f`: below a function declaration
node of that name. -/
def AST.callsInside (f : String) : AST → List String
  | .functionDecl FD children =>
    (if FD.getNameAsString = f then calleesList children else []) ++
      callsInsideList f children
  | .callExpr _ children => callsInsideList f children
  | .varDecl _ children => callsInsideList f children
  | .typedefDecl _ => []
  | .other children => callsInsideList f children
/-- The same for a list of trees. -/
def callsInsideList (f : String) : List AST → List String
  | [] => []
  | t :: ts => t.callsInside f ++ callsInsideList f ts
end

/-- The entry `e` of the calls of `f` has its origin in the visits `vs`: a call
expression with resolved callee, visited after an accepted declaration of `f` with no
accepted function declaration in between. -/
def CallOrigin (g : Globals) (vs : List Visit) (f : String) (e : Node) : Prop :=
  ∃ pre FD mid CE post c,
    vs = pre ++ Visit.functionDecl FD :: (mid ++ Visit.callExpr CE :: post) ∧
    FD.getNameAsString = f ∧ AcceptedFunction g FD ∧
    (∀ FD', Visit.functionDecl FD' ∈ mid → ¬ AcceptedFunction g FD') ∧
    CE.getDirectCallee = some c ∧ e = .str c

/-- The context `name` has its origin in the visits `vs`: the last accepted function
declaration of `vs` has that name. -/
def CtxOrigin (g : Globals) (vs : List Visit) (name : String) : Prop :=
  ∃ pre FD mid, vs = pre ++ Visit.functionDecl FD :: mid ∧
    FD.getNameAsString = name ∧ AcceptedFunction g FD ∧
    (∀ FD', Visit.functionDecl FD' ∈ mid → ¬ AcceptedFunction g FD')

/-- The function `void a(void) {}` of the target file. -/
def aDecl : FunctionDecl :=
  { getLocation := inModule, hasBody := true, getNameAsString := "a",
    getStorageClass := .SC_None, getReturnType := voidType, params := [],
    getRawComment := none }

/-- The function `static inline void h(void) { g(); }` of the included header
`util.h`. -/
def hDecl : FunctionDecl :=
  { getLocation := inHeader, hasBody := true, getNameAsString := "h",
    getStorageClass := .SC_Static, getReturnType := voidType, params := [],
    getRawComment := none }

/-- The translation unit of `m.c` with the text `void a(void) {}` followed by
`#include "util.h"`: the definition of `a`, then the definition of `h` from the header,
whose body holds the call `g()`. -/
def staleTree : AST :=
  .other [.functionDecl aDecl [.other []],
          .functionDecl hDecl [.other [.callExpr { getDirectCallee := some "g" } []]]]

/-- The type `struct s` of `struct s { int a; };`. -/
def structS : QualType :=
  { getAsString := "struct s", isIncompleteType := false, isDependentType := false,
    getTypeSize := 32,
    getAsRecordType := some
      { isStruct := true, fields := [{ getNameAsString := "a", getTypeAsString := "int" }] },
    getAsEnumType := none }

/-- The declaration `typedef struct s S;` of the target file, with a comment. -/
def typedefFirst : TypedefDecl :=
  { getLocation := inModule, getNameAsString := "S", getUnderlyingType := structS,
    getRawComment := some "first" }

/-- The declaration `typedef struct s S;` once more (allowed since C11), without a
comment. -/
def typedefAgain : TypedefDecl :=
  { getLocation := inModule, getNameAsString := "S", getUnderlyingType := structS,
    getRawComment := none }


/-- The signed integer value of an `llvm::APSInt`: its bits, at their own width, read
as a two-complement number. -/
def APSInt.signedValue (v : APSInt) : Int :=
  let u := v.U % 2 ^ v.BitWidth
  if 2 * u < 2 ^ v.BitWidth then (u : Int) else (u : Int) - 2 ^ v.BitWidth

/-- The bits of an `llvm::APSInt` of at most 64 bits sign-extended to 64 bits, as an
unsigned 64-bit pattern: the upper bits are copies of the top bit of the value. -/
def APSInt.signExtend64 (v : APSInt) : Nat :=
  let u := v.U % 2 ^ v.BitWidth
  if 2 * u < 2 ^ v.BitWidth then u else u + (2 ^ 64 - 2 ^ v.BitWidth)

/-- The entry of the `values` mapping for one enumerator. -/
def enumeratorEntry (ECD : EnumConstantDecl) : String × Node :=
  (ECD.getNameAsString, .int ECD.getInitVal.getSExtValue)

/-- The type of `enum { RED = 0, GREEN = 1 }` on a target with 32-bit `int`. -/
def colorEnum : QualType :=
  { getAsString := "enum Color", isIncompleteType := false, isDependentType := false,
    getTypeSize := 32, getAsRecordType := none,
    getAsEnumType := some
      { enumerators :=
          [{ getNameAsString := "RED",
             getInitVal := { BitWidth := 32, U := 0, IsUnsigned := false } },
           { getNameAsString := "GREEN",
             getInitVal := { BitWidth := 32, U := 1, IsUnsigned := false } }] } }

/-- The enumerator `BIG = (__int128)1 << 100` of an enum of underlying type `__int128`:
128 bits holding 2^100. -/
def bigEnumerator : EnumConstantDecl :=
  { getNameAsString := "BIG",
    getInitVal := { BitWidth := 128, U := 2 ^ 100, IsUnsigned := false } }

/-- The type of `enum : __int128 { BIG = (__int128)1 << 100 }`. -/
def wideEnum : QualType :=
  { getAsString := "enum Wide", isIncompleteType := false, isDependentType := false,
    getTypeSize := 128, getAsRecordType := none,
    getAsEnumType := some { enumerators := [bigEnumerator] } }

/-- The declaration `typedef enum : __int128 { BIG = (__int128)1 << 100 } Wide;` of the
target file. -/
def wideTypedef : TypedefDecl :=
  { getLocation := inModule, getNameAsString := "Wide", getUnderlyingType := wideEnum,
    getRawComment := none }

/-- The declaration `typedef enum { RED = 0, GREEN = 1 } Color;` of the target file. -/
def colorTypedef : TypedefDecl :=
  { getLocation := inModule, getNameAsString := "Color", getUnderlyingType := colorEnum,
    getRawComment := none }

/-- The declaration `typedef int S;`, as in a second C++ namespace of the target file
(`getNameAsString` gives the unqualified name). -/
def typedefPlain : TypedefDecl :=
  { getLocation := inModule, getNameAsString := "S", getUnderlyingType := intType,
    getRawComment := none }

/-- The shape of a record of the variables table: no key but `class` and `type`. -/
def VariableRecordOK (X : List (String × Node)) : Prop :=
  ∀ k ∈ X.map Prod.fst, k = "class" ∨ k = "type"

/-- Every record of the variables table is a mapping of shape `VariableRecordOK`. -/
def VariablesOK (s : State) : Prop :=
  ∀ k r, lookupKey k s.variables_.entries = some r → ∃ X, r = .map X ∧ VariableRecordOK X

/-! ## The function `main`: strings

A `std::string` is the list of its characters. -/

/-- The character backslash. -/
def backslash : Char := Char.ofNat 92

/-- The character double quote. -/
def quote : Char := Char.ofNat 34

/-- The two characters that line 302 searches for: a backslash and a double quote. -/
def escapedQuote : List Char := [backslash, quote]

/-- The first index at which `str` occurs in a string, searching from its start. -/
def findAt (str : List Char) : List Char → Option Nat
  | [] => if str.isEmpty then some 0 else none
  | c :: tl => if str.isPrefixOf (c :: tl) then some 0 else (findAt str tl).map (· + 1)

/-- The method `std::string::find(str, pos)`; `none` is `npos`. -/
def find (temp str : List Char) (pos : Nat) : Option Nat :=
  if pos > temp.length then none else (findAt str (temp.drop pos)).map (· + pos)

/-- The method `std::string::replace(pos, n, str)`; `none` is the exception
`std::out_of_range` of a position beyond the end. -/
def replace (temp : List Char) (pos n : Nat) (str : List Char) : Option (List Char) :=
  if pos > temp.length then none else some (temp.take pos ++ str ++ temp.drop (pos + n))

/-- Lines 303-306, the loop `while (pos != npos)`: the string, the position (`none` is
`npos`) and the number of iterations done so far, which the result reports next to the
string.  At most `fuel` iterations are run; `none` when they do not suffice. -/
def unescapeLoop : Nat → List Char → Option Nat → Nat → Option (List Char × Nat)
  | _, temp, none, n => some (temp, n)
  | 0, _, some _, _ => none
  | fuel + 1, temp, some pos, n =>
    match replace temp pos 2 [quote] with
    | none => none
    | some temp' => unescapeLoop fuel temp' (find temp' escapedQuote (pos + 1)) (n + 1)

/-- Lines 302-306 on one token: the unescaped token and the number of iterations of the
loop. -/
def unescape (temp : List Char) : Option (List Char × Nat) :=
  unescapeLoop temp.length temp (find temp escapedQuote 0) 0

/-- The single pass, left to right, that replaces every backslash followed by a double
quote by a double quote (the words of the specification). -/
def replaceAllEscaped : List Char → List Char
  | c :: d :: rest =>
    if c = backslash ∧ d = quote then quote :: replaceAllEscaped rest
    else c :: replaceAllEscaped (d :: rest)
  | l => l

/-- The number of positions of a string at which a backslash is followed by a double
quote. -/
def occurrences : List Char → Nat
  | c :: d :: rest => (if c = backslash ∧ d = quote then 1 else 0) + occurrences (d :: rest)
  | _ => 0

/-- The method `std::string::npos`. -/
def npos : Nat := 2 ^ 64 - 1

/-- The index of the last occurrence of `c` in a string. -/
def lastIndex (c : Char) : List Char → Option Nat
  | [] => none
  | x :: xs =>
    match lastIndex c xs with
    | some i => some (i + 1)
    | none => if x = c then some 0 else none

/-- The method `std::string::find_last_of(c)`: `npos` when `c` does not occur. -/
def find_last_of (s : List Char) (c : Char) : Nat :=
  match lastIndex c s with
  | some i => i
  | none => npos

/-- The method `std::string::substr(pos)`; `none` is the exception `std::out_of_range`. -/
def substr (s : List Char) (pos : Nat) : Option (List Char) :=
  if pos > s.length then none else some (s.drop pos)

/-- Line 338: the module name, the index computed in `size_t`. -/
def module_name (module_filename : List Char) : Option (List Char) :=
  substr module_filename ((find_last_of module_filename '/' + 1) % 2 ^ 64)

/-! ## The function `main`: the options file -/

/-- The function `isspace` in the classic locale: space, tab, line feed, vertical tab,
form feed, carriage return. -/
def isspace (c : Char) : Bool :=
  c = Char.ofNat 32 || c = Char.ofNat 9 || c = Char.ofNat 10 || c = Char.ofNat 11 ||
    c = Char.ofNat 12 || c = Char.ofNat 13

/-- A `std::stringstream` being read: the characters not yet read and two state bits. -/
structure StringStream where
  buf : List Char
  eofbit : Bool
  failbit : Bool

/-- The method `good()`. -/
def StringStream.good (ssin : StringStream) : Bool :=
  !ssin.eofbit && !ssin.failbit

/-- The operator `ssin >> temp` into an empty string: white space is skipped, then
characters are taken up to the next white space or the end; reaching the end sets
`eofbit`, finding no character sets `failbit` and leaves the string empty. -/
def StringStream.extract (ssin : StringStream) : List Char × StringStream :=
  if !ssin.good then ([], { ssin with failbit := true })
  else
    match ssin.buf.dropWhile isspace with
    | [] => ([], { buf := [], eofbit := true, failbit := true })
    | c :: cs =>
      let rest := (c :: cs).dropWhile (fun x => !isspace x)
      ((c :: cs).takeWhile (fun x => !isspace x),
        { buf := rest, eofbit := rest.isEmpty, failbit := false })

/-- The text `-Werror`. -/
def Werror : List Char := "-Werror".data

/-- Lines 298-310, the loop `while (ssin.good())`, run for at most `fuel` iterations;
`none` when they do not suffice or the unescaping has no result. -/
def readOptions : Nat → StringStream → List (List Char) → Option (List (List Char))
  | 0, ssin, arg_strings => if ssin.good then none else some arg_strings
  | fuel + 1, ssin, arg_strings =>
    if ssin.good then
      match unescape ssin.extract.1 with
      | none => none
      | some (temp, _) =>
        readOptions fuel ssin.extract.2
          (if temp.length > 0 ∧ temp ≠ Werror then arg_strings ++ [temp] else arg_strings)
    else some arg_strings

/-- Lines 296-310 on the content of the options file. -/
def importOptions (option_data : List Char) : Option (List (List Char)) :=
  readOptions (option_data.length + 1)
    { buf := option_data, eofbit := false, failbit := false } []

/-- The white-space delimited tokens of a text (the words of the specification). -/
def wsTokens (cs : List Char) : List (List Char) :=
  (cs.splitOnP isspace).filter fun t => !t.isEmpty

/-- The argument list the specification describes: the tokens, unescaped, without the
empty ones and those equal to `-Werror`. -/
def optionsSpec (option_data : List Char) : List (List Char) :=
  ((wsTokens option_data).map replaceAllEscaped).filter
    fun t => decide (t.length > 0 ∧ t ≠ Werror)

/-- The indices of a string at which a backslash is followed by a double quote. -/
def occurrenceIndices (l : List Char) : List Nat :=
  (List.range l.length).filter
    fun i => decide (l[i]? = some backslash ∧ l[i + 1]? = some quote)

/-- The token `a\"b` (four characters). -/
def escapedToken : List Char := ['a', backslash, quote, 'b']

/-! ## The function `main` -/

/-- The variables that `options.parse(argc, argv)` of line 277 has set. -/
structure CommandLine where
  /-- Whether `result.count("help")` is not zero. -/
  help : Bool
  module_filename : String
  option_file : String
  analyze_includes : Bool
  analyze_function_calls : Bool
  analyze_docs : Bool
  analyze_all_files : Bool
  process_as_header_file : Bool
  output_filename : String

/-- The answers of the file system and of the front end. -/
structure Environment where
  /-- The result of `std::filesystem::weakly_canonical` on a path; `none` when the call
  throws a `filesystem_error` (a component longer than the system allows, a loop of
  links). -/
  weakly_canonical : String → Option String
  /-- An `std::ifstream` on the file of that name: `none` when it is not open,
  `some none` when it is open and reading it throws (the name of a directory), else the
  content. -/
  ifstream : String → Option (Option String)
  /-- The content `llvm::MemoryBuffer::getFile` reads, when it can. -/
  getFile : String → Option String
  /-- The translation unit of the parsed tree, when the front end returns one. -/
  buildASTFromCodeWithArgs : String → List String → String → Option AST
  /-- The result of `std::filesystem::create_directories` on a path that is not empty;
  `none` when the call throws a `filesystem_error`. -/
  create_directories : String → Option Bool
  /-- Whether an `std::ofstream` on the file of that name is open. -/
  ofstream : String → Bool

/-- How a run of `main` ends. -/
inductive Outcome where
  /-- The usage text is printed and `exit(0)` called (lines 280-281). -/
  | usage (exit_code : Int) : Outcome
  /-- A message goes to the error stream and the process ends (lines 292-293, 316-317,
  329-330). -/
  | error (exit_code : Int) : Outcome
  /-- The document `summary` is sent to standard output, or to the file
  `output_filename` when that is not empty, and `main` returns (lines 341-357). -/
  | document (summary : Node) (output_filename : String) (exit_code : Int) : Outcome
  /-- The output file is not open: the document is written nowhere and `main` returns
  (lines 353-357). -/
  | unwritten (exit_code : Int) : Outcome
  /-- An exception leaves `main`, which catches none: the process is aborted by
  `std::terminate`, without a document and without an exit code of `main`. -/
  | exception : Outcome

/-- The option variables during the traversal; `module_filepath` is the value line 284
has assigned.  A call of `weakly_canonical` that throws has no value: `main` ends the
run at the first such call (see `traversalThrows`). -/
def globalsOf (cl : CommandLine) (env : Environment) (module_filepath : String) : Globals :=
  { module_filepath := module_filepath,
    analyze_all_files := cl.analyze_all_files,
    analyze_function_calls := cl.analyze_function_calls,
    analyze_docs := cl.analyze_docs,
    analyze_includes := cl.analyze_includes,
    process_as_header_file := cl.process_as_header_file,
    weakly_canonical := fun p => (env.weakly_canonical p).getD p }

/-- The file name that the early returns on a location hand to
`std::filesystem::weakly_canonical` (lines 68, 158, 193), when they get that far: the
location is valid, not in a system header, the analysis is restricted to the target
file and the location has a file entry. -/
def canonicalisedFile (g : Globals) (Loc : SourceLocation) : Option String :=
  if !Loc.isValid || Loc.isInSystemHeader then none
  else if !g.analyze_all_files then Loc.getFileEntryRef
  else none

/-- The file name a visit hands to `std::filesystem::weakly_canonical`, if any. -/
def Visit.canonicalised (g : Globals) : Visit → Option String
  | .functionDecl FD => canonicalisedFile g FD.getLocation
  | .callExpr _ => none
  | .varDecl VD =>
    if !VD.hasGlobalStorage then none else canonicalisedFile g VD.getLocation
  | .typedefDecl TD => canonicalisedFile g TD.getLocation

/-- Whether a call of `std::filesystem::weakly_canonical` made by a visit of the
traversal throws; the exception passes through `TraverseDecl` and leaves `main`. -/
def traversalThrows (g : Globals) (env : Environment) (root : AST) : Bool :=
  root.visits.any fun v =>
    match v.canonicalised g with
    | some FE => (env.weakly_canonical FE).isNone
    | none => false

/-- Lines 341-346: the summary node. -/
def summaryOf (module_name : String) (s : State) : Node :=
  .map [("name", .str module_name), ("functions", s.functions),
        ("variables", s.variables_), ("types", s.types), ("headers", s.headers)]

/-- Lines 287-311: the compile options; the outer `none` is the exit of line 293, the
inner `none` an exception: the read of line 296 throws, or the loop is without
result. -/
def compileOptions (cl : CommandLine) (env : Environment) :
    Option (Option (List (List Char))) :=
  if !cl.option_file.isEmpty then
    match env.ifstream cl.option_file with
    | none => none
    | some none => some none
    | some (some option_data) => some (importOptions option_data.data)
  else some (some [])

/-- The member `parent_path` of `std::filesystem::path`, for a POSIX path: empty for a
name without `/`; else the part before the last `/` without the separators it ends in,
or the root `/` when nothing else is left. -/
def parent_path (p : List Char) : List Char :=
  match lastIndex '/' p with
  | none => []
  | some i =>
    let dir := ((p.take i).reverse.dropWhile fun c => c == '/').reverse
    if dir.isEmpty then ['/'] else dir

/-- The function `std::filesystem::create_directories` of line 352; `none` when it
throws a `filesystem_error`, as it does on the empty path. -/
def create_directories (env : Environment) (p : String) : Option Bool :=
  if p.isEmpty then none else env.create_directories p

/-- Lines 348-357: the output of the summary and the return of `main`. -/
def emit (cl : CommandLine) (env : Environment) (summary : Node) : Outcome :=
  if cl.output_filename.isEmpty then .document summary cl.output_filename 0
  else
    match create_directories env (String.mk (parent_path cl.output_filename.data)) with
    | none => .exception
    | some _ =>
      if env.ofstream cl.output_filename then .document summary cl.output_filename 0
      else .unwritten 0

/-- The function `main` (lines 260-358) after the command line is parsed. -/
def main (cl : CommandLine) (env : Environment) : Outcome :=
  if cl.help || cl.module_filename.isEmpty then .usage 0
  else
    match env.weakly_canonical cl.module_filename with
    | none => .exception
    | some module_filepath =>
      match compileOptions cl env with
      | none => .error 1
      | some none => .exception
      | some (some arg_strings) =>
        match env.getFile module_filepath with
        | none => .error 1
        | some SourceCode =>
          match env.buildASTFromCodeWithArgs SourceCode (arg_strings.map String.mk)
              module_filepath with
          | none => .error 1
          | some root =>
            if traversalThrows (globalsOf cl env module_filepath) env root then .exception
            else
              match TraverseDecl (globalsOf cl env module_filepath) root State.init with
              | none => .exception
              | some s =>
                match module_name cl.module_filename.data with
                | none => .exception
                | some name => emit cl env (summaryOf (String.mk name) s)

/-- The argument list handed to the front end, in the words of the specification: none
without an options file, otherwise the tokens of its content. -/
def argStringsSpec (cl : CommandLine) (env : Environment) : List String :=
  if cl.option_file = "" then []
  else
    match env.ifstream cl.option_file with
    | some (some option_data) => (optionsSpec option_data.data).map String.mk
    | _ => []

/-- A run `yamlyze -f src/m.c -c`. -/
def exampleCommandLine : CommandLine :=
  { help := false, module_filename := "src/m.c", option_file := "",
    analyze_includes := false, analyze_function_calls := true, analyze_docs := false,
    analyze_all_files := false, process_as_header_file := false, output_filename := "" }

/-- A run `yamlyze -f src/m.c -c -O m.yaml`: the output file is named without a
directory. -/
def bareOutputCommandLine : CommandLine :=
  { exampleCommandLine with output_filename := "m.yaml" }

/-- A run `yamlyze -f src/m.c -c -O out/m.yaml`. -/
def fileOutputCommandLine : CommandLine :=
  { exampleCommandLine with output_filename := "out/m.yaml" }

/-- A world in which every file can be read and written, every directory created, and
the front end returns the tree of `int add(int a, int b) { ... }`, declared in the
target file. -/
def exampleEnvironment : Environment :=
  { weakly_canonical := fun p => some ("/" ++ p),
    ifstream := fun _ => some (some "-I inc -Werror"),
    getFile := fun _ => some "int add(int a, int b) { return a + b; }",
    buildASTFromCodeWithArgs := fun _ _ _ => some (.other [.functionDecl
      { addDecl with getLocation :=
          { isValid := true, isInSystemHeader := false, getFileEntryRef := some "src/m.c" } }
      [.other []]]),
    create_directories := fun _ => some true,
    ofstream := fun _ => true }
/-! ## Mappings -/

@[simp] theorem lookupKey_nil (k : String) : lookupKey k [] = none := rfl

@[simp] theorem lookupKey_cons (k k' : String) (v : Node) (rest : List (String × Node)) :
    lookupKey k ((k', v) :: rest) = if k' = k then some v else lookupKey k rest := rfl

@[simp] theorem upsert_nil (k : String) (v : Node) : upsert k v [] = [(k, v)] := rfl

@[simp] theorem upsert_cons (k k' : String) (v w : Node) (rest : List (String × Node)) :
    upsert k v ((k', w) :: rest) =
      if k' = k then (k', v) :: rest else (k', w) :: upsert k v rest := rfl

@[simp] theorem lookupKey_upsert_self (k : String) (v : Node) (kvs : List (String × Node)) :
    lookupKey k (upsert k v kvs) = some v := by
  induction kvs with
  | nil => simp
  | cons p rest ih =>
    obtain ⟨k', w⟩ := p
    by_cases h : k' = k <;> simp [h, ih]

theorem lookupKey_upsert_ne {k k' : String} (h : k ≠ k') (v : Node)
    (kvs : List (String × Node)) : lookupKey k' (upsert k v kvs) = lookupKey k' kvs := by
  induction kvs with
  | nil => simp [h]
  | cons p rest ih =>
    obtain ⟨k'', w⟩ := p
    by_cases h1 : k'' = k
    · subst h1; simp [h]
    · by_cases h2 : k'' = k'
      · subst h2; simp [h1]
      · simp [h1, h2, ih]

@[simp] theorem upsert_upsert (k : String) (v w : Node) (kvs : List (String × Node)) :
    upsert k w (upsert k v kvs) = upsert k w kvs := by
  induction kvs with
  | nil => simp
  | cons p rest ih =>
    obtain ⟨k', u⟩ := p
    by_cases h : k' = k <;> simp [h, ih]

theorem upsert_of_lookupKey {k : String} {v : Node} {kvs : List (String × Node)}
    (h : lookupKey k kvs = some v) : upsert k v kvs = kvs := by
  induction kvs with
  | nil => simp at h
  | cons p rest ih =>
    obtain ⟨k', u⟩ := p
    by_cases h1 : k' = k
    · simp [h1] at h ⊢; exact h.symm
    · simp [h1] at h ⊢; exact ih h

theorem lookupKey_eq_none_iff (k : String) (kvs : List (String × Node)) :
    lookupKey k kvs = none ↔ k ∉ kvs.map Prod.fst := by
  induction kvs with
  | nil => simp
  | cons p rest ih =>
    obtain ⟨k', u⟩ := p
    by_cases h1 : k' = k
    · simp [h1]
    · simp [h1, ih, Ne.symm h1]

theorem lookupKey_isSome_iff (k : String) (kvs : List (String × Node)) :
    (∃ v, lookupKey k kvs = some v) ↔ k ∈ kvs.map Prod.fst := by
  rw [← not_iff_not, ← lookupKey_eq_none_iff]
  cases lookupKey k kvs <;> simp

theorem map_fst_upsert (k : String) (v : Node) (kvs : List (String × Node)) :
    (upsert k v kvs).map Prod.fst =
      if k ∈ kvs.map Prod.fst then kvs.map Prod.fst else kvs.map Prod.fst ++ [k] := by
  induction kvs with
  | nil => simp
  | cons p rest ih =>
    obtain ⟨k', u⟩ := p
    by_cases h1 : k' = k
    · simp [h1]
    · simp only [upsert_cons, h1, if_false, List.map_cons, ih, List.mem_cons, Ne.symm h1,
        false_or]
      split <;> simp

theorem mem_map_fst_upsert (k k' : String) (v : Node) (kvs : List (String × Node)) :
    k' ∈ (upsert k v kvs).map Prod.fst ↔ k' = k ∨ k' ∈ kvs.map Prod.fst := by
  rw [map_fst_upsert]
  split
  · constructor
    · exact Or.inr
    · rintro (h | h)
      · subst h; assumption
      · exact h
  · simp [or_comm]

theorem nodup_upsert (k : String) (v : Node) {kvs : List (String × Node)}
    (h : (kvs.map Prod.fst).Nodup) : ((upsert k v kvs).map Prod.fst).Nodup := by
  rw [map_fst_upsert]
  split
  · exact h
  · rename_i hk
    rw [List.nodup_append]
    refine ⟨h, List.nodup_singleton k, ?_⟩
    intro a ha hb
    simp at hb
    subst hb
    exact hk ha

theorem count_upsert_self (k : String) (v : Node) {kvs : List (String × Node)}
    (h : (kvs.map Prod.fst).Nodup) : ((upsert k v kvs).map Prod.fst).count k = 1 :=
  List.count_eq_one_of_mem (nodup_upsert k v h)
    ((mem_map_fst_upsert k k v kvs).2 (Or.inl rfl))

/-! ## Node updates -/

@[simp] theorem entries_map (kvs : List (String × Node)) : (Node.map kvs).entries = kvs := rfl

@[simp] theorem entries_null : Node.null.entries = [] := rfl

@[simp] theorem update_null (k : String) (op : Node → Option Node) :
    Node.null.update k op = (op .null).map fun v => .map [(k, v)] := by
  unfold Node.update
  simp only [Node.toMap, lookupKey_nil, Option.getD_none]
  cases op .null <;> rfl

@[simp] theorem update_map (kvs : List (String × Node)) (k : String)
    (op : Node → Option Node) :
    (Node.map kvs).update k op =
      (op ((lookupKey k kvs).getD .null)).map fun v => .map (upsert k v kvs) := by
  unfold Node.update
  simp only [Node.toMap]
  cases op ((lookupKey k kvs).getD .null) <;> rfl

theorem update_table {n : Node} (h : n = .null ∨ ∃ T, n = .map T) (k : String)
    (op : Node → Option Node) :
    n.update k op =
      (op ((lookupKey k n.entries).getD .null)).map fun v => .map (upsert k v n.entries) := by
  rcases h with rfl | ⟨T, rfl⟩
  · simp [Node.entries]
  · simp [Node.entries]

theorem push_back_seqOf (acc : List Node) (x : Node) :
    (seqOf acc).push_back x = some (seqOf (acc ++ [x])) := by
  cases acc <;> rfl

theorem elems_seqOf (xs : List Node) : (seqOf xs).elems = xs := by
  cases xs <;> rfl

/-! ## `VisitFunctionDecl` in closed form -/

theorem record_shape {X : List (String × Node)} {a b c d e : String}
    (h : X.map Prod.fst = [a, b, c, d, e]) :
    ∃ v1 v2 v3 v4 v5, X = [(a, v1), (b, v2), (c, v3), (d, v4), (e, v5)] := by
  match X, h with
  | [(k1, v1), (k2, v2), (k3, v3), (k4, v4), (k5, v5)], h =>
    simp only [List.map_cons, List.map_nil, List.cons.injEq, and_true] at h
    obtain ⟨rfl, rfl, rfl, rfl, rfl⟩ := h
    exact ⟨v1, v2, v3, v4, v5, rfl⟩

theorem pushParams_eq (name : String) (T X : List (String × Node)) (ps : List ParmVarDecl) :
    ∀ acc : List Node, lookupKey "args" X = some (seqOf acc) →
      pushParams name ps (.map (upsert name (.map X) T)) =
        some (.map (upsert name
          (.map (upsert "args" (seqOf (acc ++ ps.map new_arg)) X)) T)) := by
  induction ps generalizing X with
  | nil =>
    intro acc h
    simp [pushParams, upsert_of_lookupKey h]
  | cons p rest ih =>
    intro acc h
    have := ih (upsert "args" (seqOf (acc ++ [new_arg p])) X) (acc ++ [new_arg p]) (by simp)
    simp [pushParams, push_back2, h, push_back_seqOf, this]

theorem pushParams_fresh (name : String) (T X : List (String × Node))
    (ps : List ParmVarDecl) (h : lookupKey "args" X = some .null) :
    pushParams name ps (.map (upsert name (.map X) T)) =
      some (.map (upsert name (.map (upsert "args" (seqOf (ps.map new_arg)) X)) T)) := by
  simpa using pushParams_eq name T X ps [] h

theorem recordFunctionDecl_eq (g : Globals) (FD : FunctionDecl) (s : State)
    (h : TableInv FunctionRecordOK s.functions) :
    recordFunctionDecl g FD s =
      some { s with
        functions := .map (upsert FD.getNameAsString (functionRecord g FD) s.functions.entries)
        current_function_name := FD.getNameAsString } := by
  obtain ⟨hshape, -, hrec⟩ := h
  unfold recordFunctionDecl
  simp only [assign2]
  rw [update_table hshape]
  cases hl : lookupKey FD.getNameAsString s.functions.entries with
  | none =>
    simp [assign2, pushParams_fresh, functionDocs, functionRecord, docsNode, assign3]
    cases g.analyze_docs <;> cases FD.getRawComment <;> simp
  | some r =>
    obtain ⟨X, rfl, hk, -⟩ := hrec _ _ hl
    obtain ⟨v1, v2, v3, v4, v5, rfl⟩ := record_shape hk
    simp [assign2, pushParams_fresh, functionDocs, functionRecord, docsNode, assign3]
    cases g.analyze_docs <;> cases FD.getRawComment <;> simp

/-! ## The invariant is kept by every visit -/

theorem tableInv_null (P : List (String × Node) → Prop) : TableInv P .null :=
  ⟨Or.inl rfl, by simp [Node.entries], by simp [Node.entries]⟩

theorem tableInv_upsert {P : List (String × Node) → Prop} {n : Node} (h : TableInv P n)
    (k : String) {X : List (String × Node)} (hX : P X) :
    TableInv P (.map (upsert k (.map X) n.entries)) := by
  obtain ⟨-, hnd, hrec⟩ := h
  refine ⟨Or.inr ⟨_, rfl⟩, nodup_upsert k _ hnd, ?_⟩
  intro k' r hl
  simp only [Node.entries] at hl
  by_cases hk : k = k'
  · subst hk
    rw [lookupKey_upsert_self] at hl
    exact ⟨X, (Option.some.inj hl).symm, hX⟩
  · rw [lookupKey_upsert_ne hk] at hl
    exact hrec k' r hl

theorem functionRecordOK_functionRecord (g : Globals) (FD : FunctionDecl) :
    ∃ X, functionRecord g FD = .map X ∧ FunctionRecordOK X :=
  ⟨_, rfl, rfl, by simp [Node.isSeqOrNull]⟩

theorem VisitFunctionDecl_accepted (g : Globals) (FD : FunctionDecl) (s : State)
    (h : Inv s) (hacc : AcceptedFunction g FD) :
    VisitFunctionDecl g FD s =
      some { s with
        functions := .map (upsert FD.getNameAsString (functionRecord g FD) s.functions.entries)
        current_function_name := FD.getNameAsString } := by
  obtain ⟨hskip, hbody⟩ := hacc
  have hb : (!g.process_as_header_file && !FD.hasBody) = false := by
    rcases hbody with h | h <;> simp [h]
  simp [VisitFunctionDecl, hskip, hb, recordFunctionDecl_eq g FD s h.functions]

theorem VisitFunctionDecl_rejected (g : Globals) (FD : FunctionDecl) (s : State)
    (hrej : ¬ AcceptedFunction g FD) : VisitFunctionDecl g FD s = some s := by
  unfold AcceptedFunction at hrej
  unfold VisitFunctionDecl
  cases hs : skipFunctionDecl g FD
  · cases hh : g.process_as_header_file <;> cases hb : FD.hasBody <;> simp_all
  · simp

theorem VisitFunctionDecl_inv (g : Globals) (FD : FunctionDecl) (s : State) (h : Inv s) :
    ∃ s', VisitFunctionDecl g FD s = some s' ∧ Inv s' := by
  by_cases hacc : AcceptedFunction g FD
  · refine ⟨_, VisitFunctionDecl_accepted g FD s h hacc, ?_⟩
    obtain ⟨X, hX, hok⟩ := functionRecordOK_functionRecord g FD
    refine ⟨?_, h.variables_, h.types, ?_⟩
    · simpa [hX] using tableInv_upsert h.functions FD.getNameAsString hok
    · intro _
      exact (mem_map_fst_upsert _ _ _ _).2 (Or.inl rfl)
  · exact ⟨s, VisitFunctionDecl_rejected g FD s hacc, h⟩

theorem push_back_of_isSeqOrNull {c : Node} (h : c.isSeqOrNull = true) (x : Node) :
    c.push_back x = some (.seq (c.elems ++ [x])) := by
  cases c <;> simp_all [Node.isSeqOrNull, Node.push_back, Node.elems]

/-- The effect of a call expression that is recorded. -/
theorem VisitCallExpr_append (g : Globals) (CE : CallExpr) (s : State) (c : String)
    (h : Inv s) (hen : g.analyze_function_calls = true)
    (hcur : s.current_function_name ≠ "") (hc : CE.getDirectCallee = some c) :
    ∃ X old, lookupKey s.current_function_name s.functions.entries = some (.map X) ∧
      FunctionRecordOK X ∧ lookupKey "calls" X = some old ∧ old.isSeqOrNull = true ∧
      VisitCallExpr g CE s = some { s with
        functions := .map (upsert s.current_function_name
          (.map (upsert "calls" (.seq (old.elems ++ [.str c])) X)) s.functions.entries) } := by
  obtain ⟨r, hr⟩ := (lookupKey_isSome_iff _ _).2 (h.context hcur)
  obtain ⟨X, rfl, hok⟩ := h.functions.2.2 _ _ hr
  obtain ⟨old, hold⟩ : ∃ old, lookupKey "calls" X = some old := by
    rw [lookupKey_isSome_iff, hok.1]; simp
  have hseq := hok.2 old hold
  refine ⟨X, old, hr, hok, hold, hseq, ?_⟩
  have he : s.current_function_name.isEmpty = false := by
    rw [Bool.eq_false_iff, Ne, String.isEmpty_iff]; exact hcur
  simp [VisitCallExpr, hen, he, hc, push_back2, update_table h.functions.1, hr, hold,
    push_back_of_isSeqOrNull hseq]

/-- A call expression that is not recorded changes nothing. -/
theorem VisitCallExpr_skip (g : Globals) (CE : CallExpr) (s : State)
    (h : ¬ (g.analyze_function_calls = true ∧ s.current_function_name ≠ "" ∧
      ∃ c, CE.getDirectCallee = some c)) : VisitCallExpr g CE s = some s := by
  unfold VisitCallExpr
  cases hen : g.analyze_function_calls
  · simp
  · cases he : s.current_function_name.isEmpty
    · have hcur : s.current_function_name ≠ "" := by
        rw [Ne, ← String.isEmpty_iff, he]; simp
      cases hc : CE.getDirectCallee with
      | none => simp
      | some c => exact absurd ⟨hen, hcur, c, hc⟩ h
    · simp

theorem VisitCallExpr_inv (g : Globals) (CE : CallExpr) (s : State) (h : Inv s) :
    ∃ s', VisitCallExpr g CE s = some s' ∧ Inv s' := by
  by_cases hc : g.analyze_function_calls = true ∧ s.current_function_name ≠ "" ∧
      ∃ c, CE.getDirectCallee = some c
  · obtain ⟨hen, hcur, c, hcal⟩ := hc
    obtain ⟨X, old, -, hok, -, -, heq⟩ := VisitCallExpr_append g CE s c h hen hcur hcal
    refine ⟨_, heq, ?_, h.variables_, h.types, ?_⟩
    · refine tableInv_upsert h.functions _ ⟨?_, ?_⟩
      · rw [map_fst_upsert, hok.1]; simp
      · intro c' hc'
        rw [lookupKey_upsert_self] at hc'
        cases hc'
        rfl
    · intro _
      exact (mem_map_fst_upsert _ _ _ _).2 (Or.inl rfl)
  · exact ⟨s, VisitCallExpr_skip g CE s hc, h⟩

theorem isMapOrNull_iff (n : Node) :
    n.isMapOrNull = true ↔ (n = .null ∨ ∃ T, n = .map T) := by
  cases n <;> simp [Node.isMapOrNull]

/-- The record under `k` of a table, absent or not, is null or a mapping. -/
theorem record_shape_of_tableInv {P : List (String × Node) → Prop} {n : Node}
    (h : TableInv P n) (k : String) :
    ((lookupKey k n.entries).getD .null = .null ∨
      ∃ X, (lookupKey k n.entries).getD .null = .map X) := by
  cases hl : lookupKey k n.entries with
  | none => exact Or.inl rfl
  | some r =>
    obtain ⟨X, rfl, -⟩ := h.2.2 k r hl
    exact Or.inr ⟨X, rfl⟩

theorem recordVarDecl_eq (VD : VarDecl) (s : State)
    (h : TableInv (fun _ => True) s.variables_) :
    recordVarDecl VD s =
      some { s with
        variables_ := .map (upsert VD.getNameAsString
          (.map (variableRecordAfter VD
            ((lookupKey VD.getNameAsString s.variables_.entries).getD .null).entries))
          s.variables_.entries) } := by
  unfold recordVarDecl variableRecordAfter
  have hr := record_shape_of_tableInv h VD.getNameAsString
  cases htu : VD.isTranslationUnit
  · simp [assign2, update_table h.1, update_table hr]
  · simp [assign2, update_table h.1, update_table hr]

theorem VisitVarDecl_accepted (g : Globals) (VD : VarDecl) (s : State) (h : Inv s)
    (hg : VD.hasGlobalStorage = true) (hskip : skipVarDecl g VD = false) :
    VisitVarDecl g VD s =
      some { s with
        variables_ := .map (upsert VD.getNameAsString
          (.map (variableRecordAfter VD
            ((lookupKey VD.getNameAsString s.variables_.entries).getD .null).entries))
          s.variables_.entries) } := by
  simp [VisitVarDecl, hg, hskip, recordVarDecl_eq VD s h.variables_]

theorem VisitVarDecl_rejected (g : Globals) (VD : VarDecl) (s : State)
    (h : ¬ (VD.hasGlobalStorage = true ∧ skipVarDecl g VD = false)) :
    VisitVarDecl g VD s = some s := by
  unfold VisitVarDecl
  cases hg : VD.hasGlobalStorage <;> cases hs : skipVarDecl g VD <;> simp_all

theorem VisitVarDecl_inv (g : Globals) (VD : VarDecl) (s : State) (h : Inv s) :
    ∃ s', VisitVarDecl g VD s = some s' ∧ Inv s' := by
  by_cases hacc : VD.hasGlobalStorage = true ∧ skipVarDecl g VD = false
  · exact ⟨_, VisitVarDecl_accepted g VD s h hacc.1 hacc.2, h.functions,
      tableInv_upsert h.variables_ _ trivial, h.types, h.context⟩
  · exact ⟨s, VisitVarDecl_rejected g VD s hacc, h⟩

/-! ## `VisitTypedefDecl` in closed form -/

theorem pushMembers_eq (name : String) (T : List (String × Node)) (fs : List FieldDecl) :
    ∀ X : List (String × Node),
      (∀ v, lookupKey "members" X = some v → v.isSeqOrNull = true) →
      pushMembers name fs (.map (upsert name (.map X) T)) =
        some (.map (upsert name (.map (membersAfter fs X)) T)) := by
  induction fs with
  | nil => intro X _; rfl
  | cons f rest ih =>
    intro X hm
    have hseq : ((lookupKey "members" X).getD .null).isSeqOrNull = true := by
      cases hl : lookupKey "members" X with
      | none => rfl
      | some v => exact hm v hl
    have hstep := ih (upsert "members"
      (.seq (((lookupKey "members" X).getD .null).elems ++ [member f])) X)
      (by intro v hv; rw [lookupKey_upsert_self] at hv; cases hv; rfl)
    simp only [pushMembers, push_back2, update_map, lookupKey_upsert_self, Option.getD_some,
      push_back_of_isSeqOrNull hseq, Option.map_some', upsert_upsert, Option.some_bind]
    rw [hstep]
    cases rest <;> simp [membersAfter, Node.elems]

theorem setValues_eq (name : String) (T : List (String × Node))
    (es : List EnumConstantDecl) :
    ∀ X : List (String × Node),
      (∀ v, lookupKey "values" X = some v → v.isMapOrNull = true) →
      setValues name es (.map (upsert name (.map X) T)) =
        some (.map (upsert name (.map (valuesAfter es X)) T)) := by
  induction es with
  | nil => intro X _; rfl
  | cons e rest ih =>
    intro X hm
    have hmap : ((lookupKey "values" X).getD .null).isMapOrNull = true := by
      cases hl : lookupKey "values" X with
      | none => rfl
      | some v => exact hm v hl
    have hstep := ih (upsert "values"
      (.map (upsert e.getNameAsString (.int e.getInitVal.getSExtValue)
        ((lookupKey "values" X).getD .null).entries)) X)
      (by intro v hv; rw [lookupKey_upsert_self] at hv; cases hv; rfl)
    simp only [setValues, assign3, update_map, lookupKey_upsert_self, Option.getD_some,
      update_table ((isMapOrNull_iff _).1 hmap), Option.map_some', upsert_upsert,
      Option.some_bind]
    rw [hstep]
    cases rest <;> simp [valuesAfter, valuesFold, Node.entries]

theorem typeRecordOK_nil : TypeRecordOK [] := by
  simp [TypeRecordOK]

theorem typeRecordOK_upsert {X : List (String × Node)} (h : TypeRecordOK X) (k : String)
    (v : Node) (hm : k = "members" → v.isSeqOrNull = true)
    (hv : k = "values" → v.isMapOrNull = true) (hd : k = "docs" → v.isMapOrNull = true) :
    TypeRecordOK (upsert k v X) := by
  obtain ⟨h1, h2, h3⟩ := h
  refine ⟨?_, ?_, ?_⟩
  · intro w hw
    by_cases hk : k = "members"
    · subst hk; rw [lookupKey_upsert_self] at hw; cases hw; exact hm rfl
    · rw [lookupKey_upsert_ne hk] at hw; exact h1 w hw
  · intro w hw
    by_cases hk : k = "values"
    · subst hk; rw [lookupKey_upsert_self] at hw; cases hw; exact hv rfl
    · rw [lookupKey_upsert_ne hk] at hw; exact h2 w hw
  · intro w hw
    by_cases hk : k = "docs"
    · subst hk; rw [lookupKey_upsert_self] at hw; cases hw; exact hd rfl
    · rw [lookupKey_upsert_ne hk] at hw; exact h3 w hw

theorem typeRecordOK_membersAfter {X : List (String × Node)} (h : TypeRecordOK X)
    (fs : List FieldDecl) : TypeRecordOK (membersAfter fs X) := by
  cases fs with
  | nil => exact h
  | cons f rest =>
    exact typeRecordOK_upsert h _ _ (fun _ => rfl) (by simp) (by simp)

theorem typeRecordOK_valuesAfter {X : List (String × Node)} (h : TypeRecordOK X)
    (es : List EnumConstantDecl) : TypeRecordOK (valuesAfter es X) := by
  cases es with
  | nil => exact h
  | cons e rest =>
    exact typeRecordOK_upsert h _ _ (by simp) (fun _ => rfl) (by simp)

theorem typeRecordOK_kindAfter {X : List (String × Node)} (h : TypeRecordOK X)
    (U : QualType) : TypeRecordOK (kindAfter U X) := by
  unfold kindAfter
  cases U.getAsRecordType with
  | some RD =>
    cases hs : RD.isStruct
    · simpa [hs] using h
    · simpa [hs] using typeRecordOK_membersAfter
        (typeRecordOK_upsert h "type" (.str "struct") (by simp) (by simp) (by simp)) RD.fields
  | none =>
    cases U.getAsEnumType with
    | some ED =>
      exact typeRecordOK_valuesAfter
        (typeRecordOK_upsert h "type" (.str "enum") (by simp) (by simp) (by simp))
        ED.enumerators
    | none => exact h

theorem typeRecordOK_docsAfter {X : List (String × Node)} (h : TypeRecordOK X)
    (g : Globals) (c : Option String) : TypeRecordOK (docsAfter g c X) := by
  unfold docsAfter
  cases g.analyze_docs
  · simpa using h
  · cases c with
    | none => simpa using h
    | some t =>
      simpa using typeRecordOK_upsert h "docs"
        (.map (upsert "raw" (.str t) ((lookupKey "docs" X).getD .null).entries))
        (by simp) (by simp) (fun _ => rfl)

theorem typeRecordOK_typeRecordAfter {X : List (String × Node)} (h : TypeRecordOK X)
    (g : Globals) (TD : TypedefDecl) : TypeRecordOK (typeRecordAfter g TD X) :=
  typeRecordOK_docsAfter
    (typeRecordOK_kindAfter
      (typeRecordOK_upsert
        (typeRecordOK_upsert h "type" (.str TD.getUnderlyingType.getAsString)
          (by simp) (by simp) (by simp))
        "invariants" .null (by simp) (by simp) (by simp)) _) g _

theorem typedefKind_eq (name : String) (U : QualType) (T X : List (String × Node))
    (h : TypeRecordOK X) :
    typedefKind name U (.map (upsert name (.map X) T)) =
      some (.map (upsert name (.map (kindAfter U X)) T)) := by
  have hty : ∀ t, TypeRecordOK (upsert "type" (.str t) X) := fun t =>
    typeRecordOK_upsert h "type" (.str t) (by simp) (by simp) (by simp)
  unfold typedefKind kindAfter
  cases U.getAsRecordType with
  | some RD =>
    cases hs : RD.isStruct
    · simp [hs]
    · simp [hs, assign2, pushMembers_eq name T RD.fields _ (hty "struct").1]
  | none =>
    cases U.getAsEnumType with
    | some ED => simp [assign2, setValues_eq name T ED.enumerators _ (hty "enum").2.1]
    | none => simp

theorem typedefDocs_eq (g : Globals) (TD : TypedefDecl) (name : String)
    (T X : List (String × Node)) (h : TypeRecordOK X) :
    typedefDocs g TD name (.map (upsert name (.map X) T)) =
      some (.map (upsert name (.map (docsAfter g TD.getRawComment X)) T)) := by
  have hd : ((lookupKey "docs" X).getD .null).isMapOrNull = true := by
    cases hl : lookupKey "docs" X with
    | none => rfl
    | some v => exact h.2.2 v hl
  unfold typedefDocs docsAfter
  cases g.analyze_docs
  · simp
  · cases TD.getRawComment with
    | none => simp
    | some t => simp [assign3, update_table ((isMapOrNull_iff _).1 hd)]

/-- The pairs of the record under `k` of a types table have the shape of a type record. -/
theorem typeRecordOK_entries {n : Node} (h : TableInv TypeRecordOK n) (k : String) :
    TypeRecordOK ((lookupKey k n.entries).getD .null).entries := by
  cases hl : lookupKey k n.entries with
  | none => exact typeRecordOK_nil
  | some r =>
    obtain ⟨X, rfl, hX⟩ := h.2.2 k r hl
    exact hX

theorem recordTypedefDecl_eq (g : Globals) (TD : TypedefDecl) (s : State)
    (h : TableInv TypeRecordOK s.types) :
    recordTypedefDecl g TD s =
      some { s with
        types := .map (upsert TD.getNameAsString
          (.map (typeRecordAfter g TD
            ((lookupKey TD.getNameAsString s.types.entries).getD .null).entries))
          s.types.entries) } := by
  have hr := record_shape_of_tableInv h TD.getNameAsString
  have hX := typeRecordOK_entries h TD.getNameAsString
  have h1 := typeRecordOK_upsert
    (typeRecordOK_upsert hX "type" (.str TD.getUnderlyingType.getAsString)
      (by simp) (by simp) (by simp))
    "invariants" .null (by simp) (by simp) (by simp)
  have h2 := typeRecordOK_kindAfter h1 TD.getUnderlyingType
  unfold recordTypedefDecl typeRecordAfter
  simp [assign2, update_table h.1, update_table hr, typedefKind_eq _ _ _ _ h1,
    typedefDocs_eq _ _ _ _ _ h2]

theorem VisitTypedefDecl_accepted (g : Globals) (TD : TypedefDecl) (s : State) (h : Inv s)
    (hskip : skipTypedefDecl g TD = false) :
    VisitTypedefDecl g TD s =
      some { s with
        types := .map (upsert TD.getNameAsString
          (.map (typeRecordAfter g TD
            ((lookupKey TD.getNameAsString s.types.entries).getD .null).entries))
          s.types.entries) } := by
  simp [VisitTypedefDecl, hskip, recordTypedefDecl_eq g TD s h.types]

theorem VisitTypedefDecl_rejected (g : Globals) (TD : TypedefDecl) (s : State)
    (h : skipTypedefDecl g TD = true) : VisitTypedefDecl g TD s = some s := by
  simp [VisitTypedefDecl, h]

theorem VisitTypedefDecl_inv (g : Globals) (TD : TypedefDecl) (s : State) (h : Inv s) :
    ∃ s', VisitTypedefDecl g TD s = some s' ∧ Inv s' := by
  cases hskip : skipTypedefDecl g TD
  · exact ⟨_, VisitTypedefDecl_accepted g TD s h hskip, h.functions, h.variables_,
      tableInv_upsert h.types _
        (typeRecordOK_typeRecordAfter (typeRecordOK_entries h.types _) g TD), h.context⟩
  · exact ⟨s, VisitTypedefDecl_rejected g TD s hskip, h⟩

/-! ## Reachable states -/

theorem inv_init : Inv State.init :=
  ⟨tableInv_null _, tableInv_null _, tableInv_null _, fun h => absurd rfl h⟩

theorem visit_inv (g : Globals) (v : Visit) (s : State) (h : Inv s) :
    ∃ s', visit g s v = some s' ∧ Inv s' := by
  cases v with
  | functionDecl FD => exact VisitFunctionDecl_inv g FD s h
  | callExpr CE => exact VisitCallExpr_inv g CE s h
  | varDecl VD => exact VisitVarDecl_inv g VD s h
  | typedefDecl TD => exact VisitTypedefDecl_inv g TD s h

theorem traverse_inv (g : Globals) (vs : List Visit) :
    ∀ s, Inv s → ∃ s', traverse g vs s = some s' ∧ Inv s' := by
  induction vs with
  | nil => intro s h; exact ⟨s, rfl, h⟩
  | cons v rest ih =>
    intro s h
    obtain ⟨s1, h1, hi1⟩ := visit_inv g v s h
    obtain ⟨s2, h2, hi2⟩ := ih s1 hi1
    exact ⟨s2, by simp [traverse, h1, h2], hi2⟩

theorem traverse_append (g : Globals) (vs ws : List Visit) (s : State) :
    traverse g (vs ++ ws) s = (traverse g vs s).bind (traverse g ws) := by
  induction vs generalizing s with
  | nil => rfl
  | cons v rest ih =>
    simp only [List.cons_append, traverse]
    cases visit g s v with
    | none => rfl
    | some s1 => simpa using ih s1

theorem reachable_inv {g : Globals} {s : State} (h : Reachable g s) : Inv s := by
  obtain ⟨vs, hvs⟩ := h
  obtain ⟨s', hs', hi⟩ := traverse_inv g vs State.init inv_init
  rw [hvs] at hs'
  cases hs'
  exact hi

theorem reachable_init (g : Globals) : Reachable g State.init := ⟨[], rfl⟩

theorem reachable_step {g : Globals} {s s' : State} (h : Reachable g s) (v : Visit)
    (hv : visit g s v = some s') : Reachable g s' := by
  obtain ⟨vs, hvs⟩ := h
  refine ⟨vs ++ [v], ?_⟩
  rw [traverse_append, hvs]
  simp [traverse, hv]

theorem reachable_traverse {g : Globals} {s s' : State} (h : Reachable g s)
    (vs : List Visit) (hv : traverse g vs s = some s') : Reachable g s' := by
  obtain ⟨ws, hws⟩ := h
  refine ⟨ws ++ vs, ?_⟩
  rw [traverse_append, hws]
  exact hv

theorem keys_eq (n : Node) : n.keys = n.entries.map Prod.fst := by
  cases n <;> rfl

/-- No visit removes a key of the functions table. -/
theorem visit_keys_mono (g : Globals) (v : Visit) (s s' : State) (h : Inv s)
    (hv : visit g s v = some s') (k : String) (hk : k ∈ s.functions.keys) :
    k ∈ s'.functions.keys := by
  rw [keys_eq] at hk ⊢
  cases v with
  | functionDecl FD =>
    have hv' : VisitFunctionDecl g FD s = some s' := hv
    by_cases hacc : AcceptedFunction g FD
    · rw [VisitFunctionDecl_accepted g FD s h hacc] at hv'
      cases hv'
      exact (mem_map_fst_upsert _ _ _ _).2 (Or.inr hk)
    · rw [VisitFunctionDecl_rejected g FD s hacc] at hv'
      cases hv'
      exact hk
  | callExpr CE =>
    have hv' : VisitCallExpr g CE s = some s' := hv
    by_cases hrec : g.analyze_function_calls = true ∧ s.current_function_name ≠ "" ∧
        ∃ c, CE.getDirectCallee = some c
    · obtain ⟨hen, hcur, c, hc⟩ := hrec
      obtain ⟨X, old, -, -, -, -, heq⟩ := VisitCallExpr_append g CE s c h hen hcur hc
      rw [heq] at hv'
      cases hv'
      exact (mem_map_fst_upsert _ _ _ _).2 (Or.inr hk)
    · rw [VisitCallExpr_skip g CE s hrec] at hv'
      cases hv'
      exact hk
  | varDecl VD =>
    have hv' : VisitVarDecl g VD s = some s' := hv
    by_cases hacc : VD.hasGlobalStorage = true ∧ skipVarDecl g VD = false
    · rw [VisitVarDecl_accepted g VD s h hacc.1 hacc.2] at hv'
      cases hv'
      exact hk
    · rw [VisitVarDecl_rejected g VD s hacc] at hv'
      cases hv'
      exact hk
  | typedefDecl TD =>
    have hv' : VisitTypedefDecl g TD s = some s' := hv
    cases hskip : skipTypedefDecl g TD
    · rw [VisitTypedefDecl_accepted g TD s h hskip] at hv'
      cases hv'
      exact hk
    · rw [VisitTypedefDecl_rejected g TD s hskip] at hv'
      cases hv'
      exact hk

theorem traverse_keys_mono (g : Globals) (vs : List Visit) :
    ∀ (s s' : State), Inv s → traverse g vs s = some s' → ∀ k, k ∈ s.functions.keys →
      k ∈ s'.functions.keys := by
  induction vs with
  | nil => intro s s' _ h k hk; cases h; exact hk
  | cons v rest ih =>
    intro s s' hinv h k hk
    obtain ⟨s1, h1, hi1⟩ := visit_inv g v s hinv
    simp only [traverse, h1, Option.some_bind] at h
    exact ih s1 s' hi1 h k (visit_keys_mono g v s s1 hinv h1 k hk)

/-! ## Field lookups after an update -/

theorem field?_eq (n : Node) (name field : String) :
    field? n name field = (lookupKey name n.entries).bind fun r => r.find? field := by
  cases n <;> rfl

theorem field?_upsert_self (name field : String) (r : Node) (T : List (String × Node)) :
    field? (.map (upsert name r T)) name field = r.find? field := by
  simp [field?_eq]

theorem field?_upsert_ne {name name' : String} (h : name ≠ name') (field : String) (r : Node)
    (T : List (String × Node)) :
    field? (.map (upsert name r T)) name' field = field? (.map T) name' field := by
  simp [field?_eq, lookupKey_upsert_ne h]

theorem field?_entries (n : Node) (name field : String) :
    field? (.map n.entries) name field = field? n name field := by
  simp [field?_eq]

/-! ## Parameter sizes -/

theorem toInt64_byteSize (T : QualType) : toInt64 (byteSize T) = (byteSize T : Int) := by
  unfold toInt64 byteSize
  simp only []
  omega

theorem paramSize_spec (T : QualType) :
    (paramSize T = -1 ↔ (T.isIncompleteType = true ∨ T.isDependentType = true ∨
      byteSize T % 2 ^ 32 = 2 ^ 32 - 1)) ∧
    (T.isIncompleteType = false → T.isDependentType = false →
      paramSize T = toInt32 (byteSize T) ∧
      (byteSize T < 2 ^ 31 → paramSize T = (byteSize T : Int))) := by
  have h64 := toInt64_byteSize T
  have hp : T.isIncompleteType = false → T.isDependentType = false →
      paramSize T = toInt32 (byteSize T) := by
    intro h1 h2
    rw [← h64]
    simp [paramSize, h1, h2, byteSize]
  cases hi : T.isIncompleteType
  · cases hd : T.isDependentType
    · rw [hp hi hd]
      simp only [Bool.false_eq_true, false_or, forall_true_left, true_and]
      unfold toInt32
      simp only []
      omega
    · simp [paramSize, hi, hd]
  · simp [paramSize, hi]

theorem skip_iff (g : Globals) (Loc : SourceLocation) :
    (if !Loc.isValid || Loc.isInSystemHeader then true
      else if !g.analyze_all_files then
        match Loc.getFileEntryRef with
        | none => true
        | some FE => path_compare g.module_filepath (g.weakly_canonical FE) != 0
      else false) = false ↔ LocalityFilter g Loc := by
  have hcmp : ∀ a b : String, path_compare a b = 0 ↔ a = b := by
    intro a b
    unfold path_compare
    by_cases h : a = b
    · simp [h]
    · simp only [h, if_false, iff_false]
      split <;> decide
  unfold LocalityFilter
  cases hv : Loc.isValid <;> cases hs : Loc.isInSystemHeader <;>
    cases ha : g.analyze_all_files <;> cases hf : Loc.getFileEntryRef <;>
    simp [hcmp]
  exact eq_comm

theorem find?_args_functionRecord (g : Globals) (FD : FunctionDecl) :
    (functionRecord g FD).find? "args" = some (seqOf (FD.params.map new_arg)) := by
  simp [functionRecord, Node.find?]

theorem getElem?_args (FD : FunctionDecl) (i : Nat) (P : ParmVarDecl)
    (h : FD.params[i]? = some P) :
    (seqOf (FD.params.map new_arg)).elems[i]? = some (new_arg P) := by
  rw [elems_seqOf, List.getElem?_map, h]
  rfl

/-! ## The claims -/

/-- C1: the early returns on the location of each of the three visitors fire exactly when
`LocalityFilter` fails: a declaration passes if and only if its location is valid, not
in a system header, and all-files mode is on or the file entry's canonical path is the
module's.  A declaration that fails is left out (the state is returned as it was), also
in all-files mode when the location is invalid or in a system header; one that passes
goes on to the rest of its visitor.  The three visitors decide the same predicate. -/
theorem C1_locality_filter (g : Globals) (FD : FunctionDecl) (VD : VarDecl)
    (TD : TypedefDecl) (s : State) :
    (skipFunctionDecl g FD = false ↔ LocalityFilter g FD.getLocation) ∧
    (skipVarDecl g VD = false ↔ LocalityFilter g VD.getLocation) ∧
    (skipTypedefDecl g TD = false ↔ LocalityFilter g TD.getLocation) ∧
    (¬ LocalityFilter g FD.getLocation → VisitFunctionDecl g FD s = some s) ∧
    (VD.hasGlobalStorage = true → ¬ LocalityFilter g VD.getLocation →
      VisitVarDecl g VD s = some s) ∧
    (¬ LocalityFilter g TD.getLocation → VisitTypedefDecl g TD s = some s) ∧
    (LocalityFilter g FD.getLocation → VisitFunctionDecl g FD s =
      if !g.process_as_header_file && !FD.hasBody then some s
      else recordFunctionDecl g FD s) ∧
    (VD.hasGlobalStorage = true → LocalityFilter g VD.getLocation →
      VisitVarDecl g VD s = recordVarDecl VD s) ∧
    (LocalityFilter g TD.getLocation → VisitTypedefDecl g TD s = recordTypedefDecl g TD s) ∧
    (∀ Loc : SourceLocation, (Loc.isValid = false ∨ Loc.isInSystemHeader = true) →
      ¬ LocalityFilter g Loc) := by
  have hF : skipFunctionDecl g FD = false ↔ LocalityFilter g FD.getLocation :=
    skip_iff g FD.getLocation
  have hV : skipVarDecl g VD = false ↔ LocalityFilter g VD.getLocation :=
    skip_iff g VD.getLocation
  have hT : skipTypedefDecl g TD = false ↔ LocalityFilter g TD.getLocation :=
    skip_iff g TD.getLocation
  refine ⟨hF, hV, hT, ?_, ?_, ?_, ?_, ?_, ?_, ?_⟩
  · intro h
    have : skipFunctionDecl g FD = true := by
      rw [← Bool.not_eq_false]; exact fun h' => h (hF.1 h')
    simp [VisitFunctionDecl, this]
  · intro hg h
    have : skipVarDecl g VD = true := by
      rw [← Bool.not_eq_false]; exact fun h' => h (hV.1 h')
    simp [VisitVarDecl, this]
  · intro h
    have : skipTypedefDecl g TD = true := by
      rw [← Bool.not_eq_false]; exact fun h' => h (hT.1 h')
    simp [VisitTypedefDecl, this]
  · intro h
    simp [VisitFunctionDecl, hF.2 h]
  · intro hg h
    simp [VisitVarDecl, hV.2 h, hg]
  · intro h
    simp [VisitTypedefDecl, hT.2 h]
  · rintro Loc (h | h) ⟨h1, h2, -⟩
    · rw [h] at h1; cases h1
    · rw [h] at h2; cases h2

/-- C4: after an accepted declaration of a function, any further visits `mid`, and a
second accepted declaration of the same name, all from a reachable state, the functions
table has exactly one key of that name (the second declaration adds no key), and the
record under it is the record that visiting the later declaration alone (in any
reachable state `s0`) leaves: class and returns of the later declaration, its args the
later parameters only, its calls empty again and its docs those of the later
declaration. -/
theorem C4_redeclared_function (g : Globals) (s s0 : State) (hs : Reachable g s)
    (hs0 : Reachable g s0) (FD1 FD2 : FunctionDecl) (mid : List Visit)
    (h1 : AcceptedFunction g FD1) (h2 : AcceptedFunction g FD2)
    (hn : FD1.getNameAsString = FD2.getNameAsString) :
    ∃ s1 s2 alone, traverse g (.functionDecl FD1 :: mid) s = some s1 ∧
      VisitFunctionDecl g FD2 s1 = some s2 ∧
      VisitFunctionDecl g FD2 s0 = some alone ∧
      s2.functions.keys.count FD2.getNameAsString = 1 ∧
      s2.functions.keys = s1.functions.keys ∧
      s2.functions.find? FD2.getNameAsString = alone.functions.find? FD2.getNameAsString ∧
      (∀ field, field? s2.functions FD2.getNameAsString field =
        field? alone.functions FD2.getNameAsString field) ∧
      field? s2.functions FD2.getNameAsString "class" =
        some (.str (functionStorageClass FD2.getStorageClass)) ∧
      field? s2.functions FD2.getNameAsString "returns" =
        some (.str FD2.getReturnType.getAsString) ∧
      field? s2.functions FD2.getNameAsString "args" =
        some (seqOf (FD2.params.map new_arg)) ∧
      field? s2.functions FD2.getNameAsString "calls" = some .null ∧
      field? s2.functions FD2.getNameAsString "docs" =
        some (docsNode g FD2.getRawComment) := by
  have hinv := reachable_inv hs
  have e1 := VisitFunctionDecl_accepted g FD1 s hinv h1
  have hv1 : visit g s (.functionDecl FD1) = some _ := e1
  have hr1 : Reachable g _ := reachable_step hs (.functionDecl FD1) e1
  obtain ⟨s1, hmid, -⟩ := traverse_inv g mid _ (reachable_inv hr1)
  have hs1 : Reachable g s1 := reachable_traverse hr1 mid hmid
  have hkey : FD2.getNameAsString ∈ s1.functions.keys := by
    refine traverse_keys_mono g mid _ s1 (reachable_inv hr1) hmid _ ?_
    rw [keys_eq, ← hn]
    exact (mem_map_fst_upsert _ _ _ _).2 (Or.inl rfl)
  have e2 := VisitFunctionDecl_accepted g FD2 s1 (reachable_inv hs1) h2
  have e3 := VisitFunctionDecl_accepted g FD2 s0 (reachable_inv hs0) h2
  refine ⟨s1, _, _, ?_, e2, e3, ?_, ?_, ?_, ?_, ?_, ?_, ?_, ?_, ?_⟩
  · simp only [traverse, hv1, Option.some_bind]
    exact hmid
  · exact count_upsert_self _ _ (reachable_inv hs1).functions.2.1
  · rw [keys_eq] at hkey
    rw [keys_eq, keys_eq, entries_map, map_fst_upsert, if_pos hkey]
  · simp [Node.find?]
  · intro field
    simp [field?_upsert_self]
  all_goals simp [field?_upsert_self, functionRecord, Node.find?]

/-- C4, witness: a header-mode run meets `extern int add(int x, int y);`, a call
`helper()`, and then the definition `int add(int a, int b) { ... }`. -/
theorem C4_redeclared_function_witness :
    Reachable exampleGlobalsHeader State.init ∧
    AcceptedFunction exampleGlobalsHeader addEarlier ∧
    AcceptedFunction exampleGlobalsHeader addDecl ∧
    addEarlier.getNameAsString = addDecl.getNameAsString ∧
    ∃ s1 s2 alone,
      traverse exampleGlobalsHeader [.functionDecl addEarlier, .callExpr helperCall]
        State.init = some s1 ∧
      VisitFunctionDecl exampleGlobalsHeader addDecl s1 = some s2 ∧
      VisitFunctionDecl exampleGlobalsHeader addDecl State.init = some alone ∧
      s2.functions.keys.count "add" = 1 ∧
      s2.functions.find? "add" = alone.functions.find? "add" ∧
      field? s1.functions "add" "calls" = some (.seq [.str "helper"]) ∧
      field? s2.functions "add" "calls" = some .null ∧
      field? s2.functions "add" "args" = some (seqOf (addDecl.params.map new_arg)) := by
  obtain ⟨s1, s2, alone, k1, k2, k3, k4, -, k6, -, -, -, k10, k11, -⟩ :=
    C4_redeclared_function exampleGlobalsHeader State.init State.init (reachable_init _)
      (reachable_init _) addEarlier addDecl [.callExpr helperCall] ⟨rfl, Or.inl rfl⟩
      ⟨rfl, Or.inl rfl⟩ rfl
  refine ⟨reachable_init _, ⟨rfl, Or.inl rfl⟩, ⟨rfl, Or.inl rfl⟩, rfl, s1, s2, alone,
    k1, k2, k3, k4, k6, ?_, k11, k10⟩
  have e : (traverse exampleGlobalsHeader
      [.functionDecl addEarlier, .callExpr helperCall] State.init).bind
      (fun s => field? s.functions "add" "calls") = some (.seq [.str "helper"]) := rfl
  rw [k1] at e
  exact e

/-- C5 (as amended): for every parameter of an accepted function declaration the
recorded size is -1 if and only if the type is incomplete, or dependent, or its size in
bytes is 2^32 - 1 modulo 2^32; for a complete, non-dependent type the recorded size is
the size in bytes (bits divided by 8) converted to a 32-bit signed int, which is the
size in bytes itself whenever that is below 2^31. -/
theorem C5_param_size (g : Globals) (s : State) (hs : Reachable g s) (FD : FunctionDecl)
    (hacc : AcceptedFunction g FD) :
    ∃ s' args, VisitFunctionDecl g FD s = some s' ∧
      field? s'.functions FD.getNameAsString "args" = some args ∧
      ∀ (i : Nat) (P : ParmVarDecl), FD.params[i]? = some P → ∃ sz : Int,
        (args.elems[i]?).bind (fun a : Node => a.find? "size") = some (.int sz) ∧
        (sz = -1 ↔ (P.getType.isIncompleteType = true ∨ P.getType.isDependentType = true ∨
          byteSize P.getType % 2 ^ 32 = 2 ^ 32 - 1)) ∧
        (P.getType.isIncompleteType = false → P.getType.isDependentType = false →
          sz = toInt32 (byteSize P.getType) ∧
          (byteSize P.getType < 2 ^ 31 → sz = (byteSize P.getType : Int))) := by
  refine ⟨_, seqOf (FD.params.map new_arg),
    VisitFunctionDecl_accepted g FD s (reachable_inv hs) hacc, ?_, ?_⟩
  · rw [field?_upsert_self, find?_args_functionRecord]
  · intro i P hP
    refine ⟨paramSize P.getType, ?_, paramSize_spec P.getType⟩
    rw [getElem?_args FD i P hP]
    rfl

/-- C5, witness: `int add(int a, int b)` in the state at program start. -/
theorem C5_param_size_witness :
    Reachable exampleGlobals State.init ∧ AcceptedFunction exampleGlobals addDecl ∧
    ∃ s' args, VisitFunctionDecl exampleGlobals addDecl State.init = some s' ∧
      field? s'.functions addDecl.getNameAsString "args" = some args ∧
      ∀ (i : Nat) (P : ParmVarDecl), addDecl.params[i]? = some P → ∃ sz : Int,
        (args.elems[i]?).bind (fun a : Node => a.find? "size") = some (.int sz) ∧
        (sz = -1 ↔ (P.getType.isIncompleteType = true ∨ P.getType.isDependentType = true ∨
          byteSize P.getType % 2 ^ 32 = 2 ^ 32 - 1)) ∧
        (P.getType.isIncompleteType = false → P.getType.isDependentType = false →
          sz = toInt32 (byteSize P.getType) ∧
          (byteSize P.getType < 2 ^ 31 → sz = (byteSize P.getType : Int))) :=
  ⟨reachable_init _, ⟨rfl, Or.inr rfl⟩,
    C5_param_size exampleGlobals State.init (reachable_init _) addDecl ⟨rfl, Or.inr rfl⟩⟩

/-- C5, counterexample to the claim as stated: the parameter of
`void take(struct Big b) {}` has a complete, non-dependent type of 4294967295 bytes, and
the size recorded for it is -1. -/
theorem C5_counterexample :
    bigStruct.isIncompleteType = false ∧ bigStruct.isDependentType = false ∧
    (VisitFunctionDecl exampleGlobals takeDecl State.init).bind
        (fun s => field? s.functions "take" "args") =
      some (.seq [.map [("name", .str "b"), ("type", .str "struct Big"),
        ("size", .int (-1))]]) :=
  ⟨rfl, rfl, rfl⟩

/-- C6: an accepted function declaration, visited in any reachable state (the name in the
table or not), leaves an args sequence with one entry per declared parameter, in
declaration order, the i-th entry carrying the name and the type text of the i-th
parameter. -/
theorem C6_args_sequence (g : Globals) (s : State) (hs : Reachable g s)
    (FD : FunctionDecl) (hacc : AcceptedFunction g FD) :
    ∃ s' args, VisitFunctionDecl g FD s = some s' ∧
      field? s'.functions FD.getNameAsString "args" = some args ∧
      args.elems.length = FD.params.length ∧
      args.elems = FD.params.map new_arg ∧
      ∀ (i : Nat) (P : ParmVarDecl), FD.params[i]? = some P →
        (args.elems[i]?).bind (fun a : Node => a.find? "name") = some (.str P.getNameAsString) ∧
        (args.elems[i]?).bind (fun a : Node => a.find? "type") =
          some (.str P.getType.getAsString) := by
  refine ⟨_, seqOf (FD.params.map new_arg),
    VisitFunctionDecl_accepted g FD s (reachable_inv hs) hacc, ?_, ?_, ?_, ?_⟩
  · rw [field?_upsert_self, find?_args_functionRecord]
  · rw [elems_seqOf, List.length_map]
  · rw [elems_seqOf]
  · intro i P hP
    rw [getElem?_args FD i P hP]
    exact ⟨rfl, rfl⟩

/-- C6, witness: `int add(int a, int b)` yields the args
`[{a, int, 4}, {b, int, 4}]`. -/
theorem C6_args_sequence_witness :
    Reachable exampleGlobals State.init ∧ AcceptedFunction exampleGlobals addDecl ∧
    (∃ s' args, VisitFunctionDecl exampleGlobals addDecl State.init = some s' ∧
      field? s'.functions addDecl.getNameAsString "args" = some args ∧
      args.elems.length = addDecl.params.length ∧
      args.elems = addDecl.params.map new_arg ∧
      ∀ (i : Nat) (P : ParmVarDecl), addDecl.params[i]? = some P →
        (args.elems[i]?).bind (fun a : Node => a.find? "name") = some (.str P.getNameAsString) ∧
        (args.elems[i]?).bind (fun a : Node => a.find? "type") =
          some (.str P.getType.getAsString)) ∧
    addDecl.params.map new_arg =
      [.map [("name", .str "a"), ("type", .str "int"), ("size", .int 4)],
       .map [("name", .str "b"), ("type", .str "int"), ("size", .int 4)]] :=
  ⟨reachable_init _, ⟨rfl, Or.inr rfl⟩,
    C6_args_sequence exampleGlobals State.init (reachable_init _) addDecl
      ⟨rfl, Or.inr rfl⟩, rfl⟩

/-! ### Call expressions -/

theorem seqOf_append_singleton (xs : List Node) (x : Node) :
    seqOf (xs ++ [x]) = .seq (xs ++ [x]) := by
  cases xs <;> rfl

theorem field?_calls_frame {cur : String} {X T : List (String × Node)} (v : Node)
    (hX : lookupKey cur T = some (.map X)) (name field : String)
    (h : name ≠ cur ∨ field ≠ "calls") :
    field? (.map (upsert cur (.map (upsert "calls" v X)) T)) name field =
      field? (.map T) name field := by
  by_cases hn : name = cur
  · subst hn
    have hf : "calls" ≠ field := by
      rcases h with h | h
      · exact absurd rfl h
      · exact fun e => h e.symm
    simp [field?_eq, hX, Node.find?, lookupKey_upsert_ne hf]
  · exact field?_upsert_ne (fun e => hn e.symm) _ _ _

/-- A run of call expressions inside one current-function context. -/
theorem traverse_calls (g : Globals) (hen : g.analyze_function_calls = true)
    (CEs : List CallExpr) :
    ∀ (s : State) (acc : List Node), Inv s → s.current_function_name ≠ "" →
      field? s.functions s.current_function_name "calls" = some (seqOf acc) →
      ∃ s', traverse g (CEs.map .callExpr) s = some s' ∧
        s'.current_function_name = s.current_function_name ∧
        field? s'.functions s.current_function_name "calls" =
          some (seqOf (acc ++ (CEs.filterMap fun CE => CE.getDirectCallee).map .str)) := by
  induction CEs with
  | nil => intro s acc _ _ h; exact ⟨s, rfl, rfl, by simpa using h⟩
  | cons CE rest ih =>
    intro s acc hinv hcur hcalls
    cases hc : CE.getDirectCallee with
    | none =>
      have hv : visit g s (.callExpr CE) = some s :=
        VisitCallExpr_skip g CE s (by rintro ⟨-, -, c, h⟩; rw [hc] at h; cases h)
      obtain ⟨s', h1, h2, h3⟩ := ih s acc hinv hcur hcalls
      exact ⟨s', by simp [traverse, hv, h1], h2, by simpa [hc] using h3⟩
    | some c =>
      obtain ⟨X, old, hX, -, hold, -, heq⟩ := VisitCallExpr_append g CE s c hinv hen hcur hc
      have hold' : old = seqOf acc := by
        rw [field?_eq, hX] at hcalls
        simp only [Option.some_bind, Node.find?, hold, Option.some.injEq] at hcalls
        exact hcalls
      obtain ⟨s1, hs1, hi1⟩ := VisitCallExpr_inv g CE s hinv
      rw [heq] at hs1
      cases hs1
      obtain ⟨s', h1, h2, h3⟩ := ih _ (acc ++ [.str c]) hi1 hcur (by
        rw [field?_upsert_self]
        simp [Node.find?, hold', elems_seqOf, seqOf_append_singleton])
      refine ⟨s', ?_, h2, ?_⟩
      · have hv : visit g s (.callExpr CE) = some _ := heq
        simp only [List.map_cons, traverse, hv, Option.some_bind]
        exact h1
      · simpa [hc] using h3

/-- C7: a call expression visited in a reachable state appends the callee's name to the
end of the calls sequence of the current-function context when call analysis is on, the
context is not empty and the callee resolves, changing nothing else; in every other
case the state is unchanged.  So after an accepted declaration of a function of
non-empty name, the calls of that function are the resolved callee names of the call
expressions visited next, in order and with repetitions. -/
theorem C7_call_collector (g : Globals) (s : State) (hs : Reachable g s) (CE : CallExpr) :
    ∃ s', VisitCallExpr g CE s = some s' ∧
      (∀ c, g.analyze_function_calls = true → s.current_function_name ≠ "" →
        CE.getDirectCallee = some c →
        ∃ old, field? s.functions s.current_function_name "calls" = some old ∧
          field? s'.functions s.current_function_name "calls" =
            some (.seq (old.elems ++ [.str c])) ∧
          (∀ name field, name ≠ s.current_function_name ∨ field ≠ "calls" →
            field? s'.functions name field = field? s.functions name field) ∧
          s'.functions.keys = s.functions.keys ∧
          s'.variables_ = s.variables_ ∧ s'.types = s.types ∧ s'.headers = s.headers ∧
          s'.current_function_name = s.current_function_name) ∧
      (¬ (g.analyze_function_calls = true ∧ s.current_function_name ≠ "" ∧
          ∃ c, CE.getDirectCallee = some c) → s' = s) ∧
      (∀ (FD : FunctionDecl) (CEs : List CallExpr), AcceptedFunction g FD →
        FD.getNameAsString ≠ "" → g.analyze_function_calls = true →
        ∃ s'', traverse g (.functionDecl FD :: CEs.map .callExpr) s = some s'' ∧
          field? s''.functions FD.getNameAsString "calls" =
            some (seqOf ((CEs.filterMap fun CE => CE.getDirectCallee).map .str))) := by
  obtain ⟨s', hs', -⟩ := VisitCallExpr_inv g CE s (reachable_inv hs)
  refine ⟨s', hs', ?_, ?_, ?_⟩
  · intro c hen hcur hc
    obtain ⟨X, old, hX, hok, hold, -, heq⟩ := VisitCallExpr_append g CE s c (reachable_inv hs) hen hcur hc
    rw [heq] at hs'
    cases hs'
    have hsh := (reachable_inv hs).functions.1
    refine ⟨old, ?_, ?_, ?_, ?_, rfl, rfl, rfl, rfl⟩
    · simp [field?_eq, hX, Node.find?, hold]
    · simp [field?_upsert_self, Node.find?]
    · intro name field h
      rw [field?_calls_frame _ hX name field h, field?_entries]
    · have hmem : s.current_function_name ∈ s.functions.entries.map Prod.fst :=
        (lookupKey_isSome_iff _ _).1 ⟨_, hX⟩
      rcases hsh with h0 | ⟨T, hT⟩
      · rw [h0] at hmem; simp at hmem
      · simp only [Node.keys, hT, entries_map, map_fst_upsert] at hmem ⊢
        simp [hmem]
  · intro h
    rw [VisitCallExpr_skip g CE s h] at hs'
    cases hs'
    rfl
  · intro FD CEs hacc hname hen
    have e1 := VisitFunctionDecl_accepted g FD s (reachable_inv hs) hacc
    have hr1 : Reachable g _ := reachable_step hs (.functionDecl FD) e1
    obtain ⟨s'', h1, -, h3⟩ := traverse_calls g hen CEs _ [] (reachable_inv hr1) hname (by
      simp [field?_upsert_self, functionRecord, Node.find?, seqOf])
    refine ⟨s'', ?_, by simpa using h3⟩
    have hv : visit g s (.functionDecl FD) = some _ := e1
    simp only [traverse, hv, Option.some_bind]
    exact h1

theorem localityFilter_inModule : LocalityFilter exampleGlobals inModule := by
  decide

theorem reachable_addState : Reachable exampleGlobals addState :=
  ⟨[.functionDecl addDecl], rfl⟩

/-- C7, witness: in `add`, the call `helper()` with call analysis on gives the calls
`["helper"]`. -/
theorem C7_call_collector_witness :
    Reachable exampleGlobals addState ∧
    ∃ s', VisitCallExpr exampleGlobals helperCall addState = some s' ∧
      field? s'.functions "add" "calls" = some (.seq [.str "helper"]) ∧
      s'.current_function_name = "add" := by
  refine ⟨reachable_addState, ?_⟩
  obtain ⟨s', h1, h2, -, -⟩ :=
    C7_call_collector exampleGlobals addState reachable_addState helperCall
  obtain ⟨old, ho, hn, -, -, -, -, -, hc⟩ := h2 "helper" rfl (by decide) rfl
  have hold : old = .null := by
    have : field? addState.functions addState.current_function_name "calls" = some .null :=
      rfl
    rw [this] at ho
    exact (Option.some.inj ho).symm
  subst hold
  exact ⟨s', h1, hn, hc⟩

/-- C8: for a function declaration that passes the locality filter, visited in a
reachable state: when header mode is on or the declaration has a body, its record is
installed under its name and the current-function context becomes its name; otherwise
(no body, no header mode) the visit changes nothing. -/
theorem C8_function_gate (g : Globals) (s : State) (hs : Reachable g s) (FD : FunctionDecl)
    (hf : LocalityFilter g FD.getLocation) :
    ((g.process_as_header_file = true ∨ FD.hasBody = true) →
      ∃ s', VisitFunctionDecl g FD s = some s' ∧
        s'.current_function_name = FD.getNameAsString ∧
        s'.functions.find? FD.getNameAsString = some (functionRecord g FD) ∧
        s'.variables_ = s.variables_ ∧ s'.types = s.types) ∧
    (¬ (g.process_as_header_file = true ∨ FD.hasBody = true) →
      VisitFunctionDecl g FD s = some s) := by
  have hskip : skipFunctionDecl g FD = false := (skip_iff g FD.getLocation).2 hf
  constructor
  · intro hb
    refine ⟨_, VisitFunctionDecl_accepted g FD s (reachable_inv hs) ⟨hskip, hb⟩, rfl, ?_, rfl, rfl⟩
    simp [Node.find?]
  · intro hb
    exact VisitFunctionDecl_rejected g FD s (fun h => hb h.2)

/-- C8, witness: without header mode the definition `addDecl` is recorded and the
body-less `addEarlier` is skipped. -/
theorem C8_function_gate_witness :
    Reachable exampleGlobals State.init ∧ LocalityFilter exampleGlobals addDecl.getLocation ∧
    (∃ s', VisitFunctionDecl exampleGlobals addDecl State.init = some s' ∧
      s'.current_function_name = "add" ∧
      s'.functions.find? "add" = some (functionRecord exampleGlobals addDecl)) ∧
    VisitFunctionDecl exampleGlobals addEarlier State.init = some State.init := by
  refine ⟨reachable_init _, localityFilter_inModule, ?_, ?_⟩
  · obtain ⟨s', h1, h2, h3, -⟩ :=
      (C8_function_gate exampleGlobals State.init (reachable_init _) addDecl
        localityFilter_inModule).1 (Or.inr rfl)
    exact ⟨s', h1, h2, h3⟩
  · exact (C8_function_gate exampleGlobals State.init (reachable_init _) addEarlier
      localityFilter_inModule).2 (by decide)

/-! ### Variables -/

theorem field?_variable (VD : VarDecl) (T X : List (String × Node)) (field : String) :
    field? (.map (upsert VD.getNameAsString (.map (variableRecordAfter VD X)) T))
      VD.getNameAsString field = lookupKey field (variableRecordAfter VD X) := by
  simp [field?_upsert_self, Node.find?]

theorem field?_of_lookup {n : Node} {name : String} {field : String} :
    field? n name field =
      lookupKey field ((lookupKey name n.entries).getD .null).entries ∨
    ∃ r, lookupKey name n.entries = some r ∧ r.isMapOrNull = false := by
  rw [field?_eq]
  cases hl : lookupKey name n.entries with
  | none => left; rfl
  | some r =>
    cases r with
    | map X => left; rfl
    | null => left; rfl
    | _ => right; exact ⟨_, rfl, rfl⟩

/-- C9: a variable declaration with global storage that passes the locality filter,
visited in a reachable state, leaves under its name a record whose type is the type
text of the declaration; the class is written, to the storage class of the
declaration, exactly when the declaration is at translation-unit scope, and is
otherwise what it was before; a name not yet in the table gets the record
`{class, type}` at translation-unit scope and `{type}` elsewhere.  The other tables
and the context are unchanged. -/
theorem C9_variable_fields (g : Globals) (s : State) (hs : Reachable g s) (VD : VarDecl)
    (hg : VD.hasGlobalStorage = true) (hf : LocalityFilter g VD.getLocation) :
    ∃ s', VisitVarDecl g VD s = some s' ∧
      field? s'.variables_ VD.getNameAsString "type" = some (.str VD.getType.getAsString) ∧
      (VD.isTranslationUnit = true →
        field? s'.variables_ VD.getNameAsString "class" =
          some (.str (variableStorageClass VD.getStorageClass))) ∧
      (VD.isTranslationUnit = false →
        field? s'.variables_ VD.getNameAsString "class" =
          field? s.variables_ VD.getNameAsString "class") ∧
      (s.variables_.find? VD.getNameAsString = none →
        s'.variables_.find? VD.getNameAsString = some (.map
          (if VD.isTranslationUnit then
            [("class", .str (variableStorageClass VD.getStorageClass)),
             ("type", .str VD.getType.getAsString)]
          else [("type", .str VD.getType.getAsString)]))) ∧
      s'.functions = s.functions ∧ s'.types = s.types ∧
      s'.current_function_name = s.current_function_name := by
  have hskip : skipVarDecl g VD = false := (skip_iff g VD.getLocation).2 hf
  have hinv := (reachable_inv hs)
  refine ⟨_, VisitVarDecl_accepted g VD s hinv hg hskip, ?_, ?_, ?_, ?_, rfl, rfl, rfl⟩
  · rw [field?_variable]
    simp [variableRecordAfter]
  · intro htu
    rw [field?_variable]
    simp [variableRecordAfter, htu, lookupKey_upsert_ne]
  · intro htu
    rw [field?_variable]
    simp only [variableRecordAfter, htu, Bool.false_eq_true, if_false]
    rw [lookupKey_upsert_ne (by decide)]
    rcases @field?_of_lookup s.variables_ VD.getNameAsString "class" with h | ⟨r, hr, hbad⟩
    · exact h.symm
    · obtain ⟨X, rfl, -⟩ := hinv.variables_.2.2 _ _ hr
      cases hbad
  · intro hfresh
    have hnone : lookupKey VD.getNameAsString s.variables_.entries = none := by
      rcases hinv.variables_.1 with h0 | ⟨T, hT⟩
      · rw [h0]; rfl
      · rw [hT] at hfresh ⊢; exact hfresh
    simp only [Node.find?, lookupKey_upsert_self, hnone, Option.getD_none, entries_null,
      variableRecordAfter]
    cases VD.isTranslationUnit <;> simp

/-- C9, witness: `static int counter;` at file scope of the target file yields the
record `{class: static, type: int}`. -/
theorem C9_variable_fields_witness :
    Reachable exampleGlobals State.init ∧ counterDecl.hasGlobalStorage = true ∧
    LocalityFilter exampleGlobals counterDecl.getLocation ∧
    ∃ s', VisitVarDecl exampleGlobals counterDecl State.init = some s' ∧
      s'.variables_.find? "counter" =
        some (.map [("class", .str "static"), ("type", .str "int")]) := by
  refine ⟨reachable_init _, rfl, localityFilter_inModule, ?_⟩
  obtain ⟨s', h1, -, -, -, h5, -⟩ :=
    C9_variable_fields exampleGlobals State.init (reachable_init _) counterDecl rfl
      localityFilter_inModule
  exact ⟨s', h1, h5 rfl⟩

/-! ### Storage classes -/

theorem functionStorageClass_spec (sc : StorageClass) :
    (functionStorageClass sc = "normal" ∨ functionStorageClass sc = "static" ∨
      functionStorageClass sc = "extern") ∧
    (functionStorageClass sc = "static" ↔ sc = .SC_Static) ∧
    (functionStorageClass sc = "extern" ↔ sc = .SC_Extern) ∧
    (functionStorageClass sc = "normal" ↔ sc ≠ .SC_Static ∧ sc ≠ .SC_Extern) := by
  cases sc <;> simp [functionStorageClass]

theorem variableStorageClass_spec (sc : StorageClass) :
    (variableStorageClass sc = "global" ∨ variableStorageClass sc = "static" ∨
      variableStorageClass sc = "extern") ∧
    (variableStorageClass sc = "static" ↔ sc = .SC_Static) ∧
    (variableStorageClass sc = "extern" ↔ sc = .SC_Extern) ∧
    (variableStorageClass sc = "global" ↔ sc ≠ .SC_Static ∧ sc ≠ .SC_Extern) := by
  cases sc <;> simp [variableStorageClass]

/-- C10: the class recorded for an accepted function is one of normal, static, extern:
static exactly for a declaration of storage class static, extern exactly for extern,
normal for every other; the class recorded for a variable (one with global storage that
passes the filter, at translation-unit scope) is one of global, static, extern, in the
same way with global for every other storage class. -/
theorem C10_storage_class (g : Globals) (s : State) (hs : Reachable g s)
    (FD : FunctionDecl) (hacc : AcceptedFunction g FD) (VD : VarDecl)
    (hg : VD.hasGlobalStorage = true) (hf : LocalityFilter g VD.getLocation)
    (htu : VD.isTranslationUnit = true) :
    (∃ s' c, VisitFunctionDecl g FD s = some s' ∧
      field? s'.functions FD.getNameAsString "class" = some (.str c) ∧
      (c = "normal" ∨ c = "static" ∨ c = "extern") ∧
      (c = "static" ↔ FD.getStorageClass = .SC_Static) ∧
      (c = "extern" ↔ FD.getStorageClass = .SC_Extern) ∧
      (c = "normal" ↔
        FD.getStorageClass ≠ .SC_Static ∧ FD.getStorageClass ≠ .SC_Extern)) ∧
    (∃ s' c, VisitVarDecl g VD s = some s' ∧
      field? s'.variables_ VD.getNameAsString "class" = some (.str c) ∧
      (c = "global" ∨ c = "static" ∨ c = "extern") ∧
      (c = "static" ↔ VD.getStorageClass = .SC_Static) ∧
      (c = "extern" ↔ VD.getStorageClass = .SC_Extern) ∧
      (c = "global" ↔
        VD.getStorageClass ≠ .SC_Static ∧ VD.getStorageClass ≠ .SC_Extern)) := by
  constructor
  · refine ⟨_, functionStorageClass FD.getStorageClass,
      VisitFunctionDecl_accepted g FD s (reachable_inv hs) hacc, ?_,
      functionStorageClass_spec FD.getStorageClass⟩
    simp [field?_upsert_self, functionRecord, Node.find?]
  · have hskip : skipVarDecl g VD = false := (skip_iff g VD.getLocation).2 hf
    refine ⟨_, variableStorageClass VD.getStorageClass,
      VisitVarDecl_accepted g VD s (reachable_inv hs) hg hskip, ?_,
      variableStorageClass_spec VD.getStorageClass⟩
    rw [field?_variable]
    simp [variableRecordAfter, htu, lookupKey_upsert_ne]

/-- C10, witness: `int add(int a, int b)` is recorded as normal and
`static int counter;` as static. -/
theorem C10_storage_class_witness :
    Reachable exampleGlobals State.init ∧ AcceptedFunction exampleGlobals addDecl ∧
    counterDecl.hasGlobalStorage = true ∧
    LocalityFilter exampleGlobals counterDecl.getLocation ∧
    counterDecl.isTranslationUnit = true ∧
    (∃ s', VisitFunctionDecl exampleGlobals addDecl State.init = some s' ∧
      field? s'.functions "add" "class" = some (.str "normal")) ∧
    (∃ s', VisitVarDecl exampleGlobals counterDecl State.init = some s' ∧
      field? s'.variables_ "counter" "class" = some (.str "static")) := by
  obtain ⟨⟨s1, c1, h1, h2, -, h3, h4, h5⟩, ⟨s2, c2, k1, k2, -, k3, -, -⟩⟩ :=
    C10_storage_class exampleGlobals State.init (reachable_init _) addDecl
      ⟨rfl, Or.inr rfl⟩ counterDecl rfl localityFilter_inModule rfl
  refine ⟨reachable_init _, ⟨rfl, Or.inr rfl⟩, rfl, localityFilter_inModule, rfl,
    ⟨s1, h1, ?_⟩, ⟨s2, k1, ?_⟩⟩
  · have e : c1 = "normal" := h5.2 ⟨by decide, by decide⟩
    rw [e] at h2
    exact h2
  · have e : c2 = "static" := k3.2 rfl
    rw [e] at k2
    exact k2

/-! ### Where the calls of a function come from -/

theorem callOrigin_snoc {g : Globals} {vs : List Visit} {f : String} {e : Node}
    (h : CallOrigin g vs f e) (v : Visit) : CallOrigin g (vs ++ [v]) f e := by
  obtain ⟨pre, FD, mid, CE, post, c, rfl, h1, h2, h3, h4, h5⟩ := h
  exact ⟨pre, FD, mid, CE, post ++ [v], c, by simp, h1, h2, h3, h4, h5⟩

theorem ctxOrigin_snoc {g : Globals} {vs : List Visit} {name : String}
    (h : CtxOrigin g vs name) (v : Visit)
    (hv : ∀ FD', v = .functionDecl FD' → ¬ AcceptedFunction g FD') :
    CtxOrigin g (vs ++ [v]) name := by
  obtain ⟨pre, FD, mid, rfl, h1, h2, h3⟩ := h
  refine ⟨pre, FD, mid ++ [v], by simp, h1, h2, ?_⟩
  intro FD' hmem
  rcases List.mem_append.1 hmem with hm | hm
  · exact h3 FD' hm
  · exact hv FD' (List.mem_singleton.1 hm).symm

theorem ctxOrigin_call {g : Globals} {vs : List Visit} {name : String}
    (h : CtxOrigin g vs name) (CE : CallExpr) (c : String)
    (hc : CE.getDirectCallee = some c) :
    CallOrigin g (vs ++ [.callExpr CE]) name (.str c) := by
  obtain ⟨pre, FD, mid, rfl, h1, h2, h3⟩ := h
  exact ⟨pre, FD, mid, CE, [], c, by simp, h1, h2, h3, hc, rfl⟩

/-- What the visits `vs` say about a state: where its context and the entries of its
calls sequences come from. -/
theorem trace_inv (g : Globals) (vs : List Visit) :
    ∀ s, traverse g vs State.init = some s →
      (s.current_function_name ≠ "" → CtxOrigin g vs s.current_function_name) ∧
      ∀ f calls, field? s.functions f "calls" = some calls →
        (calls.elems ≠ [] → g.analyze_function_calls = true) ∧
        ∀ e ∈ calls.elems, CallOrigin g vs f e := by
  induction vs using List.reverseRecOn with
  | nil =>
    intro s h
    cases h
    exact ⟨fun h => absurd rfl h, fun f calls h => by cases h⟩
  | append_singleton vs v ih =>
    intro s h
    rw [traverse_append] at h
    cases h0 : traverse g vs State.init with
    | none => rw [h0] at h; cases h
    | some s0 =>
      rw [h0] at h
      have hv : visit g s0 v = some s := by
        simp only [Option.some_bind, traverse] at h
        cases hvis : visit g s0 v with
        | none => rw [hvis] at h; cases h
        | some s1 => rw [hvis] at h; simpa using h
      obtain ⟨ihc, iho⟩ := ih s0 h0
      have hinv : Inv s0 := reachable_inv ⟨vs, h0⟩
      -- a visit that leaves the functions table and the context alone
      have same : ∀ (hnf : ∀ FD', v = .functionDecl FD' → ¬ AcceptedFunction g FD'),
          s.functions = s0.functions →
          s.current_function_name = s0.current_function_name →
          (s.current_function_name ≠ "" → CtxOrigin g (vs ++ [v]) s.current_function_name) ∧
          ∀ f calls, field? s.functions f "calls" = some calls →
            (calls.elems ≠ [] → g.analyze_function_calls = true) ∧
            ∀ e ∈ calls.elems, CallOrigin g (vs ++ [v]) f e := by
        intro hnf hfun hcur
        rw [hfun, hcur]
        refine ⟨fun hne => ctxOrigin_snoc (ihc hne) v hnf, fun f calls hfc => ?_⟩
        exact ⟨(iho f calls hfc).1, fun e he => callOrigin_snoc ((iho f calls hfc).2 e he) v⟩
      cases v with
      | functionDecl FD =>
        by_cases hacc : AcceptedFunction g FD
        · have e1 := VisitFunctionDecl_accepted g FD s0 hinv hacc
          rw [show visit g s0 (.functionDecl FD) = VisitFunctionDecl g FD s0 from rfl, e1] at hv
          cases hv
          refine ⟨fun _ => ⟨vs, FD, [], by simp, rfl, hacc, by simp⟩, ?_⟩
          intro f calls hfc
          by_cases hf : FD.getNameAsString = f
          · subst hf
            rw [field?_upsert_self] at hfc
            have : calls = .null := by
              simp [functionRecord, Node.find?] at hfc
              exact hfc.symm
            subst this
            exact ⟨fun h => absurd rfl h, fun e he => by cases he⟩
          · rw [field?_upsert_ne hf, field?_entries] at hfc
            exact ⟨(iho f calls hfc).1, fun e he => callOrigin_snoc ((iho f calls hfc).2 e he) _⟩
        · have e1 := VisitFunctionDecl_rejected g FD s0 hacc
          rw [show visit g s0 (.functionDecl FD) = VisitFunctionDecl g FD s0 from rfl, e1] at hv
          cases hv
          exact same (fun FD' h' => by cases h'; exact hacc) rfl rfl
      | callExpr CE =>
        have hv' : VisitCallExpr g CE s0 = some s := hv
        by_cases hrec : g.analyze_function_calls = true ∧ s0.current_function_name ≠ "" ∧
            ∃ c, CE.getDirectCallee = some c
        · obtain ⟨hen, hcur, c, hc⟩ := hrec
          obtain ⟨X, old, hX, -, hold, -, heq⟩ :=
            VisitCallExpr_append g CE s0 c hinv hen hcur hc
          rw [heq] at hv'
          cases hv'
          refine ⟨fun hne => ctxOrigin_snoc (ihc hne) _ (fun FD' h' => by cases h'), ?_⟩
          intro f calls hfc
          by_cases hf : s0.current_function_name = f
          · subst hf
            rw [field?_upsert_self] at hfc
            have : calls = .seq (old.elems ++ [.str c]) := by
              simp [Node.find?] at hfc
              exact hfc.symm
            subst this
            refine ⟨fun _ => hen, fun e he => ?_⟩
            have hold' : field? s0.functions s0.current_function_name "calls" = some old := by
              simp [field?_eq, hX, Node.find?, hold]
            rcases List.mem_append.1 he with h1 | h1
            · exact callOrigin_snoc ((iho _ old hold').2 e h1) _
            · rw [List.mem_singleton.1 h1]
              exact ctxOrigin_call (ihc hcur) CE c hc
          · rw [field?_upsert_ne hf, field?_entries] at hfc
            exact ⟨(iho f calls hfc).1, fun e he => callOrigin_snoc ((iho f calls hfc).2 e he) _⟩
        · rw [VisitCallExpr_skip g CE s0 hrec] at hv'
          cases hv'
          exact same (fun FD' h' => by cases h') rfl rfl
      | varDecl VD =>
        have hv' : VisitVarDecl g VD s0 = some s := hv
        by_cases hacc : VD.hasGlobalStorage = true ∧ skipVarDecl g VD = false
        · rw [VisitVarDecl_accepted g VD s0 hinv hacc.1 hacc.2] at hv'
          cases hv'
          exact same (fun FD' h' => by cases h') rfl rfl
        · rw [VisitVarDecl_rejected g VD s0 hacc] at hv'
          cases hv'
          exact same (fun FD' h' => by cases h') rfl rfl
      | typedefDecl TD =>
        have hv' : VisitTypedefDecl g TD s0 = some s := hv
        cases hskip : skipTypedefDecl g TD
        · rw [VisitTypedefDecl_accepted g TD s0 hinv hskip] at hv'
          cases hv'
          exact same (fun FD' h' => by cases h') rfl rfl
        · rw [VisitTypedefDecl_rejected g TD s0 hskip] at hv'
          cases hv'
          exact same (fun FD' h' => by cases h') rfl rfl

/-- C2 (as amended): every traversal, from the state at program start, ends in a state
where the calls sequence of a function record `f` is non-empty only if call analysis is
enabled, and every entry of it is the callee name of a call expression with resolved
callee that was visited after an accepted declaration of `f` and before the next
accepted function declaration, that is, while `f` was the current-function context.
(The traversal of a tree `root` is the case `vs = root.visits`.) -/
theorem C2_calls_origin (g : Globals) (vs : List Visit) :
    ∃ s, traverse g vs State.init = some s ∧
      ∀ f calls, field? s.functions f "calls" = some calls →
        (calls.elems ≠ [] → g.analyze_function_calls = true) ∧
        ∀ e ∈ calls.elems, ∃ pre FD mid CE post c,
          vs = pre ++ Visit.functionDecl FD :: (mid ++ Visit.callExpr CE :: post) ∧
          FD.getNameAsString = f ∧ AcceptedFunction g FD ∧
          (∀ FD', Visit.functionDecl FD' ∈ mid → ¬ AcceptedFunction g FD') ∧
          CE.getDirectCallee = some c ∧ e = .str c := by
  obtain ⟨s, hs, -⟩ := traverse_inv g vs State.init inv_init
  exact ⟨s, hs, (trace_inv g vs s hs).2⟩

/-- C2, counterexample to the claim as stated: in the translation unit `staleTree` the
only call expression, `g()`, lies in the body of `h`, a function of an included header
that the locality filter rejects; no call lies in the window of `a`, and the traversal
records `g` in the calls of `a`. -/
theorem C2_counterexample :
    (TraverseDecl exampleGlobals staleTree State.init).bind
        (fun s => field? s.functions "a" "calls") = some (.seq [.str "g"]) ∧
    staleTree.callsInside "a" = [] ∧ staleTree.callsInside "h" = ["g"] ∧
    AcceptedFunction exampleGlobals aDecl ∧ skipFunctionDecl exampleGlobals hDecl = true :=
  ⟨rfl, rfl, rfl, ⟨rfl, Or.inr rfl⟩, rfl⟩

/-- C3, the code at the failing input: with documentation analysis on, the declaration
`typedef struct s S;` with a comment followed by the same declaration without one leaves
under `S` a record whose members hold the field of `struct s` twice and whose docs are
those of the earlier declaration, whereas the later declaration alone yields one member
and no docs. -/
theorem C3_revisited_typedef_merges :
    (traverse exampleGlobalsDocs [.typedefDecl typedefFirst, .typedefDecl typedefAgain]
        State.init).bind (fun s => s.types.find? "S") =
      some (.map [("type", .str "struct"), ("invariants", .null),
        ("members", .seq [.map [("name", .str "a"), ("type", .str "int")],
                          .map [("name", .str "a"), ("type", .str "int")]]),
        ("docs", .map [("raw", .str "first")])]) ∧
    (traverse exampleGlobalsDocs [.typedefDecl typedefAgain] State.init).bind
        (fun s => s.types.find? "S") =
      some (.map [("type", .str "struct"), ("invariants", .null),
        ("members", .seq [.map [("name", .str "a"), ("type", .str "int")]])]) :=
  ⟨rfl, rfl⟩

/-! ### Type records of fresh names -/

theorem find?_eq_lookupKey (n : Node) (k : String) : n.find? k = lookupKey k n.entries := by
  cases n <;> rfl

theorem VisitTypedefDecl_fresh (g : Globals) (TD : TypedefDecl) (s : State) (h : Inv s)
    (hf : LocalityFilter g TD.getLocation)
    (hfresh : s.types.find? TD.getNameAsString = none) :
    VisitTypedefDecl g TD s =
      some { s with
        types := .map (upsert TD.getNameAsString (.map (typeRecordAfter g TD []))
          s.types.entries) } := by
  have hskip : skipTypedefDecl g TD = false := (skip_iff g TD.getLocation).2 hf
  rw [find?_eq_lookupKey] at hfresh
  rw [VisitTypedefDecl_accepted g TD s h hskip, hfresh]
  rfl

theorem lookupKey_docsAfter_ne (g : Globals) (c : Option String) (X : List (String × Node))
    {k : String} (hk : "docs" ≠ k) : lookupKey k (docsAfter g c X) = lookupKey k X := by
  unfold docsAfter
  cases g.analyze_docs
  · simp
  · cases c with
    | none => simp
    | some t => simp [lookupKey_upsert_ne hk]

theorem lookupKey_valuesAfter_ne (es : List EnumConstantDecl) (X : List (String × Node))
    {k : String} (hk : "values" ≠ k) : lookupKey k (valuesAfter es X) = lookupKey k X := by
  cases es with
  | nil => rfl
  | cons e rest => simp [valuesAfter, lookupKey_upsert_ne hk]

theorem lookupKey_membersAfter_ne (fs : List FieldDecl) (X : List (String × Node))
    {k : String} (hk : "members" ≠ k) : lookupKey k (membersAfter fs X) = lookupKey k X := by
  cases fs with
  | nil => rfl
  | cons f rest => simp [membersAfter, lookupKey_upsert_ne hk]

theorem upsert_of_not_mem {k : String} (v : Node) {kvs : List (String × Node)}
    (h : k ∉ kvs.map Prod.fst) : upsert k v kvs = kvs ++ [(k, v)] := by
  induction kvs with
  | nil => rfl
  | cons p rest ih =>
    obtain ⟨k', w⟩ := p
    simp only [List.map_cons, List.mem_cons, not_or] at h
    simp [Ne.symm h.1, ih h.2]

theorem mem_keys_valuesFold (es : List EnumConstantDecl) :
    ∀ (V : List (String × Node)) (k : String),
      k ∈ (valuesFold es V).map Prod.fst ↔
        k ∈ V.map Prod.fst ∨ ∃ e ∈ es, e.getNameAsString = k := by
  induction es with
  | nil => intro V k; simp [valuesFold]
  | cons e rest ih =>
    intro V k
    have := ih (upsert e.getNameAsString (.int e.getInitVal.getSExtValue) V) k
    simp only [valuesFold, List.foldl_cons] at this ⊢
    rw [this, mem_map_fst_upsert]
    constructor
    · rintro ((h | h) | ⟨e', he', h⟩)
      · exact Or.inr ⟨e, List.mem_cons_self _ _, h.symm⟩
      · exact Or.inl h
      · exact Or.inr ⟨e', List.mem_cons_of_mem _ he', h⟩
    · rintro (h | ⟨e', he', h⟩)
      · exact Or.inl (Or.inr h)
      · rcases List.mem_cons.1 he' with rfl | he'
        · exact Or.inl (Or.inl h.symm)
        · exact Or.inr ⟨e', he', h⟩

theorem nodup_keys_valuesFold (es : List EnumConstantDecl) :
    ∀ V : List (String × Node), (V.map Prod.fst).Nodup →
      ((valuesFold es V).map Prod.fst).Nodup := by
  induction es with
  | nil => intro V h; exact h
  | cons e rest ih =>
    intro V h
    exact ih _ (nodup_upsert _ _ h)

theorem valuesFold_of_nodup (es : List EnumConstantDecl) :
    ∀ V : List (String × Node),
      (es.map fun e => e.getNameAsString).Nodup →
      (∀ e ∈ es, e.getNameAsString ∉ V.map Prod.fst) →
      valuesFold es V = V ++ es.map enumeratorEntry := by
  induction es with
  | nil => intro V _ _; simp [valuesFold]
  | cons e rest ih =>
    intro V hnd hdis
    rw [List.map_cons, List.nodup_cons] at hnd
    have hstep := ih (upsert e.getNameAsString (.int e.getInitVal.getSExtValue) V) hnd.2 (by
      intro e' he' hmem
      rcases (mem_map_fst_upsert _ _ _ _).1 hmem with h | h
      · exact hnd.1 (List.mem_map.2 ⟨e', he', h⟩)
      · exact hdis e' (List.mem_cons_of_mem _ he') h)
    simp only [valuesFold, List.foldl_cons] at hstep ⊢
    rw [hstep, upsert_of_not_mem _ (hdis e (List.mem_cons_self _ _))]
    simp [enumeratorEntry]

theorem getSExtValue_eq_signedValue (v : APSInt) (hw : v.BitWidth ≤ 64) :
    v.getSExtValue = v.signedValue := by
  unfold APSInt.getSExtValue APSInt.signedValue
  simp only [hw, if_true]

theorem getSExtValue_eq_signExtend64 (v : APSInt) (hw : v.BitWidth ≤ 64) :
    v.getSExtValue = toInt64 v.signExtend64 := by
  have hp : 2 ^ v.BitWidth ≤ 2 ^ 64 := Nat.pow_le_pow_right (by decide) hw
  have hpos : 0 < 2 ^ v.BitWidth := Nat.pow_pos (by decide)
  have hu : v.U % 2 ^ v.BitWidth < 2 ^ v.BitWidth := Nat.mod_lt _ hpos
  unfold APSInt.getSExtValue APSInt.signExtend64 toInt64
  simp only [hw, if_true]
  generalize v.U % 2 ^ v.BitWidth = u at hu
  have hcast : ((2 ^ v.BitWidth : Nat) : Int) = (2 : Int) ^ v.BitWidth := by push_cast; rfl
  rw [← hcast]
  generalize 2 ^ v.BitWidth = p at hp hpos hu
  split <;> split <;> omega

theorem toInt64_range (n : Nat) : -2 ^ 63 ≤ toInt64 n ∧ toInt64 n < 2 ^ 63 := by
  unfold toInt64
  simp only []
  have hm : n % 2 ^ 64 < 2 ^ 64 := Nat.mod_lt _ (by decide)
  generalize n % 2 ^ 64 = m at hm
  split <;> constructor <;> omega

theorem getSExtValue_range (v : APSInt) :
    -2 ^ 63 ≤ v.getSExtValue ∧ v.getSExtValue < 2 ^ 63 := by
  by_cases hw : v.BitWidth ≤ 64
  · rw [getSExtValue_eq_signExtend64 v hw]
    exact toInt64_range _
  · unfold APSInt.getSExtValue
    simp only [hw, if_false]
    exact toInt64_range _

theorem lookupKey_valuesFold_range (es : List EnumConstantDecl) :
    ∀ V : List (String × Node),
      (∀ k n, lookupKey k V = some (.int n) → -2 ^ 63 ≤ n ∧ n < 2 ^ 63) →
      ∀ k n, lookupKey k (valuesFold es V) = some (.int n) → -2 ^ 63 ≤ n ∧ n < 2 ^ 63 := by
  induction es with
  | nil => intro V hV; exact hV
  | cons e rest ih =>
    intro V hV
    simp only [valuesFold, List.foldl_cons]
    apply ih
    intro k n hk
    by_cases hke : k = e.getNameAsString
    · subst hke
      rw [lookupKey_upsert_self] at hk
      cases hk
      exact getSExtValue_range _
    · rw [lookupKey_upsert_ne (Ne.symm hke)] at hk
      exact hV k n hk

theorem typeRecordAfter_enum (g : Globals) (TD : TypedefDecl) (ED : EnumDecl)
    (hrec : TD.getUnderlyingType.getAsRecordType = none)
    (henum : TD.getUnderlyingType.getAsEnumType = some ED) :
    typeRecordAfter g TD [] =
      docsAfter g TD.getRawComment
        (valuesAfter ED.enumerators [("type", .str "enum"), ("invariants", .null)]) := by
  simp [typeRecordAfter, kindAfter, hrec, henum]

theorem values_fresh (es : List EnumConstantDecl) :
    ((lookupKey "values"
      (valuesAfter es [("type", .str "enum"), ("invariants", .null)])).getD .null).entries =
      valuesFold es [] := by
  cases es with
  | nil => rfl
  | cons e rest => simp [valuesAfter]

theorem lookupKey_enumeratorEntry (es : List EnumConstantDecl)
    (hnd : (es.map fun e => e.getNameAsString).Nodup) :
    ∀ e ∈ es, lookupKey e.getNameAsString (es.map enumeratorEntry) =
      some (.int e.getInitVal.getSExtValue) := by
  induction es with
  | nil => intro e he; cases he
  | cons e' rest ih =>
    intro e he
    rw [List.map_cons, List.nodup_cons] at hnd
    rcases List.mem_cons.1 he with rfl | he
    · simp [enumeratorEntry]
    · have hne : e'.getNameAsString ≠ e.getNameAsString := fun h =>
        hnd.1 (List.mem_map.2 ⟨e, he, h.symm⟩)
      simp only [List.map_cons, enumeratorEntry, lookupKey_cons, hne, if_false]
      exact ih hnd.2 e he

/-- What an accepted typedef leaves under a name that was not in the table, by the kind
of its underlying type: a struct gets the type "struct" and its fields as members, in
order; a type that is neither a struct record nor an enum keeps its text and gets
neither members nor values. -/
theorem typedef_fresh_kinds (g : Globals) (s : State) (hs : Reachable g s)
    (TD : TypedefDecl) (hf : LocalityFilter g TD.getLocation)
    (hfresh : s.types.find? TD.getNameAsString = none) :
    ∃ s', VisitTypedefDecl g TD s = some s' ∧
      (∀ RD, TD.getUnderlyingType.getAsRecordType = some RD → RD.isStruct = true →
        field? s'.types TD.getNameAsString "type" = some (.str "struct") ∧
        ((field? s'.types TD.getNameAsString "members").getD .null).elems =
          RD.fields.map member) ∧
      ((∀ RD, TD.getUnderlyingType.getAsRecordType = some RD → RD.isStruct = false) →
        TD.getUnderlyingType.getAsEnumType = none →
        field? s'.types TD.getNameAsString "type" =
          some (.str TD.getUnderlyingType.getAsString) ∧
        field? s'.types TD.getNameAsString "members" = none ∧
        field? s'.types TD.getNameAsString "values" = none) := by
  refine ⟨_, VisitTypedefDecl_fresh g TD s (reachable_inv hs) hf hfresh, ?_, ?_⟩
  · intro RD hRD hstruct
    rw [field?_upsert_self, field?_upsert_self]
    simp only [Node.find?, typeRecordAfter, kindAfter, hRD, hstruct, if_true]
    rw [lookupKey_docsAfter_ne _ _ _ (by decide), lookupKey_docsAfter_ne _ _ _ (by decide),
      lookupKey_membersAfter_ne _ _ (by decide)]
    refine ⟨by simp, ?_⟩
    cases RD.fields with
    | nil => simp [membersAfter, Node.elems]
    | cons f rest => simp [membersAfter, Node.elems]
  · intro hns hne
    rw [field?_upsert_self, field?_upsert_self, field?_upsert_self]
    simp only [Node.find?, typeRecordAfter]
    rw [lookupKey_docsAfter_ne _ _ _ (by decide), lookupKey_docsAfter_ne _ _ _ (by decide),
      lookupKey_docsAfter_ne _ _ _ (by decide)]
    have hk : kindAfter TD.getUnderlyingType
        (upsert "invariants" .null (upsert "type" (.str TD.getUnderlyingType.getAsString) []))
        = [("type", .str TD.getUnderlyingType.getAsString), ("invariants", .null)] := by
      unfold kindAfter
      cases hr : TD.getUnderlyingType.getAsRecordType with
      | none => simp [hne]
      | some RD => simp [hns RD hr]
    rw [hk]
    simp

/-- C12, the code at the failing input: the declaration `typedef struct s S;` visited
twice leaves two members under `S` although `struct s` has one field, and
`typedef struct s S;` followed by `typedef int S;` leaves a record of type `int` that
still has the member of the struct. -/
theorem C12_revisited_struct_members :
    (traverse exampleGlobals [.typedefDecl typedefAgain, .typedefDecl typedefAgain]
        State.init).bind (fun s => field? s.types "S" "members") =
      some (.seq [.map [("name", .str "a"), ("type", .str "int")],
                  .map [("name", .str "a"), ("type", .str "int")]]) ∧
    (structS.getAsRecordType.map fun RD => RD.fields.map member) =
      some [.map [("name", .str "a"), ("type", .str "int")]] ∧
    (traverse exampleGlobals [.typedefDecl typedefAgain, .typedefDecl typedefPlain]
        State.init).bind (fun s => s.types.find? "S") =
      some (.map [("type", .str "int"), ("invariants", .null),
        ("members", .seq [.map [("name", .str "a"), ("type", .str "int")]])]) :=
  ⟨rfl, rfl, rfl⟩

/-! ### Documentation -/

theorem traverse_preserves (g : Globals) (P : State → Prop)
    (hstep : ∀ v s s', Inv s → P s → visit g s v = some s' → P s') (vs : List Visit) :
    ∀ s s', Inv s → P s → traverse g vs s = some s' → P s' := by
  induction vs with
  | nil => intro s s' _ hp h; cases h; exact hp
  | cons v rest ih =>
    intro s s' hinv hp h
    obtain ⟨s1, h1, hi1⟩ := visit_inv g v s hinv
    simp only [traverse, h1, Option.some_bind] at h
    exact ih s1 s' hi1 (hstep v s s1 hinv hp h1) h

theorem variableRecordOK_after (VD : VarDecl) {X : List (String × Node)}
    (h : VariableRecordOK X) : VariableRecordOK (variableRecordAfter VD X) := by
  intro k hk
  unfold variableRecordAfter at hk
  rcases (mem_map_fst_upsert _ _ _ _).1 hk with h1 | h1
  · exact Or.inr h1
  · cases htu : VD.isTranslationUnit
    · rw [htu] at h1
      exact h k h1
    · rw [htu] at h1
      rcases (mem_map_fst_upsert _ _ _ _).1 h1 with h2 | h2
      · exact Or.inl h2
      · exact h k h2

theorem visit_variablesOK (g : Globals) (v : Visit) (s s' : State) (hinv : Inv s)
    (hp : VariablesOK s) (hv : visit g s v = some s') : VariablesOK s' := by
  cases v with
  | functionDecl FD =>
    have hv' : VisitFunctionDecl g FD s = some s' := hv
    by_cases hacc : AcceptedFunction g FD
    · rw [VisitFunctionDecl_accepted g FD s hinv hacc] at hv'
      cases hv'
      exact hp
    · rw [VisitFunctionDecl_rejected g FD s hacc] at hv'
      cases hv'
      exact hp
  | callExpr CE =>
    have hv' : VisitCallExpr g CE s = some s' := hv
    by_cases hrec : g.analyze_function_calls = true ∧ s.current_function_name ≠ "" ∧
        ∃ c, CE.getDirectCallee = some c
    · obtain ⟨hen, hcur, c, hc⟩ := hrec
      obtain ⟨X, old, -, -, -, -, heq⟩ := VisitCallExpr_append g CE s c hinv hen hcur hc
      rw [heq] at hv'
      cases hv'
      exact hp
    · rw [VisitCallExpr_skip g CE s hrec] at hv'
      cases hv'
      exact hp
  | varDecl VD =>
    have hv' : VisitVarDecl g VD s = some s' := hv
    by_cases hacc : VD.hasGlobalStorage = true ∧ skipVarDecl g VD = false
    · rw [VisitVarDecl_accepted g VD s hinv hacc.1 hacc.2] at hv'
      cases hv'
      intro k r hl
      simp only [entries_map] at hl
      by_cases hk : VD.getNameAsString = k
      · subst hk
        rw [lookupKey_upsert_self] at hl
        cases hl
        refine ⟨_, rfl, variableRecordOK_after VD ?_⟩
        cases hold : lookupKey VD.getNameAsString s.variables_.entries with
        | none => intro k hk; simp at hk
        | some r0 =>
          obtain ⟨X0, rfl, hX0⟩ := hp _ _ hold
          exact hX0
      · rw [lookupKey_upsert_ne hk] at hl
        exact hp k r hl
    · rw [VisitVarDecl_rejected g VD s hacc] at hv'
      cases hv'
      exact hp
  | typedefDecl TD =>
    have hv' : VisitTypedefDecl g TD s = some s' := hv
    cases hskip : skipTypedefDecl g TD
    · rw [VisitTypedefDecl_accepted g TD s hinv hskip] at hv'
      cases hv'
      exact hp
    · rw [VisitTypedefDecl_rejected g TD s hskip] at hv'
      cases hv'
      exact hp

theorem reachable_variablesOK {g : Globals} {s : State} (h : Reachable g s) :
    VariablesOK s := by
  obtain ⟨vs, hvs⟩ := h
  exact traverse_preserves g VariablesOK (visit_variablesOK g) vs State.init s inv_init
    (by intro k r hl; cases hl) hvs

theorem lookupKey_kindAfter_docs (U : QualType) (X : List (String × Node)) :
    lookupKey "docs" (kindAfter U X) = lookupKey "docs" X := by
  unfold kindAfter
  cases U.getAsRecordType with
  | some RD =>
    cases hs : RD.isStruct
    · simp [hs]
    · simp only [hs, if_true]
      rw [lookupKey_membersAfter_ne _ _ (by decide), lookupKey_upsert_ne (by decide)]
  | none =>
    cases U.getAsEnumType with
    | some ED =>
      simp only []
      rw [lookupKey_valuesAfter_ne _ _ (by decide), lookupKey_upsert_ne (by decide)]
    | none => rfl

theorem docs_typeRecordAfter_fresh (g : Globals) (TD : TypedefDecl) :
    lookupKey "docs" (typeRecordAfter g TD []) =
      if g.analyze_docs then TD.getRawComment.map fun t => .map [("raw", .str t)]
      else none := by
  have hk : lookupKey "docs" (kindAfter TD.getUnderlyingType
      (upsert "invariants" .null
        (upsert "type" (.str TD.getUnderlyingType.getAsString) []))) = none := by
    rw [lookupKey_kindAfter_docs]
    rfl
  unfold typeRecordAfter docsAfter
  cases g.analyze_docs
  · simpa using hk
  · cases TD.getRawComment with
    | none => simpa using hk
    | some t =>
      have hk' : lookupKey "docs" (kindAfter TD.getUnderlyingType
          [("type", .str TD.getUnderlyingType.getAsString), ("invariants", .null)]) = none :=
        hk
      simp [hk']

theorem docs_functionRecord (g : Globals) (FD : FunctionDecl) :
    (functionRecord g FD).find? "docs" = some (docsNode g FD.getRawComment) := by
  simp [functionRecord, Node.find?]

/-- C13: an accepted function declaration, visited in a reachable state, leaves a docs
field that holds a raw entry if and only if documentation analysis is enabled and the
declaration has a raw comment, the entry being the text of that comment; otherwise the
docs field is the empty (null) node.  The same holds for an accepted typedef visited
when its name is not in the types table, whose record has no docs field otherwise.  No
record of the variables table of a reachable state has a docs field. -/
theorem C13_documentation (g : Globals) (s : State) (hs : Reachable g s)
    (FD : FunctionDecl) (hacc : AcceptedFunction g FD) (TD : TypedefDecl)
    (hf : LocalityFilter g TD.getLocation)
    (hfresh : s.types.find? TD.getNameAsString = none) :
    (∃ s', VisitFunctionDecl g FD s = some s' ∧
      (∀ c, (field? s'.functions FD.getNameAsString "docs").bind
          (fun d : Node => d.find? "raw") = some (.str c) ↔
        g.analyze_docs = true ∧ FD.getRawComment = some c) ∧
      ((field? s'.functions FD.getNameAsString "docs").bind
          (fun d : Node => d.find? "raw") = none ↔
        ¬ (g.analyze_docs = true ∧ ∃ c, FD.getRawComment = some c)) ∧
      (¬ (g.analyze_docs = true ∧ ∃ c, FD.getRawComment = some c) →
        field? s'.functions FD.getNameAsString "docs" = some .null)) ∧
    (∃ s', VisitTypedefDecl g TD s = some s' ∧
      (∀ c, (field? s'.types TD.getNameAsString "docs").bind
          (fun d : Node => d.find? "raw") = some (.str c) ↔
        g.analyze_docs = true ∧ TD.getRawComment = some c) ∧
      ((field? s'.types TD.getNameAsString "docs").bind
          (fun d : Node => d.find? "raw") = none ↔
        ¬ (g.analyze_docs = true ∧ ∃ c, TD.getRawComment = some c)) ∧
      (¬ (g.analyze_docs = true ∧ ∃ c, TD.getRawComment = some c) →
        field? s'.types TD.getNameAsString "docs" = none)) ∧
    (∀ name r, s.variables_.find? name = some r → r.find? "docs" = none) := by
  refine ⟨⟨_, VisitFunctionDecl_accepted g FD s (reachable_inv hs) hacc, ?_⟩,
    ⟨_, VisitTypedefDecl_fresh g TD s (reachable_inv hs) hf hfresh, ?_⟩, ?_⟩
  · simp only [field?_upsert_self, docs_functionRecord, docsNode]
    cases g.analyze_docs <;> cases FD.getRawComment <;> simp [Node.find?]
  · simp only [field?_upsert_self, Node.find?, docs_typeRecordAfter_fresh]
    cases g.analyze_docs <;> cases TD.getRawComment <;> simp [Node.find?]
  · intro name r hr
    rw [find?_eq_lookupKey] at hr
    obtain ⟨X, rfl, hX⟩ := reachable_variablesOK hs name r hr
    simp only [Node.find?]
    rw [lookupKey_eq_none_iff]
    intro hmem
    rcases hX "docs" hmem with h | h <;> exact absurd h (by decide)

/-- C13, witness: with documentation analysis on, the commented declarations
`extern int add(int x, int y);` (header mode) and `typedef struct s S;` get their
comment as raw docs. -/
theorem C13_documentation_witness :
    Reachable exampleGlobalsHeader State.init ∧
    AcceptedFunction exampleGlobalsHeader addEarlier ∧
    LocalityFilter exampleGlobalsHeader typedefFirst.getLocation ∧
    State.init.types.find? typedefFirst.getNameAsString = none ∧
    (∃ s', VisitFunctionDecl exampleGlobalsHeader addEarlier State.init = some s' ∧
      (field? s'.functions "add" "docs").bind (fun d : Node => d.find? "raw") =
        some (.str "adds two numbers")) ∧
    (∃ s', VisitTypedefDecl exampleGlobalsHeader typedefFirst State.init = some s' ∧
      (field? s'.types "S" "docs").bind (fun d : Node => d.find? "raw") =
        some (.str "first")) := by
  have hl : LocalityFilter exampleGlobalsHeader typedefFirst.getLocation := by decide
  obtain ⟨⟨s1, h1, h2, -⟩, ⟨s2, k1, k2, -⟩, -⟩ :=
    C13_documentation exampleGlobalsHeader State.init (reachable_init _) addEarlier
      ⟨rfl, Or.inl rfl⟩ typedefFirst hl rfl
  exact ⟨reachable_init _, ⟨rfl, Or.inl rfl⟩, hl, rfl,
    ⟨s1, h1, (h2 "adds two numbers").2 ⟨rfl, rfl⟩⟩, ⟨s2, k1, (k2 "first").2 ⟨rfl, rfl⟩⟩⟩

/-! ### The keys of the functions table -/

theorem VisitCallExpr_keys (g : Globals) (CE : CallExpr) (s : State) (h : Inv s) :
    ∃ s', VisitCallExpr g CE s = some s' ∧ s'.functions.keys = s.functions.keys := by
  by_cases hrec : g.analyze_function_calls = true ∧ s.current_function_name ≠ "" ∧
      ∃ c, CE.getDirectCallee = some c
  · obtain ⟨hen, hcur, c, hc⟩ := hrec
    obtain ⟨X, old, -, -, -, -, heq⟩ := VisitCallExpr_append g CE s c h hen hcur hc
    refine ⟨_, heq, ?_⟩
    rw [keys_eq, keys_eq, entries_map, map_fst_upsert, if_pos (h.context hcur)]
  · exact ⟨s, VisitCallExpr_skip g CE s hrec, rfl⟩

theorem visit_keys_iff (g : Globals) (v : Visit) (s s' : State) (h : Inv s)
    (hv : visit g s v = some s') (k : String) :
    k ∈ s'.functions.keys ↔
      k ∈ s.functions.keys ∨
        ∃ FD, v = .functionDecl FD ∧ AcceptedFunction g FD ∧ FD.getNameAsString = k := by
  cases v with
  | functionDecl FD =>
    have hv' : VisitFunctionDecl g FD s = some s' := hv
    by_cases hacc : AcceptedFunction g FD
    · rw [VisitFunctionDecl_accepted g FD s h hacc] at hv'
      cases hv'
      rw [keys_eq, keys_eq, entries_map, mem_map_fst_upsert]
      constructor
      · rintro (h1 | h1)
        · exact Or.inr ⟨FD, rfl, hacc, h1.symm⟩
        · exact Or.inl h1
      · rintro (h1 | ⟨FD', h1, -, h3⟩)
        · exact Or.inr h1
        · cases h1
          exact Or.inl h3.symm
    · rw [VisitFunctionDecl_rejected g FD s hacc] at hv'
      cases hv'
      constructor
      · exact Or.inl
      · rintro (h1 | ⟨FD', h1, h2, -⟩)
        · exact h1
        · cases h1
          exact absurd h2 hacc
  | callExpr CE =>
    obtain ⟨s1, h1, h2⟩ := VisitCallExpr_keys g CE s h
    have hv' : VisitCallExpr g CE s = some s' := hv
    rw [h1] at hv'
    cases hv'
    rw [h2]
    constructor
    · exact Or.inl
    · rintro (h3 | ⟨FD', h3, -⟩)
      · exact h3
      · cases h3
  | varDecl VD =>
    have hv' : VisitVarDecl g VD s = some s' := hv
    have hsame : s'.functions = s.functions := by
      by_cases hacc : VD.hasGlobalStorage = true ∧ skipVarDecl g VD = false
      · rw [VisitVarDecl_accepted g VD s h hacc.1 hacc.2] at hv'
        cases hv'
        rfl
      · rw [VisitVarDecl_rejected g VD s hacc] at hv'
        cases hv'
        rfl
    rw [hsame]
    constructor
    · exact Or.inl
    · rintro (h3 | ⟨FD', h3, -⟩)
      · exact h3
      · cases h3
  | typedefDecl TD =>
    have hv' : VisitTypedefDecl g TD s = some s' := hv
    have hsame : s'.functions = s.functions := by
      cases hskip : skipTypedefDecl g TD
      · rw [VisitTypedefDecl_accepted g TD s h hskip] at hv'
        cases hv'
        rfl
      · rw [VisitTypedefDecl_rejected g TD s hskip] at hv'
        cases hv'
        rfl
    rw [hsame]
    constructor
    · exact Or.inl
    · rintro (h3 | ⟨FD', h3, -⟩)
      · exact h3
      · cases h3

theorem traverse_keys_iff (g : Globals) (vs : List Visit) :
    ∀ (s s' : State), Inv s → traverse g vs s = some s' → ∀ k,
      (k ∈ s'.functions.keys ↔
        k ∈ s.functions.keys ∨
          ∃ FD, Visit.functionDecl FD ∈ vs ∧ AcceptedFunction g FD ∧
            FD.getNameAsString = k) := by
  induction vs with
  | nil =>
    intro s s' _ h k
    cases h
    simp
  | cons v rest ih =>
    intro s s' hinv h k
    obtain ⟨s1, h1, hi1⟩ := visit_inv g v s hinv
    simp only [traverse, h1, Option.some_bind] at h
    rw [ih s1 s' hi1 h k, visit_keys_iff g v s s1 hinv h1 k]
    constructor
    · rintro ((h2 | ⟨FD, rfl, h3, h4⟩) | ⟨FD, h2, h3, h4⟩)
      · exact Or.inl h2
      · exact Or.inr ⟨FD, List.mem_cons_self _ _, h3, h4⟩
      · exact Or.inr ⟨FD, List.mem_cons_of_mem _ h2, h3, h4⟩
    · rintro (h2 | ⟨FD, h2, h3, h4⟩)
      · exact Or.inl (Or.inl h2)
      · rcases List.mem_cons.1 h2 with h5 | h5
        · exact Or.inl (Or.inr ⟨FD, h5.symm, h3, h4⟩)
        · exact Or.inr ⟨FD, h5, h3, h4⟩

/-- C18: every sequence of visits, from the state at program start, ends in a state in
which a non-empty current-function context names a record of the functions table with
exactly the fields class, args, calls, docs and returns; in that state a call
expression visit returns and leaves the keys of the functions table as they are; and
the keys of the functions table are the names of the accepted function declarations
among the visits. -/
theorem C18_context_has_record (g : Globals) (vs : List Visit) :
    ∃ s, traverse g vs State.init = some s ∧
      (s.current_function_name ≠ "" →
        ∃ X, s.functions.find? s.current_function_name = some (.map X) ∧
          X.map Prod.fst = ["class", "args", "calls", "docs", "returns"]) ∧
      (∀ CE, ∃ s', VisitCallExpr g CE s = some s' ∧
        s'.functions.keys = s.functions.keys) ∧
      (∀ k, k ∈ s.functions.keys ↔
        ∃ FD, Visit.functionDecl FD ∈ vs ∧ AcceptedFunction g FD ∧
          FD.getNameAsString = k) := by
  obtain ⟨s, hs, hinv⟩ := traverse_inv g vs State.init inv_init
  refine ⟨s, hs, ?_, fun CE => VisitCallExpr_keys g CE s hinv, ?_⟩
  · intro hcur
    obtain ⟨r, hr⟩ := (lookupKey_isSome_iff _ _).2 (hinv.context hcur)
    obtain ⟨X, rfl, hok⟩ := hinv.functions.2.2 _ _ hr
    exact ⟨X, by rw [find?_eq_lookupKey]; exact hr, hok.1⟩
  · intro k
    have := traverse_keys_iff g vs State.init s inv_init hs k
    simpa [State.init, Node.keys] using this

/-- C19: a function declaration that fails the locality filter, or has no body outside
header mode, a variable declaration without global storage or failing the filter, and a
typedef failing the filter are each visited without effect: the visit returns the state
it was given, tables and current-function context included. -/
theorem C19_rejected_no_effect (g : Globals) (s : State) (FD : FunctionDecl)
    (VD : VarDecl) (TD : TypedefDecl) :
    ((¬ LocalityFilter g FD.getLocation ∨
        (g.process_as_header_file = false ∧ FD.hasBody = false)) →
      VisitFunctionDecl g FD s = some s) ∧
    ((VD.hasGlobalStorage = false ∨ ¬ LocalityFilter g VD.getLocation) →
      VisitVarDecl g VD s = some s) ∧
    (¬ LocalityFilter g TD.getLocation → VisitTypedefDecl g TD s = some s) := by
  refine ⟨?_, ?_, ?_⟩
  · intro h
    apply VisitFunctionDecl_rejected
    rintro ⟨h1, h2⟩
    rcases h with h | ⟨h3, h4⟩
    · exact h ((skip_iff g FD.getLocation).1 h1)
    · rw [h3, h4] at h2
      rcases h2 with h2 | h2 <;> cases h2
  · intro h
    apply VisitVarDecl_rejected
    rintro ⟨h1, h2⟩
    rcases h with h | h
    · rw [h] at h1; cases h1
    · exact h ((skip_iff g VD.getLocation).1 h2)
  · intro h
    apply VisitTypedefDecl_rejected
    rw [← Bool.not_eq_false]
    exact fun h' => h ((skip_iff g TD.getLocation).1 h')

/-! ## Unescaping one token -/

theorem backslash_ne_quote : backslash ≠ quote := by decide

theorem isPrefixOf_escapedQuote (c : Char) (tl : List Char) :
    escapedQuote.isPrefixOf (c :: tl) = true ↔ c = backslash ∧ tl.head? = some quote := by
  cases tl with
  | nil =>
    simp [escapedQuote, List.isPrefixOf]
  | cons d rest =>
    simp only [escapedQuote, List.isPrefixOf, Bool.and_true, Bool.and_eq_true, beq_iff_eq,
      List.head?_cons, Option.some.injEq]
    constructor
    · rintro ⟨h1, h2⟩
      exact ⟨h1.symm, h2.symm⟩
    · rintro ⟨h1, h2⟩
      exact ⟨h1.symm, h2.symm⟩

theorem findAt_escapedQuote_cons (c : Char) (tl : List Char) :
    findAt escapedQuote (c :: tl) =
      if c = backslash ∧ tl.head? = some quote then some 0
      else (findAt escapedQuote tl).map (· + 1) := by
  have h : findAt escapedQuote (c :: tl) =
      if escapedQuote.isPrefixOf (c :: tl) then some 0
      else (findAt escapedQuote tl).map (· + 1) := rfl
  rw [h]
  by_cases hp : c = backslash ∧ tl.head? = some quote
  · rw [if_pos hp, if_pos ((isPrefixOf_escapedQuote c tl).2 hp)]
  · rw [if_neg hp, if_neg (fun h' => hp ((isPrefixOf_escapedQuote c tl).1 h'))]

theorem findAt_escapedQuote_nil : findAt escapedQuote [] = none := rfl

theorem occurrences_quote_cons (b : List Char) : occurrences (quote :: b) = occurrences b := by
  cases b with
  | nil => rfl
  | cons e r => simp [occurrences, Ne.symm backslash_ne_quote]

/-- A string without the sequence is left as it is by the single pass. -/
theorem findAt_none (l : List Char) (h : findAt escapedQuote l = none) :
    replaceAllEscaped l = l ∧ occurrences l = 0 := by
  induction l with
  | nil => exact ⟨rfl, rfl⟩
  | cons c tl ih =>
    rw [findAt_escapedQuote_cons] at h
    split at h
    · cases h
    · rename_i hne
      have htl : findAt escapedQuote tl = none := by
        cases hf : findAt escapedQuote tl with
        | none => rfl
        | some i => rw [hf] at h; cases h
      obtain ⟨h1, h2⟩ := ih htl
      cases tl with
      | nil => exact ⟨rfl, rfl⟩
      | cons d rest =>
        have hcd : ¬ (c = backslash ∧ d = quote) := by simpa using hne
        simp only [replaceAllEscaped, occurrences, hcd, if_false, h1, h2, and_self]

/-- The first occurrence of the sequence splits the string, the single pass and the
count of occurrences. -/
theorem findAt_some (l : List Char) :
    ∀ i, findAt escapedQuote l = some i →
      ∃ a b, l = a ++ backslash :: quote :: b ∧ a.length = i ∧
        replaceAllEscaped l = a ++ quote :: replaceAllEscaped b ∧
        occurrences l = occurrences b + 1 := by
  induction l with
  | nil => intro i h; cases h
  | cons c tl ih =>
    intro i h
    rw [findAt_escapedQuote_cons] at h
    split at h
    · rename_i hm
      cases h
      obtain ⟨hc, hd⟩ := hm
      cases tl with
      | nil => cases hd
      | cons d b =>
        simp only [List.head?_cons, Option.some.injEq] at hd
        subst hc hd
        refine ⟨[], b, rfl, rfl, ?_, ?_⟩
        · simp [replaceAllEscaped]
        · simp [occurrences, occurrences_quote_cons, Nat.add_comm]
    · rename_i hne
      cases hf : findAt escapedQuote tl with
      | none => rw [hf] at h; cases h
      | some j =>
        rw [hf] at h
        simp only [Option.map_some', Option.some.injEq] at h
        obtain ⟨a, b, hl, ha, hr, ho⟩ := ih j hf
        refine ⟨c :: a, b, by rw [hl]; rfl, by simp [ha, h], ?_, ?_⟩
        · cases tl with
          | nil => cases hf
          | cons d rest =>
            have hcd : ¬ (c = backslash ∧ d = quote) := by simpa using hne
            simp only [replaceAllEscaped, hcd, if_false, hr, List.cons_append]
        · cases tl with
          | nil => cases hf
          | cons d rest =>
            have hcd : ¬ (c = backslash ∧ d = quote) := by simpa using hne
            simp only [occurrences, hcd, if_false, ho, Nat.zero_add]

theorem find_append (done rest : List Char) :
    find (done ++ rest) escapedQuote done.length =
      (findAt escapedQuote rest).map (· + done.length) := by
  simp [find]

/-- One iteration of the loop at the first occurrence after the part `done`. -/
theorem replace_at_occurrence (done a b : List Char) :
    replace (done ++ (a ++ backslash :: quote :: b)) (a.length + done.length) 2 [quote] =
      some ((done ++ a ++ [quote]) ++ b) := by
  have hlen : a.length + done.length = (done ++ a).length := by simp [Nat.add_comm]
  have h1 : done ++ (a ++ backslash :: quote :: b) = (done ++ a) ++ backslash :: quote :: b := by
    simp
  have h2 : (done ++ a) ++ backslash :: quote :: b =
      ((done ++ a) ++ [backslash, quote]) ++ b := by simp
  unfold replace
  rw [if_neg (by simp; omega), h1, hlen, List.take_left, h2,
    List.drop_left' (by simp; omega)]

/-- The loop, started on `done ++ rest` at the first occurrence in `rest`, ends with the
single pass applied to `rest`, after as many iterations as `rest` has occurrences. -/
theorem unescapeLoop_eq (fuel : Nat) :
    ∀ (done rest : List Char) (n : Nat), occurrences rest ≤ fuel →
      unescapeLoop fuel (done ++ rest) ((findAt escapedQuote rest).map (· + done.length)) n =
        some (done ++ replaceAllEscaped rest, n + occurrences rest) := by
  induction fuel with
  | zero =>
    intro done rest n hf
    cases hfind : findAt escapedQuote rest with
    | none =>
      obtain ⟨h1, h2⟩ := findAt_none rest hfind
      simp [unescapeLoop, h1, h2]
    | some i =>
      obtain ⟨a, b, -, -, -, ho⟩ := findAt_some rest i hfind
      omega
  | succ fuel ih =>
    intro done rest n hf
    cases hfind : findAt escapedQuote rest with
    | none =>
      obtain ⟨h1, h2⟩ := findAt_none rest hfind
      simp [unescapeLoop, h1, h2]
    | some i =>
      obtain ⟨a, b, hl, ha, hr, ho⟩ := findAt_some rest i hfind
      subst hl
      subst ha
      simp only [Option.map_some', unescapeLoop, replace_at_occurrence]
      have hpos : a.length + done.length + 1 = (done ++ a ++ [quote]).length := by
        simp; omega
      rw [hpos, find_append, ih (done ++ a ++ [quote]) b (n + 1) (by omega), hr, ho]
      simp only [List.append_assoc, List.singleton_append, Option.some.injEq, Prod.mk.injEq,
        true_and]
      omega

theorem unescape_eq (temp : List Char) (fuel : Nat) (hf : occurrences temp ≤ fuel) :
    unescapeLoop fuel temp (find temp escapedQuote 0) 0 =
      some (replaceAllEscaped temp, occurrences temp) := by
  have := unescapeLoop_eq fuel [] temp 0 hf
  simpa [find] using this

/-- The lengths of a string, of its single pass and the number of occurrences. -/
theorem length_replaceAllEscaped (n : Nat) :
    ∀ l : List Char, l.length ≤ n →
      (replaceAllEscaped l).length + occurrences l = l.length ∧
      occurrences l ≤ (replaceAllEscaped l).length := by
  induction n with
  | zero =>
    intro l hl
    cases l with
    | nil => exact ⟨rfl, Nat.le_refl _⟩
    | cons c tl => simp at hl
  | succ n ih =>
    intro l hl
    cases hfind : findAt escapedQuote l with
    | none =>
      obtain ⟨h1, h2⟩ := findAt_none l hfind
      rw [h1, h2]
      exact ⟨rfl, Nat.zero_le _⟩
    | some i =>
      obtain ⟨a, b, rfl, -, hr, ho⟩ := findAt_some l i hfind
      have hb : b.length ≤ n := by
        simp only [List.length_append, List.length_cons] at hl
        omega
      obtain ⟨h1, h2⟩ := ih b hb
      rw [hr, ho]
      simp only [List.length_append, List.length_cons]
      omega

theorem occurrences_le_half (l : List Char) : occurrences l ≤ l.length / 2 := by
  obtain ⟨h1, h2⟩ := length_replaceAllEscaped l.length l (Nat.le_refl _)
  omega

theorem occurrences_cons (c : Char) (tl : List Char) :
    occurrences (c :: tl) =
      (if c = backslash ∧ tl.head? = some quote then 1 else 0) + occurrences tl := by
  cases tl with
  | nil => simp [occurrences]
  | cons d rest => simp [occurrences]

theorem occurrences_eq_length_indices (l : List Char) :
    occurrences l = (occurrenceIndices l).length := by
  induction l with
  | nil => rfl
  | cons c tl ih =>
    rw [occurrences_cons, ih]
    unfold occurrenceIndices
    rw [List.length_cons, List.range_succ_eq_map, List.filter_cons, List.filter_map]
    have hfun : ((fun i => decide ((c :: tl)[i]? = some backslash ∧
        (c :: tl)[i + 1]? = some quote)) ∘ Nat.succ) =
        fun i => decide (tl[i]? = some backslash ∧ tl[i + 1]? = some quote) := by
      funext i
      simp
    rw [hfun]
    have hhead : tl[0]? = tl.head? := by cases tl <;> simp
    by_cases hp : c = backslash ∧ tl.head? = some quote
    · have : decide ((c :: tl)[0]? = some backslash ∧ (c :: tl)[0 + 1]? = some quote) = true := by
        simp [hhead, hp.1, hp.2]
      rw [if_pos hp, if_pos this, List.length_cons, List.length_map]
      omega
    · have : ¬ (decide ((c :: tl)[0]? = some backslash ∧ (c :: tl)[0 + 1]? = some quote)
          = true) := by
        simpa [hhead] using hp
      rw [if_neg hp, if_neg this, List.length_map]
      omega

theorem find_ge {t str : List Char} {p x : Nat} (h : find t str p = some x) : p ≤ x := by
  unfold find at h
  split at h
  · cases h
  · cases hf : findAt str (t.drop p) with
    | none => rw [hf] at h; cases h
    | some i =>
      rw [hf] at h
      simp only [Option.map_some', Option.some.injEq] at h
      omega

theorem find_escapedQuote_bound {t : List Char} {p x : Nat}
    (h : find t escapedQuote p = some x) : x + 2 ≤ t.length := by
  unfold find at h
  split at h
  · cases h
  · rename_i hp
    cases hf : findAt escapedQuote (t.drop p) with
    | none => rw [hf] at h; cases h
    | some i =>
      rw [hf] at h
      simp only [Option.map_some', Option.some.injEq] at h
      obtain ⟨a, b, hl, ha, -, -⟩ := findAt_some _ i hf
      have hlen := congrArg List.length hl
      simp only [List.length_drop, List.length_append, List.length_cons] at hlen
      omega

/-- C17: on every token the find-and-replace loop of lines 302-306 returns, and what it
returns is the single left-to-right pass that replaces each backslash followed by a
double quote by a double quote; any number of iterations that is at least the number
of occurrences suffices.  The length of the result is the length of the token minus
the number of its occurrences of the sequence, counted over all its indices: every
occurrence of the token has been replaced. -/
theorem C17_unescape_single_pass (temp : List Char) :
    unescape temp = some (replaceAllEscaped temp, occurrences temp) ∧
    (∀ fuel, occurrences temp ≤ fuel →
      unescapeLoop fuel temp (find temp escapedQuote 0) 0 =
        some (replaceAllEscaped temp, occurrences temp)) ∧
    (replaceAllEscaped temp).length + (occurrenceIndices temp).length = temp.length ∧
    (replaceAllEscaped temp).length = temp.length - (occurrenceIndices temp).length ∧
    occurrences temp = (occurrenceIndices temp).length ∧
    (occurrences temp = 0 → replaceAllEscaped temp = temp) := by
  have hlen := (length_replaceAllEscaped temp.length temp (Nat.le_refl _)).1
  have hhalf := occurrences_le_half temp
  have hocc := occurrences_eq_length_indices temp
  refine ⟨unescape_eq temp temp.length (by omega), fun fuel hf => unescape_eq temp fuel hf,
    by omega, by omega, hocc, ?_⟩
  intro h0
  cases hfind : findAt escapedQuote temp with
  | none => exact (findAt_none temp hfind).1
  | some i =>
    obtain ⟨a, b, -, -, -, ho⟩ := findAt_some temp i hfind
    omega

/-- C20: the loop of lines 303-306 ends on every token, after at most half its length
iterations.  In each iteration the position found lies at or after the position the
search started from, the replacement at it makes the string one character shorter, and
the next position found, if any, is greater. -/
theorem C20_unescape_terminates (temp : List Char) :
    (∃ result n, unescape temp = some (result, n) ∧ n ≤ temp.length / 2 ∧
      ∀ fuel, n ≤ fuel →
        unescapeLoop fuel temp (find temp escapedQuote 0) 0 = some (result, n)) ∧
    (∀ (t : List Char) (p pos : Nat), find t escapedQuote p = some pos →
      p ≤ pos ∧
      ∃ t', replace t pos 2 [quote] = some t' ∧ t'.length + 1 = t.length ∧
        ∀ pos', find t' escapedQuote (pos + 1) = some pos' → pos < pos') := by
  constructor
  · exact ⟨replaceAllEscaped temp, occurrences temp,
      unescape_eq temp temp.length (by have := occurrences_le_half temp; omega),
      occurrences_le_half temp, fun fuel hf => unescape_eq temp fuel hf⟩
  · intro t p pos h
    have hb := find_escapedQuote_bound h
    refine ⟨find_ge h, t.take pos ++ [quote] ++ t.drop (pos + 2), ?_, ?_, ?_⟩
    · unfold replace
      rw [if_neg (by omega)]
    · simp only [List.length_append, List.length_take, List.length_drop, List.length_cons,
        List.length_nil]
      omega
    · intro pos' h'
      have := find_ge h'
      omega

/-! ## The options file -/

theorem wsTokens_nil : wsTokens [] = [] := by
  simp [wsTokens, List.splitOnP_nil]

theorem wsTokens_cons_space (x : Char) (l : List Char) (hx : isspace x = true) :
    wsTokens (x :: l) = wsTokens l := by
  simp [wsTokens, List.splitOnP_cons, hx]

theorem wsTokens_spaces (ws l : List Char) (h : ∀ x ∈ ws, isspace x = true) :
    wsTokens (ws ++ l) = wsTokens l := by
  induction ws with
  | nil => rfl
  | cons x xs ih =>
    rw [List.cons_append, wsTokens_cons_space x _ (h x (List.mem_cons_self _ _))]
    exact ih fun y hy => h y (List.mem_cons_of_mem _ hy)

theorem wsTokens_token (tok rest : List Char) (hne : tok ≠ [])
    (htok : ∀ x ∈ tok, isspace x = false)
    (hrest : rest = [] ∨ ∃ sep as, rest = sep :: as ∧ isspace sep = true) :
    wsTokens (tok ++ rest) = tok :: wsTokens rest := by
  have hne' : (!tok.isEmpty) = true := by
    cases tok with
    | nil => exact absurd rfl hne
    | cons c cs => rfl
  have hnp : ∀ x ∈ tok, ¬ isspace x = true := fun x hx => by simp [htok x hx]
  rcases hrest with rfl | ⟨sep, as, rfl, hsep⟩
  · rw [List.append_nil, wsTokens_nil]
    simp [wsTokens, List.splitOnP_eq_single isspace tok hnp, hne']
  · rw [wsTokens_cons_space sep as hsep]
    simp [wsTokens, List.splitOnP_first isspace tok hnp sep hsep as, hne']

theorem readOptions_not_good (fuel : Nat) (ssin : StringStream)
    (acc : List (List Char)) (h : ssin.good = false) : readOptions fuel ssin acc = some acc := by
  cases fuel <;> simp [readOptions, h]

theorem unescape_some (temp : List Char) :
    unescape temp = some (replaceAllEscaped temp, occurrences temp) :=
  unescape_eq temp temp.length (by have := occurrences_le_half temp; omega)

/-- The loop over the stream computes the argument list of the specification. -/
theorem readOptions_eq (n : Nat) :
    ∀ (buf : List Char) (acc : List (List Char)) (fuel : Nat), buf.length ≤ n →
      buf.length + 1 ≤ fuel →
      readOptions fuel { buf := buf, eofbit := false, failbit := false } acc =
        some (acc ++ optionsSpec buf) := by
  induction n with
  | zero =>
    intro buf acc fuel hn hf
    have hb : buf = [] := List.length_eq_zero.1 (Nat.le_zero.1 hn)
    subst hb
    obtain ⟨f, rfl⟩ : ∃ f, fuel = f + 1 := ⟨fuel - 1, by omega⟩
    have he : StringStream.extract { buf := [], eofbit := false, failbit := false } =
        ([], { buf := [], eofbit := true, failbit := true }) := rfl
    simp only [readOptions, StringStream.good, Bool.not_false, Bool.and_self, if_true, he,
      unescape_some]
    rw [readOptions_not_good _ { buf := [], eofbit := true, failbit := true } _ rfl]
    simp [replaceAllEscaped, optionsSpec, wsTokens_nil]
  | succ n ih =>
    intro buf acc fuel hn hf
    obtain ⟨f, rfl⟩ : ∃ f, fuel = f + 1 := ⟨fuel - 1, by omega⟩
    have hsplit : buf.takeWhile isspace ++ buf.dropWhile isspace = buf :=
      List.takeWhile_append_dropWhile isspace buf
    have hws : ∀ x ∈ buf.takeWhile isspace, isspace x = true := fun x hx =>
      List.mem_takeWhile_imp hx
    cases hd : buf.dropWhile isspace with
    | nil =>
      have he : StringStream.extract { buf := buf, eofbit := false, failbit := false } =
          ([], { buf := [], eofbit := true, failbit := true }) := by
        simp [StringStream.extract, StringStream.good, hd]
      have hspec : optionsSpec buf = [] := by
        rw [hd, List.append_nil] at hsplit
        rw [← hsplit]
        have := wsTokens_spaces (buf.takeWhile isspace) [] hws
        rw [List.append_nil, wsTokens_nil] at this
        simp [optionsSpec, this]
      simp only [readOptions, StringStream.good, Bool.not_false, Bool.and_self, if_true, he,
        unescape_some]
      rw [readOptions_not_good _ { buf := [], eofbit := true, failbit := true } _ rfl, hspec]
      simp [replaceAllEscaped]
    | cons c cs =>
      have hc : isspace c = false := by
        have := List.head_dropWhile_not isspace buf (by rw [hd]; simp)
        simpa [hd] using this
      have htok_eq : (c :: cs).takeWhile (fun x => !isspace x) ++
          (c :: cs).dropWhile (fun x => !isspace x) = c :: cs :=
        List.takeWhile_append_dropWhile _ _
      have htok : ∀ x ∈ (c :: cs).takeWhile (fun x => !isspace x), isspace x = false :=
        fun x hx => by simpa using List.mem_takeWhile_imp hx
      have hne : (c :: cs).takeWhile (fun x => !isspace x) ≠ [] := by
        simp [List.takeWhile, hc]
      have he : StringStream.extract { buf := buf, eofbit := false, failbit := false } =
          ((c :: cs).takeWhile (fun x => !isspace x),
            { buf := (c :: cs).dropWhile (fun x => !isspace x),
              eofbit := ((c :: cs).dropWhile (fun x => !isspace x)).isEmpty,
              failbit := false }) := by
        simp [StringStream.extract, StringStream.good, hd]
      generalize htk : (c :: cs).takeWhile (fun x => !isspace x) = tok at *
      have hrest : (c :: cs).dropWhile (fun x => !isspace x) = [] ∨
          ∃ sep as, (c :: cs).dropWhile (fun x => !isspace x) = sep :: as ∧
            isspace sep = true := by
        cases hr : (c :: cs).dropWhile (fun x => !isspace x) with
        | nil => exact Or.inl rfl
        | cons sep as =>
          refine Or.inr ⟨sep, as, rfl, ?_⟩
          have := List.head_dropWhile_not (fun x => !isspace x) (c :: cs) (by rw [hr]; simp)
          simpa [hr] using this
      generalize hrs : (c :: cs).dropWhile (fun x => !isspace x) = rest at *
      have hbuf : buf = buf.takeWhile isspace ++ (tok ++ rest) := by
        rw [htok_eq, ← hd, hsplit]
      have hspec : optionsSpec buf =
          [replaceAllEscaped tok].filter
            (fun t => decide (t.length > 0 ∧ t ≠ Werror)) ++ optionsSpec rest := by
        have h1 : wsTokens buf = tok :: wsTokens rest := by
          rw [hbuf, wsTokens_spaces _ _ hws, wsTokens_token tok rest hne htok hrest]
        simp only [optionsSpec, h1, List.map_cons, List.filter_cons, List.filter_nil]
        split <;> simp
      have hlen2 : rest.length + 1 ≤ buf.length := by
        have h2 := congrArg List.length hbuf
        have h3 : 0 < tok.length := List.length_pos.2 hne
        simp only [List.length_append] at h2
        omega
      have hlen : rest.length ≤ n := by omega
      simp only [readOptions, StringStream.good, Bool.not_false, Bool.and_self, if_true, he,
        unescape_some]
      rw [hspec]
      have hacc : (if (replaceAllEscaped tok).length > 0 ∧ replaceAllEscaped tok ≠ Werror
          then acc ++ [replaceAllEscaped tok] else acc) =
          acc ++ [replaceAllEscaped tok].filter
            (fun t => decide (t.length > 0 ∧ t ≠ Werror)) := by
        by_cases hk : (replaceAllEscaped tok).length > 0 ∧ replaceAllEscaped tok ≠ Werror
        · rw [if_pos hk, List.filter_cons, if_pos (decide_eq_true hk), List.filter_nil]
        · rw [if_neg hk, List.filter_cons, if_neg (by simpa using hk), List.filter_nil,
            List.append_nil]
      rw [hacc]
      rcases hrest with hr | ⟨sep, as, hr, hsep⟩
      · subst hr
        rw [readOptions_not_good f { buf := [], eofbit := [].isEmpty, failbit := false } _ rfl]
        simp [optionsSpec, wsTokens_nil]
      · have hgood : ({ buf := rest, eofbit := rest.isEmpty, failbit := false } :
            StringStream) = { buf := rest, eofbit := false, failbit := false } := by
          rw [hr]; rfl
        rw [hgood, ih rest _ f hlen (by omega), List.append_assoc]

theorem replaceAllEscaped_ne_nil {t : List Char} (h : t ≠ []) : replaceAllEscaped t ≠ [] := by
  obtain ⟨h1, h2⟩ := length_replaceAllEscaped t.length t (Nat.le_refl _)
  have h3 : 0 < t.length := List.length_pos.2 h
  intro h4
  rw [h4] at h1 h2
  simp only [List.length_nil] at h1 h2
  omega

theorem mem_wsTokens {cs t : List Char} (h : t ∈ wsTokens cs) : t ≠ [] := by
  simp only [wsTokens, List.mem_filter] at h
  intro h0
  rw [h0] at h
  simp at h

theorem importOptions_eq (option_data : List Char) :
    importOptions option_data = some (optionsSpec option_data) := by
  simpa [importOptions] using
    readOptions_eq option_data.length option_data [] (option_data.length + 1)
      (Nat.le_refl _) (Nat.le_refl _)

/-- C14: for every content of the options file the loop of lines 298-310 returns, and the
argument list is the white-space delimited tokens of the content, each unescaped, in
their order, without those that are empty or equal, after unescaping, to `-Werror`.
The list holds neither an empty string nor `-Werror`, and every token whose unescaped
form is not `-Werror` is in it unescaped. -/
theorem C14_options_tokens (option_data : List Char) :
    importOptions option_data = some (optionsSpec option_data) ∧
    (∀ fuel, option_data.length + 1 ≤ fuel →
      readOptions fuel { buf := option_data, eofbit := false, failbit := false } [] =
        some (optionsSpec option_data)) ∧
    optionsSpec option_data =
      ((wsTokens option_data).map replaceAllEscaped).filter
        (fun t => decide (t.length > 0 ∧ t ≠ Werror)) ∧
    [] ∉ optionsSpec option_data ∧ Werror ∉ optionsSpec option_data ∧
    (∀ t ∈ wsTokens option_data, replaceAllEscaped t ≠ Werror →
      replaceAllEscaped t ∈ optionsSpec option_data) ∧
    (∀ a ∈ optionsSpec option_data, ∃ t ∈ wsTokens option_data, a = replaceAllEscaped t) := by
  have hloop : ∀ fuel, option_data.length + 1 ≤ fuel →
      readOptions fuel { buf := option_data, eofbit := false, failbit := false } [] =
        some (optionsSpec option_data) := by
    intro fuel hf
    simpa using readOptions_eq option_data.length option_data [] fuel (Nat.le_refl _) hf
  refine ⟨hloop _ (Nat.le_refl _), hloop, rfl, ?_, ?_, ?_, ?_⟩
  · intro h
    simp [optionsSpec, List.mem_filter] at h
  · intro h
    simp [optionsSpec, List.mem_filter] at h
  · intro t ht hne
    simp only [optionsSpec, List.mem_filter, List.mem_map, decide_eq_true_eq]
    exact ⟨⟨t, ht, rfl⟩, List.length_pos.2 (replaceAllEscaped_ne_nil (mem_wsTokens ht)), hne⟩
  · intro a ha
    simp only [optionsSpec, List.mem_filter, List.mem_map] at ha
    obtain ⟨⟨t, ht, rfl⟩, -⟩ := ha
    exact ⟨t, ht, rfl⟩

/-! ## The module name -/

theorem lastIndex_none (c : Char) (s : List Char) (h : lastIndex c s = none) : c ∉ s := by
  induction s with
  | nil => simp
  | cons x xs ih =>
    simp only [lastIndex] at h
    cases hl : lastIndex c xs with
    | some i => rw [hl] at h; cases h
    | none =>
      rw [hl] at h
      simp only at h
      by_cases hx : x = c
      · rw [if_pos hx] at h; cases h
      · simp only [List.mem_cons, not_or]
        exact ⟨fun e => hx e.symm, ih hl⟩

theorem lastIndex_some (c : Char) (s : List Char) :
    ∀ i, lastIndex c s = some i →
      ∃ pre post, s = pre ++ c :: post ∧ pre.length = i ∧ c ∉ post := by
  induction s with
  | nil => intro i h; cases h
  | cons x xs ih =>
    intro i h
    simp only [lastIndex] at h
    cases hl : lastIndex c xs with
    | some j =>
      rw [hl] at h
      simp only [Option.some.injEq] at h
      obtain ⟨pre, post, hs, hp, hn⟩ := ih j hl
      exact ⟨x :: pre, post, by rw [hs]; rfl, by simp [hp, h], hn⟩
    | none =>
      rw [hl] at h
      simp only at h
      by_cases hx : x = c
      · rw [if_pos hx] at h
        cases h
        exact ⟨[], xs, by rw [hx]; rfl, rfl, lastIndex_none c xs hl⟩
      · rw [if_neg hx] at h; cases h

theorem module_name_spec (s : List Char) (hlen : s.length < 2 ^ 64) :
    ∃ name, module_name s = some name ∧
      (('/' ∉ s ∧ name = s) ∨ ∃ pre, s = pre ++ '/' :: name) ∧
      '/' ∉ name ∧ name <:+ s := by
  unfold module_name find_last_of
  cases hl : lastIndex '/' s with
  | none =>
    have hn := lastIndex_none '/' s hl
    refine ⟨s, ?_, Or.inl ⟨hn, rfl⟩, hn, List.suffix_refl s⟩
    simp [substr, npos]
  | some i =>
    obtain ⟨pre, post, hs, hp, hn⟩ := lastIndex_some '/' s i hl
    have hlen' : s.length = i + 1 + post.length := by
      rw [hs, List.length_append, List.length_cons, hp]
      omega
    have hmod : (i + 1) % 2 ^ 64 = i + 1 := Nat.mod_eq_of_lt (by omega)
    refine ⟨post, ?_, Or.inr ⟨pre, hs⟩, hn, ?_⟩
    · simp only [hmod, substr]
      rw [if_neg (by omega)]
      have hd : s.drop (i + 1) = post := by
        rw [hs, show pre ++ '/' :: post = (pre ++ ['/']) ++ post by simp]
        exact List.drop_left' (by simp [hp])
      rw [hd]
    · rw [hs]
      exact ⟨pre ++ ['/'], by simp⟩

theorem emit_document {cl : CommandLine} {env : Environment} {summary0 summary : Node}
    {out : String} {code : Int} (h : emit cl env summary0 = .document summary out code) :
    summary = summary0 ∧ out = cl.output_filename ∧ code = 0 := by
  unfold emit at h
  split at h
  · cases h
    exact ⟨rfl, rfl, rfl⟩
  · split at h
    · cases h
    · split at h
      · cases h
        exact ⟨rfl, rfl, rfl⟩
      · cases h

theorem main_document {cl : CommandLine} {env : Environment} {summary : Node}
    {out : String} {code : Int} (h : main cl env = .document summary out code) :
    ∃ name s, module_name cl.module_filename.data = some name ∧
      summary = summaryOf (String.mk name) s ∧ out = cl.output_filename ∧ code = 0 := by
  unfold main at h
  split at h
  · cases h
  · split at h
    · cases h
    · split at h
      · cases h
      · cases h
      · split at h
        · cases h
        · split at h
          · cases h
          · split at h
            · cases h
            · split at h
              · cases h
              · split at h
                · cases h
                · rename_i name hname
                  obtain ⟨h1, h2, h3⟩ := emit_document h
                  exact ⟨name, _, hname, h1, h2, h3⟩

/-- C15: when `main` emits a document for a target file name shorter than 2^64
characters, the name field of the document is the part of the target file name after
its last `/`, the whole name when it has no `/`; so the name field has no `/` and the
target file name ends with it. -/
theorem C15_module_name (cl : CommandLine) (env : Environment) (summary : Node)
    (out : String) (code : Int) (hlen : cl.module_filename.data.length < 2 ^ 64)
    (hdoc : main cl env = .document summary out code) :
    ∃ name : List Char, summary.find? "name" = some (.str (String.mk name)) ∧
      module_name cl.module_filename.data = some name ∧
      (('/' ∉ cl.module_filename.data ∧ name = cl.module_filename.data) ∨
        ∃ pre, cl.module_filename.data = pre ++ '/' :: name) ∧
      '/' ∉ name ∧ name <:+ cl.module_filename.data := by
  obtain ⟨name, s, hname, hsum, -, -⟩ := main_document hdoc
  obtain ⟨name', hn', h1, h2, h3⟩ := module_name_spec cl.module_filename.data hlen
  rw [hname] at hn'
  cases hn'
  refine ⟨name, ?_, hname, h1, h2, h3⟩
  rw [hsum]
  rfl

/-- C15, witness: the run `yamlyze -f src/m.c -c` emits a document named `m.c`. -/
theorem C15_module_name_witness :
    exampleCommandLine.module_filename.data.length < 2 ^ 64 ∧
    ∃ summary, main exampleCommandLine exampleEnvironment = .document summary "" 0 ∧
      summary.find? "name" = some (.str "m.c") ∧
      exampleCommandLine.module_filename.data = "src".data ++ '/' :: "m.c".data := by
  have hlen : exampleCommandLine.module_filename.data.length < 2 ^ 64 := by decide
  have hdoc : main exampleCommandLine exampleEnvironment =
      .document (summaryOf "m.c" { addState with current_function_name := "add" }) "" 0 :=
    rfl
  obtain ⟨name, h1, h2, -, -, -⟩ :=
    C15_module_name exampleCommandLine exampleEnvironment _ _ _ hlen hdoc
  have hn : module_name exampleCommandLine.module_filename.data = some "m.c".data := rfl
  rw [hn] at h2
  cases h2
  exact ⟨hlen, _, hdoc, h1, rfl⟩

/-! ## The exit code -/

theorem module_name_some (s : List Char) : ∃ name, module_name s = some name := by
  unfold module_name find_last_of substr
  cases hl : lastIndex '/' s with
  | none => exact ⟨s, by simp [npos]⟩
  | some i =>
    obtain ⟨pre, post, hs, hp, -⟩ := lastIndex_some '/' s i hl
    have hlen' : s.length = i + 1 + post.length := by
      rw [hs, List.length_append, List.length_cons, hp]
      omega
    have hle : (i + 1) % 2 ^ 64 ≤ i + 1 := Nat.mod_le _ _
    exact ⟨_, by simp only []; rw [if_neg (by omega)]⟩

theorem compileOptions_spec (cl : CommandLine) (env : Environment)
    (h : cl.option_file = "" ∨
      ∃ option_data, env.ifstream cl.option_file = some (some option_data)) :
    ∃ arg_strings, compileOptions cl env = some (some arg_strings) ∧
      arg_strings.map String.mk = argStringsSpec cl env := by
  unfold compileOptions argStringsSpec
  have hempty : ("" : String).isEmpty = true := rfl
  by_cases he : cl.option_file = ""
  · refine ⟨[], ?_, ?_⟩
    · simp [he, hempty]
    · simp [he]
  · have hemp : cl.option_file.isEmpty = false := by
      rw [Bool.eq_false_iff, Ne, String.isEmpty_iff]; exact he
    rcases h with h | ⟨option_data, hf⟩
    · exact absurd h he
    · refine ⟨optionsSpec option_data.data, ?_, ?_⟩
      · simp [hemp, hf, importOptions_eq]
      · simp [he, hf]

theorem isEmpty_eq_false {s : String} (h : s ≠ "") : s.isEmpty = false := by
  rw [Bool.eq_false_iff, Ne, String.isEmpty_iff]
  exact h

theorem not_usage {cl : CommandLine} (h : ¬ (cl.help = true ∨ cl.module_filename = "")) :
    (cl.help || cl.module_filename.isEmpty) = false := by
  rw [Bool.or_eq_false_iff]
  constructor
  · cases hh : cl.help
    · rfl
    · exact absurd (Or.inl hh) h
  · exact isEmpty_eq_false fun e => h (Or.inr e)

/-- The runs of `main` that an exception ends: past the usage, the canonical form of
the target path throws (line 284); or else the options file is open and reading it
throws (line 296). -/
theorem main_exception_early (cl : CommandLine) (env : Environment)
    (hu : ¬ (cl.help = true ∨ cl.module_filename = "")) :
    (env.weakly_canonical cl.module_filename = none → main cl env = .exception) ∧
    (∀ module_filepath, env.weakly_canonical cl.module_filename = some module_filepath →
      cl.option_file ≠ "" → env.ifstream cl.option_file = some none →
      main cl env = .exception) := by
  have hu' := not_usage hu
  constructor
  · intro hw
    simp [main, hu', hw]
  · intro module_filepath hw he hf
    simp [main, hu', hw, compileOptions, isEmpty_eq_false he, hf]

/-- A call of `weakly_canonical` that throws during the traversal ends the run by that
exception. -/
theorem main_exception_traversal (cl : CommandLine) (env : Environment)
    (hu : ¬ (cl.help = true ∨ cl.module_filename = ""))
    (module_filepath : String)
    (hw : env.weakly_canonical cl.module_filename = some module_filepath)
    (ho : cl.option_file = "" ∨
      ∃ option_data, env.ifstream cl.option_file = some (some option_data))
    (SourceCode : String) (root : AST)
    (hg : env.getFile module_filepath = some SourceCode)
    (hb : env.buildASTFromCodeWithArgs SourceCode (argStringsSpec cl env) module_filepath =
      some root)
    (ht : traversalThrows (globalsOf cl env module_filepath) env root = true) :
    main cl env = .exception := by
  obtain ⟨arg_strings, hc, ha⟩ := compileOptions_spec cl env ho
  rw [← ha] at hb
  simp [main, not_usage hu, hw, hc, hg, hb, ht]

/-- The output statements (lines 348-357): without an output file name the document
goes to standard output; with one, an exception of `create_directories` leaves `main`,
which it does when the name has no directory part; when the directories exist, the
document is written if the file is open and nowhere if it is not, and `main` returns 0
in both cases. -/
theorem emit_spec (cl : CommandLine) (env : Environment) (summary : Node) :
    (cl.output_filename = "" → emit cl env summary = .document summary "" 0) ∧
    (cl.output_filename ≠ "" →
      (create_directories env (String.mk (parent_path cl.output_filename.data)) = none →
        emit cl env summary = .exception) ∧
      ('/' ∉ cl.output_filename.data → emit cl env summary = .exception) ∧
      ((∃ b, create_directories env (String.mk (parent_path cl.output_filename.data)) =
          some b) →
        (env.ofstream cl.output_filename = true →
          emit cl env summary = .document summary cl.output_filename 0) ∧
        (env.ofstream cl.output_filename = false → emit cl env summary = .unwritten 0))) := by
  have hempty : ("" : String).isEmpty = true := rfl
  constructor
  · intro h
    simp [emit, h, hempty]
  · intro h
    have he := isEmpty_eq_false h
    have hnone : create_directories env (String.mk (parent_path cl.output_filename.data)) =
        none → emit cl env summary = .exception := by
      intro hc
      simp [emit, he, hc]
    refine ⟨hnone, ?_, ?_⟩
    · intro hs
      apply hnone
      have hl : lastIndex '/' cl.output_filename.data = none := by
        cases hl : lastIndex '/' cl.output_filename.data with
        | none => rfl
        | some i =>
          obtain ⟨pre, post, hpp, -, -⟩ := lastIndex_some '/' _ i hl
          exact absurd (by rw [hpp]; simp) hs
      simp only [parent_path, hl, create_directories]
      rfl
    · rintro ⟨b, hc⟩
      constructor
      · intro ho
        simp [emit, he, hc, ho]
      · intro ho
        simp [emit, he, hc, ho]

end Yamlyze
